import Mathlib

/-!
# inspect-deps: a verification development

Shallow embedding of the core of `src/main.cpp`:

* `LdCache`      : parser of the dynamic-linker cache image and `resolve`
* `AlpmManager`  : batched package attribution (`batch_resolve`, `get_package`)
* `DepGraph`     : breadth-first construction of the dependency graph (`build`)
                   and the minimal package set (`get_minimal_pkgs`)

Conventions.
* `std::string` is embedded as `String`; a byte of the cache image is a `Fin 256`
  and is decoded to the character with the same code.
* `std::unordered_map<K, V>` is embedded as an association list with at most one
  entry per key (`set` replaces an existing entry, otherwise appends).
* `size_t` is 64 bits wide (LP64 Linux), `uint32_t` fields are read little-endian.
* A load from the memory mapping at a position that is not below `mmap_size`
  is a fault: it is reported as `Except.error pos`.
-/

deriving instance DecidableEq for Except

namespace InspectDeps

/-! ## Association lists standing for `std::unordered_map` -/

/-- The value stored under key `k`, if any (`find`). -/
def amFind {β : Type} : List (String × β) → String → Option β
  | [], _ => none
  | (k', v) :: rest, k => if k' = k then some v else amFind rest k

/-- Membership test of a key (`contains`). -/
def amContains {β : Type} (m : List (String × β)) (k : String) : Bool :=
  (amFind m k).isSome

/-- Store `v` under `k`: replace the entry when the key is present, else add one. -/
def amSet {β : Type} : List (String × β) → String → β → List (String × β)
  | [], k, v => [(k, v)]
  | (k', v') :: rest, k, v =>
    if k' = k then (k, v) :: rest else (k', v') :: amSet rest k v

/-- Insert only when the key is absent (`emplace`). -/
def amEmplace {β : Type} (m : List (String × β)) (k : String) (v : β) : List (String × β) :=
  if amContains m k then m else m ++ [(k, v)]

/-- Remove the entry of key `k` (`erase`). -/
def amErase {β : Type} : List (String × β) → String → List (String × β)
  | [], _ => []
  | (k', v') :: rest, k => if k' = k then rest else (k', v') :: amErase rest k

/-- The keys, in iteration order. -/
def amKeys {β : Type} (m : List (String × β)) : List String := m.map Prod.fst

/-! ## LdCache -/

/-- One byte of the mapped cache file. -/
abbrev Byte := Fin 256

/-- The value of `sizeof(HeaderNew)`: `char[20]`, two `uint32_t`, `uint32_t[5]`. -/
def HEADER_SIZE : Nat := 48

/-- The value of `sizeof(EntryNew)`: four 32-bit fields and one `uint64_t`. -/
def ENTRY_SIZE : Nat := 24

/-- Width of `size_t` in bits. -/
def SIZE_BITS : Nat := 64

/-- Decode a byte string to a `String`, byte by byte. -/
def bytesToString (bs : List Byte) : String :=
  String.mk (bs.map (fun b => Char.ofNat b.val))

/-- The bytes of an ASCII literal. -/
def asciiBytes (s : String) : List Byte :=
  s.data.map (fun c => Fin.ofNat c.toNat)

/-- The 17 bytes compared against `header->magic`. -/
def MAGIC : List Byte := asciiBytes "glibc-ld.so.cache"

/-- Load of one byte of the mapping; a position outside the mapping faults. -/
def readByte (mem : List Byte) (pos : Nat) : Except Nat Byte :=
  match mem.get? pos with
  | some b => .ok b
  | none => .error pos

/-- Load of a little-endian `uint32_t` at `pos`. -/
def readU32 (mem : List Byte) (pos : Nat) : Except Nat Nat := do
  let b0 ← readByte mem pos
  let b1 ← readByte mem (pos + 1)
  let b2 ← readByte mem (pos + 2)
  let b3 ← readByte mem (pos + 3)
  pure (b0.val + 256 * b1.val + 65536 * b2.val + 16777216 * b3.val)

/-- Load of `n` consecutive bytes starting at `pos`. -/
def readBytes (mem : List Byte) (pos : Nat) : Nat → Except Nat (List Byte)
  | 0 => .ok []
  | n + 1 => do
    let b ← readByte mem pos
    let rest ← readBytes mem (pos + 1) n
    pure (b :: rest)

/-- The scan of `strlen` over the bytes `rest` that start at position `pos`:
the bytes before the first NUL; running off the mapping faults. -/
def scanCStr : List Byte → Nat → Except Nat (List Byte)
  | [], pos => .error pos
  | b :: rest, pos =>
    if b = 0 then .ok []
    else do
      let tl ← scanCStr rest (pos + 1)
      pure (b :: tl)

/-- Construction of a `std::string_view` from `base_addr + off`. -/
def readCStr (mem : List Byte) (off : Nat) : Except Nat String := do
  let bs ← scanCStr (mem.drop off) off
  pure (bytesToString bs)

/-- The index `std::unordered_map<std::string_view, std::string_view> cache`. -/
structure LdCache where
  cache : List (String × String)
deriving DecidableEq, Repr

/-- The loop over `entries_span`: `n` entries remain, the next one has index `i`. -/
def LdCache.loadEntries (mem : List Byte) :
    Nat → Nat → List (String × String) → Except Nat (List (String × String))
  | 0, _, cache => .ok cache
  | n + 1, i, cache => do
    let key ← readU32 mem (HEADER_SIZE + i * ENTRY_SIZE + 4)
    let value ← readU32 mem (HEADER_SIZE + i * ENTRY_SIZE + 8)
    if key ≥ mem.length ∨ value ≥ mem.length then
      LdCache.loadEntries mem n (i + 1) cache
    else do
      let name ← readCStr mem key
      let path ← readCStr mem value
      LdCache.loadEntries mem n (i + 1) (amEmplace cache name path)

/-- The part of the constructor that runs once the file is mapped
(`mmap_size = mem.length`). -/
def LdCache.parse (mem : List Byte) : Except Nat LdCache :=
  if mem.length < HEADER_SIZE then .ok ⟨[]⟩
  else do
    let magic ← readBytes mem 0 17
    let version ← readByte mem 17
    if magic = MAGIC ∧ version = 49 then do
      let nlibs ← readU32 mem 20
      let offset_strings := (HEADER_SIZE + nlibs * ENTRY_SIZE) % 2 ^ SIZE_BITS
      if offset_strings > mem.length then .ok ⟨[]⟩
      else do
        let cache ← LdCache.loadEntries mem nlibs 0 []
        pure ⟨cache⟩
    else .ok ⟨[]⟩

/-- The constructor: `none` stands for a failed `open`, `fstat` or `mmap`. -/
def LdCache.create (file : Option (List Byte)) : Except Nat LdCache :=
  match file with
  | none => .ok ⟨[]⟩
  | some mem => LdCache.parse mem

/-- The lookup `resolve(soname)`. -/
def LdCache.resolve (c : LdCache) (soname : String) : Option String :=
  amFind c.cache soname

/-! ### Cache images used as test inputs -/

/-- Little-endian encoding of a 32-bit value. -/
def le32 (n : Nat) : List Byte :=
  [Fin.ofNat n, Fin.ofNat (n / 256), Fin.ofNat (n / 65536), Fin.ofNat (n / 16777216)]

/-- A header declaring `nlibs` entries. -/
def mkHeader (nlibs : Nat) : List Byte :=
  asciiBytes "glibc-ld.so.cache1.1" ++ le32 nlibs ++ le32 0 ++ List.replicate 20 0

/-- An entry record with the given offsets; `last` is the top byte of `hwcap`. -/
def mkEntry (key value : Nat) (last : Byte) : List Byte :=
  le32 0 ++ le32 key ++ le32 value ++ le32 0 ++ List.replicate 7 0 ++ [last]

/-- A file of exactly one 4096-byte page with one entry whose two offsets point
at the last byte of the file, which is not NUL. -/
def imageUnterminated : List Byte :=
  mkHeader 1 ++ mkEntry 4095 4095 0 ++ List.replicate 4023 0 ++ [65]

/-- A file of exactly one 4096-byte page: entry 0 maps "a" to "p"; the name
offset of entry 1 points at the last byte of the file, which is not NUL. -/
def imageSecondEntryUnterminated : List Byte :=
  mkHeader 2 ++ mkEntry 96 98 0 ++ mkEntry 4095 98 0 ++ [97, 0, 112, 0] ++
    List.replicate 3995 0 ++ [120]

/-- A well-formed image with a duplicated name: "a" maps to "p", then to "q". -/
def imageDuplicate : List Byte :=
  mkHeader 2 ++ mkEntry 96 98 0 ++ mkEntry 96 100 0 ++ [97, 0, 112, 0, 113, 0]

/-- The lookup that the entry table prescribes for `name`: the path string of
the first entry among the `n` entries from index `i` on whose two offsets lie
in the mapping and whose name string is `name`. -/
def firstMatch (mem : List Byte) (name : String) : Nat → Nat → Option String
  | 0, _ => none
  | n + 1, i =>
    match readU32 mem (HEADER_SIZE + i * ENTRY_SIZE + 4),
        readU32 mem (HEADER_SIZE + i * ENTRY_SIZE + 8) with
    | .ok key, .ok value =>
      if key < mem.length ∧ value < mem.length ∧ readCStr mem key = .ok name then
        (readCStr mem value).toOption
      else firstMatch mem name n (i + 1)
    | _, _ => firstMatch mem name n (i + 1)

/-! ## AlpmManager -/

/-- An installed package of the local database: its name and file manifest. -/
structure AlpmPkg where
  name : String
  files : List String
deriving DecidableEq, Repr

/-- What `alpm_initialize` hands back: `localdb` is the result of
`alpm_get_localdb` (`none` for a null pointer), as a package list. -/
structure AlpmHandle where
  localdb : Option (List AlpmPkg)

/-- A loaded shared library: the entry points it exports and the result of
calling its `alpm_initialize` (`none` for a null handle). -/
structure AlpmLib where
  symbols : List String
  init_result : Option AlpmHandle

/-- The process environment seen by the constructor: what `dlopen` finds. -/
structure AlpmEnv where
  dlopen : String → Option AlpmLib

/-- The entry points bound with `dlsym` in the constructor. -/
def ALPM_SYMBOLS : List String :=
  ["alpm_initialize", "alpm_release", "alpm_get_localdb", "alpm_strerror",
   "alpm_db_get_pkgcache", "alpm_list_next", "alpm_pkg_get_files", "alpm_pkg_get_name"]

/-- The fields of `AlpmManager` that later operations read. -/
structure AlpmManager where
  initialized : Bool
  db_local : Option (List AlpmPkg)
  pkg_cache : List (String × String)
deriving DecidableEq, Repr

/-- The state left by a constructor that returned early. -/
def AlpmManager.unloaded : AlpmManager := ⟨false, none, []⟩

/-- The three `dlopen` attempts of the constructor, in order. -/
def AlpmManager.openLib (env : AlpmEnv) : Option AlpmLib :=
  match env.dlopen "libalpm.so" with
  | some l => some l
  | none =>
    match env.dlopen "libalpm.so.13" with
    | some l => some l
    | none => env.dlopen "libalpm.so.14"

/-- The constructor `AlpmManager()`. -/
def AlpmManager.create (env : AlpmEnv) : AlpmManager :=
  match AlpmManager.openLib env with
  | none => AlpmManager.unloaded
  | some lib =>
    if ALPM_SYMBOLS.all (fun s => decide (s ∈ lib.symbols)) then
      match lib.init_result with
      | some h => ⟨true, h.localdb, []⟩
      | none => AlpmManager.unloaded
    else AlpmManager.unloaded

/-- The key of `lookup_map`: `p.substr(1)` when `p.starts_with('/')`, else `p`. -/
def stripSlash (p : String) : String :=
  match p.data with
  | '/' :: rest => String.mk rest
  | _ => p

/-- The inner loop of `batch_resolve` over the manifest of one package. The
flag of the result tells that the function returned (`lookup_map` got empty). -/
def AlpmManager.scanFiles (pkgname : String) :
    List String → List (String × String) → List (String × String) →
      Bool × List (String × String) × List (String × String)
  | [], lookup_map, pkg_cache => (false, lookup_map, pkg_cache)
  | filename :: fs, lookup_map, pkg_cache =>
    match amFind lookup_map filename with
    | some orig =>
      let pkg_cache1 := amSet pkg_cache orig pkgname
      let lookup_map1 := amErase lookup_map filename
      if lookup_map1.isEmpty then (true, lookup_map1, pkg_cache1)
      else AlpmManager.scanFiles pkgname fs lookup_map1 pkg_cache1
    | none => AlpmManager.scanFiles pkgname fs lookup_map pkg_cache

/-- The outer loop of `batch_resolve` over the package list. -/
def AlpmManager.scanPkgs :
    List AlpmPkg → List (String × String) → List (String × String) → List (String × String)
  | [], _, pkg_cache => pkg_cache
  | pkg :: rest, lookup_map, pkg_cache =>
    match AlpmManager.scanFiles pkg.name pkg.files lookup_map pkg_cache with
    | (true, _, pkg_cache1) => pkg_cache1
    | (false, lookup_map1, pkg_cache1) => AlpmManager.scanPkgs rest lookup_map1 pkg_cache1

/-- The method `batch_resolve(paths)`. -/
def AlpmManager.batch_resolve (a : AlpmManager) (paths : List String) : AlpmManager :=
  match a.initialized, a.db_local with
  | true, some db =>
    let to_find := paths.filter (fun p => !amContains a.pkg_cache p)
    if to_find.isEmpty then a
    else
      let lookup_map := to_find.foldl (fun m p => amSet m (stripSlash p) p) []
      { a with pkg_cache := AlpmManager.scanPkgs db lookup_map a.pkg_cache }
  | _, _ => a

/-- The method `get_package(path)`; "-" is the sentinel for an unknown owner. -/
def AlpmManager.get_package (a : AlpmManager) (path : String) : String :=
  match amFind a.pkg_cache path with
  | some pkg => pkg
  | none => "-"

/-- The method `is_available()`. -/
def AlpmManager.is_available (a : AlpmManager) : Bool := a.initialized

/-! ## DepGraph -/

/-- The record `Node`. The field `depth` is an `int` in the source; it is at most
the number of cache entries plus one, so it is embedded without wrap-around. -/
structure Node where
  path : String
  pkg : String
  depth : Nat
  children : List String
  parents : List String
deriving DecidableEq, Repr

/-- A value-initialised `Node`, as `operator[]` creates it. -/
def Node.empty : Node := ⟨"", "", 0, [], []⟩

/-- The node that `nodes[k]` refers to once `operator[]` has run. -/
def nodeAt (nodes : List (String × Node)) (k : String) : Node :=
  (amFind nodes k).getD Node.empty

/-- The effect of a bare `nodes[k]` on the map: a missing key gets an empty node. -/
def amTouch (nodes : List (String × Node)) (k : String) : List (String × Node) :=
  if amContains nodes k then nodes else amSet nodes k Node.empty

/-- The effect of `nodes[k].field = ...` or `nodes[k].field.push_back(...)`. -/
def amModify (nodes : List (String × Node)) (k : String) (f : Node → Node) :
    List (String × Node) :=
  amSet nodes k (f (nodeAt nodes k))

/-- The test `s.starts_with(p)`. -/
def starts_with (s p : String) : Bool := p.data.isPrefixOf s.data

/-- The constant `NOISE_PREFIX`. -/
def NOISE_PREFIX : List String := ["linux-vdso", "ld-linux"]

/-- The constant `GLIBC_PREFIX`. -/
def GLIBC_PREFIX : List String :=
  ["libc.so", "libm.so", "libpthread.so", "librt.so", "libdl.so"]

/-- A required name passes both filters of the requirement loop of `build`. -/
def keepLib (show_stdlib : Bool) (lib : String) : Bool :=
  !(NOISE_PREFIX.any (fun p => starts_with lib p)) &&
    !(!show_stdlib && GLIBC_PREFIX.any (fun p => starts_with lib p))

/-- The characters after the last '/' of a path; `acc` holds, reversed, those
seen since the last separator. -/
def lastSegment : List Char → List Char → List Char
  | [], acc => acc.reverse
  | c :: cs, acc => if c = '/' then lastSegment cs [] else lastSegment cs (c :: acc)

/-- The value of `fs::path(p).filename().string()` on a POSIX system. -/
def filename (p : String) : String := String.mk (lastSegment p.data [])

/-- The members of `DepGraph`. -/
structure DepGraph where
  nodes : List (String × Node)
  root_name : String
  ld_cache : LdCache
  alpm : AlpmManager
deriving DecidableEq, Repr

/-- A default-constructed `DepGraph` around a given cache index and manager. -/
def DepGraph.fresh (ld : LdCache) (alpm : AlpmManager) : DepGraph := ⟨[], "", ld, alpm⟩

/-- The variables the `while` loop of `build` works on. -/
structure BfsState where
  nodes : List (String × Node)
  q : List String
deriving DecidableEq, Repr

/-- The body of `for (const auto& lib : needed)` in `build`. -/
def DepGraph.visit (ld : LdCache) (show_stdlib : Bool) (cur : String)
    (st : BfsState) (lib : String) : BfsState :=
  if NOISE_PREFIX.any (fun p => starts_with lib p) then st
  else if !show_stdlib && GLIBC_PREFIX.any (fun p => starts_with lib p) then st
  else
    let nodes1 :=
      if lib ∈ (nodeAt st.nodes cur).children then st.nodes
      else amModify st.nodes cur (fun n => { n with children := n.children ++ [lib] })
    if !amContains nodes1 lib then
      let nodes2 := amSet nodes1 lib ⟨"", "", (nodeAt nodes1 cur).depth + 1, [], []⟩
      let nodes3 := amModify nodes2 lib (fun n => { n with parents := n.parents ++ [cur] })
      match ld.resolve lib with
      | some res => ⟨amModify nodes3 lib (fun n => { n with path := res }), st.q ++ [lib]⟩
      | none => ⟨nodes3, st.q⟩
    else if cur ∈ (nodeAt nodes1 lib).parents then ⟨nodes1, st.q⟩
    else ⟨amModify nodes1 lib (fun n => { n with parents := n.parents ++ [cur] }), st.q⟩

/-- One turn of the `while` loop after `q.pop_front()`: `cur` is the key taken
off the queue. `reader` stands for ELFIO: the `DT_NEEDED` strings of the file
at a path, or `none` when the file does not load or has no `.dynamic` section. -/
def DepGraph.expand (reader : String → Option (List String)) (ld : LdCache)
    (show_stdlib : Bool) (cur : String) (st : BfsState) : BfsState :=
  let nodes := amTouch st.nodes cur
  let cur_path := (nodeAt nodes cur).path
  if cur_path = "" then ⟨nodes, st.q⟩
  else
    match reader cur_path with
    | none => ⟨nodes, st.q⟩
    | some needed => needed.foldl (DepGraph.visit ld show_stdlib cur) ⟨nodes, st.q⟩

/-- The `while (!q.empty())` loop, cut off after `fuel` turns. -/
def DepGraph.bfs (reader : String → Option (List String)) (ld : LdCache)
    (show_stdlib : Bool) : Nat → BfsState → BfsState
  | 0, st => st
  | fuel + 1, st =>
    match st.q with
    | [] => st
    | cur :: rest =>
      DepGraph.bfs reader ld show_stdlib fuel
        (DepGraph.expand reader ld show_stdlib cur ⟨st.nodes, rest⟩)

/-- The traversal part of `build`: root node, queue, loop. The loop runs at most
once per enqueued key, and only the root and names of the cache index are ever
enqueued, so `cache.length + 1` turns are enough (`traverse_spec`). -/
def DepGraph.traverse (reader : String → Option (List String)) (g : DepGraph)
    (root_path : String) (show_stdlib : Bool) : BfsState :=
  let root_name := filename root_path
  let nodes := amSet g.nodes root_name ⟨root_path, "", 0, [], []⟩
  DepGraph.bfs reader g.ld_cache show_stdlib (g.ld_cache.cache.length + 1)
    ⟨nodes, [root_name]⟩

/-- The statement `if (!n.path.empty()) n.pkg = alpm.get_package(n.path);`. -/
def DepGraph.setPkg (alpm : AlpmManager) (n : Node) : Node :=
  if n.path = "" then n else { n with pkg := alpm.get_package n.path }

/-- The second loop of the attribution block: every node value is updated in place. -/
def DepGraph.attribute (alpm : AlpmManager) (nodes : List (String × Node)) :
    List (String × Node) :=
  nodes.map (fun e => (e.1, DepGraph.setPkg alpm e.2))

/-- The first loop of the attribution block: the paths of the resolved nodes.
The loop runs over a `std::unordered_map`, whose iteration order the language
does not fix: `iter` gives the order in which the entries are met, some
permutation of them. -/
def DepGraph.all_paths (iter : List (String × Node) → List (String × Node))
    (nodes : List (String × Node)) : List String :=
  (iter nodes).filterMap (fun e => if e.2.path = "" then none else some e.2.path)

/-- The method `build(root_path, show_stdlib, resolve_packages)`. The function
`reader` stands for `get_needed_libs`, `iter` for the iteration order of the
node map in the attribution block. -/
def DepGraph.build (iter : List (String × Node) → List (String × Node))
    (reader : String → Option (List String)) (g : DepGraph)
    (root_path : String) (show_stdlib resolve_packages : Bool) : DepGraph :=
  let st := DepGraph.traverse reader g root_path show_stdlib
  if resolve_packages then
    let alpm := g.alpm.batch_resolve (DepGraph.all_paths iter st.nodes)
    ⟨DepGraph.attribute alpm st.nodes, filename root_path, g.ld_cache, alpm⟩
  else ⟨st.nodes, filename root_path, g.ld_cache, g.alpm⟩

/-! ### Minimal package set -/

/-- The test `!n.pkg.empty() && n.pkg != "-"`. -/
def knownPkg (pkg : String) : Bool := pkg ≠ "" && pkg ≠ "-"

/-- Insertion into a `std::unordered_set<std::string>`. -/
def setInsert (s : List String) (x : String) : List String :=
  if x ∈ s then s else s ++ [x]

/-- The map `lib_to_pkg` of `get_minimal_pkgs`. -/
def DepGraph.lib_to_pkg (g : DepGraph) : List (String × String) :=
  g.nodes.foldl (fun m e => if knownPkg e.2.pkg then amSet m e.1 e.2.pkg else m) []

/-- The value of `p_pkg` for the node key `parent`. -/
def DepGraph.p_pkg (g : DepGraph) (parent : String) : String :=
  match amFind g.lib_to_pkg parent with
  | some p => p
  | none => if parent = g.root_name then "__ROOT__" else ""

/-- The loop over `node.children` for one parent. -/
def DepGraph.addChildren (l2p : List (String × String)) (p_pkg : String)
    (deps : List (String × List String)) (children : List String) :
    List (String × List String) :=
  children.foldl (fun d child =>
    match amFind l2p child with
    | some c_pkg =>
      if c_pkg ≠ p_pkg then amSet d p_pkg (setInsert ((amFind d p_pkg).getD []) c_pkg) else d
    | none => d) deps

/-- The map `pkg_deps` of `get_minimal_pkgs`. -/
def DepGraph.pkg_deps (g : DepGraph) : List (String × List String) :=
  g.nodes.foldl (fun deps e =>
    if g.p_pkg e.1 = "" then deps
    else DepGraph.addChildren g.lib_to_pkg (g.p_pkg e.1) deps e.2.children) []

/-- The set `transitive` of `get_minimal_pkgs`. -/
def DepGraph.transitive (deps : List (String × List String)) : List String :=
  deps.foldl (fun t e => if e.1 ≠ "__ROOT__" then e.2.foldl setInsert t else t) []

/-- Byte-wise lexicographic `a <= b` on character lists. -/
def lexLe : List Char → List Char → Bool
  | [], _ => true
  | _ :: _, [] => false
  | a :: as, b :: bs => decide (a.toNat < b.toNat) || (decide (a = b) && lexLe as bs)

/-- The order used by `r::sort` on strings. -/
def strLe (a b : String) : Prop := lexLe a.data b.data = true

instance : DecidableRel strLe := fun a b => inferInstanceAs (Decidable (lexLe a.data b.data = true))

/-- The list `result` before sorting. -/
def DepGraph.minimal_unsorted (g : DepGraph) : List String :=
  match amFind g.pkg_deps "__ROOT__" with
  | some kids => kids.filter (fun p => decide (p ∉ DepGraph.transitive g.pkg_deps))
  | none => []

/-- The method `get_minimal_pkgs()`. -/
def DepGraph.get_minimal_pkgs (g : DepGraph) : List String :=
  List.insertionSort strLe g.minimal_unsorted

/-! ### Auxiliary notions for the traversal proofs -/

/-- The node created for a name seen for the first time while expanding a node
of depth `d`, before the edge bookkeeping. -/
def newNode (ld : LdCache) (lib : String) (d : Nat) : Node :=
  ⟨(ld.resolve lib).getD "", "", d + 1, [], []⟩

/-- The edge bookkeeping of one step, seen from the node of key `k`. -/
def linkNode (cur lib k : String) (n : Node) : Node :=
  { n with
    children := if k = cur then setInsert n.children lib else n.children
    parents := if k = lib then setInsert n.parents cur else n.parents }

/-- The key `b` is listed in the children of the node of key `a`. -/
def childEdge (nodes : List (String × Node)) (a b : String) : Prop :=
  ∃ n, amFind nodes a = some n ∧ b ∈ n.children

/-- The key `a` is listed in the parents of the node of key `b`. -/
def parentEdge (nodes : List (String × Node)) (a b : String) : Prop :=
  ∃ n, amFind nodes b = some n ∧ a ∈ n.parents

/-- A chain `a = k0, k1, ..., km = b` in which each key is related to the next. -/
inductive Chain (E : String → String → Prop) : String → String → Nat → Prop
  | refl (a : String) : Chain E a a 0
  | step {a b c : String} {m : Nat} : Chain E a b m → E b c → Chain E a c (m + 1)

/-- The depth recorded for key `k`. -/
def depthOf (nodes : List (String × Node)) (k : String) : Nat := (nodeAt nodes k).depth

/-- Every requirement of node `n` that passes the filters is a key of `nodes`
and is listed in the children of `n`. -/
def Expanded (reader : String → Option (List String)) (s : Bool)
    (nodes : List (String × Node)) (n : Node) : Prop :=
  ∀ needed, reader n.path = some needed →
    ∀ lib ∈ needed, keepLib s lib = true → amContains nodes lib = true ∧ lib ∈ n.children

/-- The invariant of the traversal loop. `D` is the depth of the node expanded
last, `pend` the key under expansion whose requirements are not all visited. -/
structure Inv (reader : String → Option (List String)) (ld : LdCache) (s : Bool)
    (root root_path : String) (pend : Option String) (D : Nat) (st : BfsState) : Prop where
  root_node : ∃ n, amFind st.nodes root = some n ∧ n.depth = 0 ∧ n.path = root_path
  q_mem : ∀ k ∈ st.q, amContains st.nodes k = true
  bound : ∀ k n, amFind st.nodes k = some n → n.depth ≤ D + 1
  q_ge : ∀ h ∈ st.q, D ≤ depthOf st.nodes h
  q_sorted : st.q.Pairwise (fun a b => depthOf st.nodes a ≤ depthOf st.nodes b)
  edge_depth : ∀ a na, amFind st.nodes a = some na → ∀ c ∈ na.children,
    ∃ nc, amFind st.nodes c = some nc ∧ nc.depth ≤ na.depth + 1
  edge_src : ∀ a na, amFind st.nodes a = some na → ∀ c ∈ na.children,
    na.path ≠ "" ∧ ∃ needed, reader na.path = some needed ∧ c ∈ needed ∧ keepLib s c = true
  reach : ∀ k n, amFind st.nodes k = some n → Chain (childEdge st.nodes) root k n.depth
  sym : ∀ a b, childEdge st.nodes a b ↔ parentEdge st.nodes a b
  has_parent : ∀ k n, amFind st.nodes k = some n → k ≠ root → n.parents ≠ []
  path_eq : ∀ k n, amFind st.nodes k = some n →
    n.path = if k = root then root_path else (ld.resolve k).getD ""
  pkg_empty : ∀ k n, amFind st.nodes k = some n → n.pkg = ""
  filtered : ∀ k n, amFind st.nodes k = some n → k = root ∨ keepLib s k = true
  closure : ∀ k n, amFind st.nodes k = some n →
    k ∈ st.q ∨ n.path = "" ∨ some k = pend ∨ Expanded reader s st.nodes n
  lists_nodup : ∀ k n, amFind st.nodes k = some n → n.children.Nodup ∧ n.parents.Nodup
  keys_nodup : (amKeys st.nodes).Nodup

/-- The number of loop turns still possible: queued keys plus cache entries
whose name is not a key yet. -/
def bfsMeasure (ld : LdCache) (st : BfsState) : Nat :=
  st.q.length + ld.cache.countP (fun e => !amContains st.nodes e.1)

/-! ### A small system used as test input -/

/-- The requirements of three files: `app` needs two libraries, the C library
and the loader; `liba.so` needs `libb.so` and a library that is not installed. -/
def exReader : String → Option (List String) := fun p =>
  if p = "/usr/bin/app" then some ["liba.so", "libc.so.6", "libb.so", "ld-linux-x86-64.so.2"]
  else if p = "/usr/lib/liba.so" then some ["libb.so", "libmissing.so"]
  else if p = "/usr/lib/libb.so" then some []
  else none

/-- A cache index with three names. -/
def exCache : LdCache :=
  ⟨[("liba.so", "/usr/lib/liba.so"), ("libb.so", "/usr/lib/libb.so"),
    ("libc.so.6", "/usr/lib/libc.so.6")]⟩

/-- A package database in which `app` itself is not packaged. -/
def exAlpm : AlpmManager :=
  ⟨true, some [⟨"A", ["usr/lib/liba.so"]⟩, ⟨"B", ["usr/lib/libb.so"]⟩], []⟩

/-- The graph built for `/usr/bin/app`, standard runtime libraries filtered. -/
def exGraph : DepGraph :=
  DepGraph.build id exReader (DepGraph.fresh exCache exAlpm) "/usr/bin/app" false true

/-- The same system with the standard runtime libraries included. -/
def exGraphStd : DepGraph :=
  DepGraph.build id exReader (DepGraph.fresh exCache exAlpm) "/usr/bin/app" true true

/-! ### Auxiliary notions for the minimal package set -/

/-- The known package owning the node of key `k`, if there is one. -/
def DepGraph.owner (g : DepGraph) (k : String) : Option String :=
  (amFind g.nodes k).bind (fun n => if knownPkg n.pkg = true then some n.pkg else none)

/-- The package `c` is in the set stored under `p` in a package adjacency map. -/
def depsHas (deps : List (String × List String)) (p c : String) : Prop :=
  ∃ kids, amFind deps p = some kids ∧ c ∈ kids

/-- Some library edge of the graph induces the package edge from `p` to `c`. -/
def DepGraph.pkgEdge (g : DepGraph) (l : List (String × Node)) (p c : String) : Prop :=
  ∃ e ∈ l, g.p_pkg e.1 = p ∧ p ≠ "" ∧
    ∃ child ∈ e.2.children, amFind g.lib_to_pkg child = some c ∧ c ≠ p

/-- The example system with `/usr/bin/app` itself owned by a package. -/
def exGraphOwned : DepGraph :=
  DepGraph.build id exReader
    (DepGraph.fresh exCache
      ⟨true, some [⟨"app-pkg", ["usr/bin/app"]⟩, ⟨"A", ["usr/lib/liba.so"]⟩,
        ⟨"B", ["usr/lib/libb.so"]⟩], []⟩)
    "/usr/bin/app" false true

/-- The example system with `liba.so` owned by a package named `__ROOT__`. -/
def exGraphMarker : DepGraph :=
  DepGraph.build id exReader
    (DepGraph.fresh exCache
      ⟨true, some [⟨"__ROOT__", ["usr/lib/liba.so"]⟩, ⟨"B", ["usr/lib/libb.so"]⟩], []⟩)
    "/usr/bin/app" false true

/-- A diamond: two libraries of package `P` each require a library of package
`Q`; the root requires both libraries of `P` and one of `Q`. -/
def exGraphDiamond : DepGraph :=
  DepGraph.build id
    (fun p =>
      if p = "/opt/app" then some ["libp1.so", "libp2.so", "libq1.so"]
      else if p = "/usr/lib/libp1.so" then some ["libq1.so"]
      else if p = "/usr/lib/libp2.so" then some ["libq2.so"]
      else if p = "/usr/lib/libq1.so" then some []
      else if p = "/usr/lib/libq2.so" then some []
      else none)
    (DepGraph.fresh
      ⟨[("libp1.so", "/usr/lib/libp1.so"), ("libp2.so", "/usr/lib/libp2.so"),
        ("libq1.so", "/usr/lib/libq1.so"), ("libq2.so", "/usr/lib/libq2.so")]⟩
      ⟨true, some [⟨"P", ["usr/lib/libp1.so", "usr/lib/libp2.so"]⟩,
        ⟨"Q", ["usr/lib/libq1.so", "usr/lib/libq2.so"]⟩], []⟩)
    "/opt/app" false true

/-! ### Auxiliary notions for the package scan -/

/-- The name of the first package, in database order, whose manifest holds `key`. -/
def firstOwner : List AlpmPkg → String → Option String
  | [], _ => none
  | pkg :: rest, key => if key ∈ pkg.files then some pkg.name else firstOwner rest key

/-- The map `lookup_map` of `batch_resolve` for the paths `to_find`. -/
def lookupMap (to_find : List String) : List (String × String) :=
  to_find.foldl (fun m p => amSet m (stripSlash p) p) []

/-- A well-formed `lookup_map`: one entry per key, each key the stripped form
of the path stored under it. -/
def LookupOk (lm : List (String × String)) : Prop :=
  (amKeys lm).Nodup ∧ ∀ k v, amFind lm k = some v → k = stripSlash v

/-! ## Intermediate states of the traversal -/

/-- The variables of the `while` loop when it is entered: the root node alone,
and the root key queued. -/
def DepGraph.initState (g : DepGraph) (root_path : String) : BfsState :=
  ⟨amSet g.nodes (filename root_path) ⟨root_path, "", 0, [], []⟩, [filename root_path]⟩

/-- The first statement of the requirement loop body (after the two filters):
`lib` is appended to the children of `cur` unless it is listed already. -/
def DepGraph.pushChild (cur lib : String) (nodes : List (String × Node)) :
    List (String × Node) :=
  if lib ∈ (nodeAt nodes cur).children then nodes
  else amModify nodes cur (fun n => { n with children := n.children ++ [lib] })

/-- The rest of the requirement loop body: node creation, or registration of
`cur` in the parents of the existing node. -/
def DepGraph.linkChild (ld : LdCache) (cur lib : String) (st : BfsState) : BfsState :=
  if !amContains st.nodes lib then
    let nodes2 := amSet st.nodes lib ⟨"", "", (nodeAt st.nodes cur).depth + 1, [], []⟩
    let nodes3 := amModify nodes2 lib (fun n => { n with parents := n.parents ++ [cur] })
    match ld.resolve lib with
    | some res => ⟨amModify nodes3 lib (fun n => { n with path := res }), st.q ++ [lib]⟩
    | none => ⟨nodes3, st.q⟩
  else if cur ∈ (nodeAt st.nodes lib).parents then ⟨st.nodes, st.q⟩
  else ⟨amModify st.nodes lib (fun n => { n with parents := n.parents ++ [cur] }), st.q⟩

/-- Edges are recorded on both sides and no list holds a key twice. -/
def EdgesOk (nodes : List (String × Node)) : Prop :=
  (∀ k c, childEdge nodes k c ↔ parentEdge nodes k c) ∧
  ∀ k n, amFind nodes k = some n → n.children.Nodup ∧ n.parents.Nodup

/-- The keys pushed on the queue by the turns of the `while` loop that start
from state `st`, in the order of the calls of `q.push_back`. -/
def DepGraph.bfsEnqueued (reader : String → Option (List String)) (ld : LdCache)
    (show_stdlib : Bool) : Nat → BfsState → List String
  | 0, _ => []
  | fuel + 1, st =>
    match st.q with
    | [] => []
    | cur :: rest =>
      (DepGraph.expand reader ld show_stdlib cur ⟨st.nodes, rest⟩).q.drop rest.length ++
        DepGraph.bfsEnqueued reader ld show_stdlib fuel
          (DepGraph.expand reader ld show_stdlib cur ⟨st.nodes, rest⟩)

/-! ## Requirement-chain explanation -/

/-- What a run of `explain_why` ends with: the not-found message, the printed
chains in order, an uncaught `std::out_of_range` thrown by `nodes.at(key)`, or,
in this embedding only, the exhaustion of the recursion budget. -/
inductive ExplainResult where
  | not_found
  | chains (cs : List (List String))
  | out_of_range (key : String)
  | out_of_fuel
deriving DecidableEq, Repr

/-- The loop `for (const auto& p : parents) if (p not in path) self(p, path)`;
`walk p` is the recursive call. An exception ends the loop at once. -/
def loopParents (walk : String → ExplainResult) (path : List String) :
    List String → ExplainResult
  | [] => .chains []
  | p :: ps =>
    if p ∈ path then loopParents walk path ps
    else
      match walk p with
      | .chains cs =>
        match loopParents walk path ps with
        | .chains cs2 => .chains (cs ++ cs2)
        | err => err
      | err => err

/-- The lambda `dfs` of `explain_why`, with a budget on the recursion depth.
`path` is the vector `path` at the call; a printed line is returned as the
list of its keys. -/
def DepGraph.dfs (g : DepGraph) (target : String) :
    Nat → String → List String → ExplainResult
  | 0, _, _ => .out_of_fuel
  | fuel + 1, cur, path =>
    if cur = g.root_name then .chains [(path ++ [cur]).reverse ++ [target]]
    else
      match amFind g.nodes cur with
      | none => .out_of_range cur
      | some n =>
        loopParents (fun p => DepGraph.dfs g target fuel p (path ++ [cur])) (path ++ [cur])
          n.parents

/-- The function `explain_why(g, target)` with recursion budget `fuel`. -/
def DepGraph.explain_why_fuel (fuel : Nat) (g : DepGraph) (target : String) : ExplainResult :=
  match amFind g.nodes target with
  | none => .not_found
  | some n => loopParents (fun p => DepGraph.dfs g target fuel p []) [] n.parents

/-- The function `explain_why(g, target)`. The recursion never goes deeper than
the number of nodes plus one, the budget given here. -/
def DepGraph.explain_why (g : DepGraph) (target : String) : ExplainResult :=
  DepGraph.explain_why_fuel (g.nodes.length + 1) g target

/-- An upward walk of `dfs`: started at `cur` with `path` already pushed, it
climbs through parents that are not in the path and stops at the root; `full`
is the path when the root is reached. -/
inductive UpWalk (g : DepGraph) : List String → String → List String → Prop
  | root (path : List String) (cur : String) :
      cur = g.root_name → UpWalk g path cur (path ++ [cur])
  | step (path : List String) (cur : String) (n : Node) (p : String) (full : List String) :
      cur ≠ g.root_name → amFind g.nodes cur = some n → p ∈ n.parents →
      p ∉ path ++ [cur] → UpWalk g (path ++ [cur]) p full → UpWalk g path cur full

/-- A requirement chain from the root to `target` without a repeated key:
`root = k0, ..., km = target`, each key a parent of the next. -/
def SimpleChain (g : DepGraph) (target : String) (c : List String) : Prop :=
  c.head? = some g.root_name ∧ c.getLast? = some target ∧ c.Nodup ∧
    c.Chain' (parentEdge g.nodes)

/-! ### More test systems -/

/-- A target on a cycle: `app` requires `libt.so`, which requires `libb.so`,
which requires `libt.so`. -/
def exGraphCycle : DepGraph :=
  DepGraph.build id
    (fun p =>
      if p = "/opt/app" then some ["libt.so"]
      else if p = "/usr/lib/libt.so" then some ["libb.so"]
      else if p = "/usr/lib/libb.so" then some ["libt.so"]
      else none)
    (DepGraph.fresh
      ⟨[("libt.so", "/usr/lib/libt.so"), ("libb.so", "/usr/lib/libb.so")]⟩
      AlpmManager.unloaded)
    "/opt/app" false false

/-- A root that is required by one of its requirements: `libfoo.so` requires
`libbar.so`, which requires `libfoo.so`. -/
def exGraphRootRequired : DepGraph :=
  DepGraph.build id
    (fun p =>
      if p = "/usr/lib/libfoo.so" then some ["libbar.so"]
      else if p = "/usr/lib/libbar.so" then some ["libfoo.so"]
      else none)
    (DepGraph.fresh ⟨[("libbar.so", "/usr/lib/libbar.so")]⟩ AlpmManager.unloaded)
    "/usr/lib/libfoo.so" false false

/-- An unpackaged library between the root and a packaged one: `app` requires
`libu.so` (no owner) and `liba.so` (package `A`); `libu.so` requires `libc1.so`
(package `C`), which requires `liba.so`. -/
def exGraphUnowned : DepGraph :=
  DepGraph.build id
    (fun p =>
      if p = "/opt/app" then some ["libu.so", "liba.so"]
      else if p = "/usr/local/lib/libu.so" then some ["libc1.so"]
      else if p = "/usr/lib/libc1.so" then some ["liba.so"]
      else if p = "/usr/lib/liba.so" then some []
      else none)
    (DepGraph.fresh
      ⟨[("libu.so", "/usr/local/lib/libu.so"), ("libc1.so", "/usr/lib/libc1.so"),
        ("liba.so", "/usr/lib/liba.so")]⟩
      ⟨true, some [⟨"A", ["usr/lib/liba.so"]⟩, ⟨"C", ["usr/lib/libc1.so"]⟩], []⟩)
    "/opt/app" false true

/-- A root that requires `libz.so` of package `zlib` before `liba.so` of
package `A`. -/
def exGraphTwo : DepGraph :=
  DepGraph.build id
    (fun p =>
      if p = "/opt/app" then some ["libz.so", "liba.so"]
      else if p = "/usr/lib/libz.so" then some []
      else if p = "/usr/lib/liba.so" then some []
      else none)
    (DepGraph.fresh
      ⟨[("libz.so", "/usr/lib/libz.so"), ("liba.so", "/usr/lib/liba.so")]⟩
      ⟨true, some [⟨"A", ["usr/lib/liba.so"]⟩, ⟨"zlib", ["usr/lib/libz.so"]⟩], []⟩)
    "/opt/app" false true

/-! ## The work done by `batch_resolve` -/

/-- The (package name, manifest entry) pairs of the database, flattened in
database order: the order in which the two nested loops of `batch_resolve`
reach them. -/
def manifestPairs : List AlpmPkg → List (String × String)
  | [] => []
  | pkg :: rest => pkg.files.map (fun f => (pkg.name, f)) ++ manifestPairs rest

/-- The body of the inner loop for one pair, the exit test left out: the
`lookup_map.find(filename)` and, on a match, the store into `pkg_cache` and the
erasure from `lookup_map`. The state is `(lookup_map, pkg_cache)`. -/
def stepPair (st : List (String × String) × List (String × String)) (e : String × String) :
    List (String × String) × List (String × String) :=
  match amFind st.1 e.2 with
  | some orig => (amErase st.1 e.2, amSet st.2 orig e.1)
  | none => st

/-- The maps `(lookup_map, pkg_cache)` after the pairs `examined` went through
the loop body, in order. -/
def replayPairs (lookup_map pkg_cache : List (String × String))
    (examined : List (String × String)) : List (String × String) × List (String × String) :=
  examined.foldl stepPair (lookup_map, pkg_cache)

/-- The pairs for which the inner loop over the manifest of one package
evaluates `lookup_map.find(filename)`, in order: the control flow of
`scanFiles`, with a log in place of the state. -/
def AlpmManager.examinedFiles (pkgname : String) :
    List String → List (String × String) → List (String × String)
  | [], _ => []
  | filename :: fs, lookup_map =>
    match amFind lookup_map filename with
    | some _ =>
      if (amErase lookup_map filename).isEmpty then [(pkgname, filename)]
      else (pkgname, filename) ::
        AlpmManager.examinedFiles pkgname fs (amErase lookup_map filename)
    | none => (pkgname, filename) :: AlpmManager.examinedFiles pkgname fs lookup_map

/-- The pairs examined by the outer loop over the package list, in order. -/
def AlpmManager.examinedPkgs :
    List AlpmPkg → List (String × String) → List (String × String) → List (String × String)
  | [], _, _ => []
  | pkg :: rest, lookup_map, pkg_cache =>
    match AlpmManager.scanFiles pkg.name pkg.files lookup_map pkg_cache with
    | (true, _, _) => AlpmManager.examinedFiles pkg.name pkg.files lookup_map
    | (false, lookup_map1, pkg_cache1) =>
      AlpmManager.examinedFiles pkg.name pkg.files lookup_map ++
        AlpmManager.examinedPkgs rest lookup_map1 pkg_cache1

/-- The pairs examined by one call of `batch_resolve(paths)`: none when the
method returns before the loops. -/
def AlpmManager.batch_resolve_examined (a : AlpmManager) (paths : List String) :
    List (String × String) :=
  match a.initialized, a.db_local with
  | true, some db =>
    let to_find := paths.filter (fun p => !amContains a.pkg_cache p)
    if to_find.isEmpty then []
    else
      let lookup_map := to_find.foldl (fun m p => amSet m (stripSlash p) p) []
      AlpmManager.examinedPkgs db lookup_map a.pkg_cache
  | _, _ => []

/-- A manager that already attributes `/usr/lib/liba.so` to a package `OLD`,
over a database in which package `A` owns that file. -/
def exAlpmStale : AlpmManager :=
  ⟨true, some [⟨"A", ["usr/lib/liba.so"]⟩, ⟨"B", ["usr/lib/libb.so"]⟩],
    [("/usr/lib/liba.so", "OLD")]⟩

/-- A database of three packages with five manifest entries. -/
def exAlpmFive : AlpmManager :=
  ⟨true, some [⟨"base", ["etc/passwd", "usr/lib/libz.so", "usr/bin/true"]⟩,
    ⟨"A", ["usr/lib/liba.so"]⟩, ⟨"B", ["usr/lib/libb.so"]⟩], []⟩

/-- The inspected binary is owned by `app-pkg`; it requires `liba.so`, owned
by a package named `__ROOT__`, which requires `libb.so` of package `B`. -/
def exGraphOwnedMarker : DepGraph :=
  DepGraph.build id
    (fun p =>
      if p = "/usr/bin/app" then some ["liba.so"]
      else if p = "/usr/lib/liba.so" then some ["libb.so"]
      else if p = "/usr/lib/libb.so" then some []
      else none)
    (DepGraph.fresh exCache
      ⟨true, some [⟨"app-pkg", ["usr/bin/app"]⟩, ⟨"__ROOT__", ["usr/lib/liba.so"]⟩,
        ⟨"B", ["usr/lib/libb.so"]⟩], []⟩)
    "/usr/bin/app" false true

/-- Two packages that require each other: `app` requires `liba.so` (package
`A`) and `libb.so` (package `B`), and each of the two libraries requires the
other. -/
def exGraphPkgCycle : DepGraph :=
  DepGraph.build id
    (fun p =>
      if p = "/opt/app" then some ["liba.so", "libb.so"]
      else if p = "/usr/lib/liba.so" then some ["libb.so"]
      else if p = "/usr/lib/libb.so" then some ["liba.so"]
      else none)
    (DepGraph.fresh exCache exAlpm) "/opt/app" false true

/-! ## Lemmas on association lists -/

theorem amFind_amSet {β : Type} (m : List (String × β)) (k k2 : String) (v : β) :
    amFind (amSet m k v) k2 = if k = k2 then some v else amFind m k2 := by
  induction m with
  | nil => simp [amSet, amFind]
  | cons e rest ih =>
    obtain ⟨k1, v1⟩ := e
    by_cases h1 : k1 = k
    · subst h1
      by_cases h2 : k1 = k2 <;> simp [amSet, amFind, h2]
    · by_cases h2 : k1 = k2
      · subst h2
        simp [amSet, amFind, h1, Ne.symm h1]
      · simp [amSet, amFind, h1, h2, ih]

theorem amContains_iff_mem_keys {β : Type} (m : List (String × β)) (k : String) :
    amContains m k = true ↔ k ∈ amKeys m := by
  induction m with
  | nil => simp [amContains, amFind, amKeys]
  | cons e rest ih =>
    obtain ⟨k1, v1⟩ := e
    by_cases h1 : k1 = k
    · simp [amContains, amFind, amKeys, h1]
    · have ih2 : (amFind rest k).isSome = true ↔ k ∈ List.map Prod.fst rest := ih
      simp [amContains, amFind, amKeys, h1, Ne.symm h1, ih2]

theorem amFind_isSome_iff {β : Type} (m : List (String × β)) (k : String) :
    (∃ v, amFind m k = some v) ↔ k ∈ amKeys m := by
  rw [← amContains_iff_mem_keys, amContains, Option.isSome_iff_exists]

theorem amFind_eq_none_iff {β : Type} (m : List (String × β)) (k : String) :
    amFind m k = none ↔ k ∉ amKeys m := by
  rw [← amFind_isSome_iff]
  cases amFind m k <;> simp

theorem amKeys_amSet {β : Type} (m : List (String × β)) (k : String) (v : β) :
    amKeys (amSet m k v) = if k ∈ amKeys m then amKeys m else amKeys m ++ [k] := by
  induction m with
  | nil => simp [amSet, amKeys]
  | cons e rest ih =>
    obtain ⟨k1, v1⟩ := e
    by_cases h1 : k1 = k
    · simp [amSet, amKeys, h1]
    · have ih2 : List.map Prod.fst (amSet rest k v) =
          if k ∈ List.map Prod.fst rest then List.map Prod.fst rest
          else List.map Prod.fst rest ++ [k] := ih
      by_cases h2 : k ∈ List.map Prod.fst rest
      · simp [amSet, amKeys, h1, ih2, h2]
      · simp [amSet, amKeys, h1, Ne.symm h1, ih2, h2]

theorem nodup_amKeys_amSet {β : Type} (m : List (String × β)) (k : String) (v : β)
    (h : (amKeys m).Nodup) : (amKeys (amSet m k v)).Nodup := by
  rw [amKeys_amSet]
  split
  · exact h
  · rename_i hk
    exact List.Nodup.append h (List.nodup_singleton k) (by simpa using hk)

theorem mem_of_amFind {β : Type} (m : List (String × β)) (k : String) (v : β)
    (h : amFind m k = some v) : (k, v) ∈ m := by
  induction m with
  | nil => simp [amFind] at h
  | cons e rest ih =>
    obtain ⟨k1, v1⟩ := e
    by_cases h1 : k1 = k
    · simp [amFind, h1] at h
      simp [h1, h]
    · simp [amFind, h1] at h
      exact List.mem_cons_of_mem _ (ih h)

theorem amFind_of_mem {β : Type} (m : List (String × β)) (k : String) (v : β)
    (hnd : (amKeys m).Nodup) (h : (k, v) ∈ m) : amFind m k = some v := by
  induction m with
  | nil => simp at h
  | cons e rest ih =>
    obtain ⟨k1, v1⟩ := e
    simp only [amKeys, List.map_cons, List.nodup_cons] at hnd
    rcases List.mem_cons.mp h with h | h
    · cases h
      simp [amFind]
    · have hk : k ∈ List.map Prod.fst rest := List.mem_map.mpr ⟨(k, v), h, rfl⟩
      have h1 : k1 ≠ k := fun e => hnd.1 (e ▸ hk)
      simp [amFind, h1]
      exact ih hnd.2 h

theorem amFind_amModify (nodes : List (String × Node)) (k k2 : String) (f : Node → Node) :
    amFind (amModify nodes k f) k2 = if k = k2 then some (f (nodeAt nodes k)) else amFind nodes k2 := by
  simp [amModify, amFind_amSet]

theorem amTouch_of_find (nodes : List (String × Node)) (k : String) (n : Node)
    (h : amFind nodes k = some n) : amTouch nodes k = nodes := by
  simp [amTouch, amContains, h]

theorem nodeAt_of_find (nodes : List (String × Node)) (k : String) (n : Node)
    (h : amFind nodes k = some n) : nodeAt nodes k = n := by
  simp [nodeAt, h]

theorem mem_setInsert (s : List String) (x y : String) :
    y ∈ setInsert s x ↔ y ∈ s ∨ y = x := by
  unfold setInsert
  split
  · rename_i h
    constructor
    · exact Or.inl
    · rintro (h1 | h1)
      · exact h1
      · exact h1 ▸ h
  · simp

theorem nodup_setInsert (s : List String) (x : String) (h : s.Nodup) :
    (setInsert s x).Nodup := by
  unfold setInsert
  split
  · exact h
  · rename_i hx
    exact List.Nodup.append h (List.nodup_singleton x) (by simpa using hx)

/-! ## One step of the requirement loop -/

theorem visit_skip (ld : LdCache) (s : Bool) (cur lib : String) (st : BfsState)
    (hk : keepLib s lib = false) : DepGraph.visit ld s cur st lib = st := by
  unfold DepGraph.visit
  unfold keepLib at hk
  by_cases h1 : NOISE_PREFIX.any (fun p => starts_with lib p) = true
  · simp [h1]
  · have h2 : (!s && GLIBC_PREFIX.any (fun p => starts_with lib p)) = true := by
      simpa [h1] using hk
    simp [h1, h2]

theorem visit_find (ld : LdCache) (s : Bool) (cur lib : String) (st : BfsState) (nc : Node)
    (hk : keepLib s lib = true) (hcur : amFind st.nodes cur = some nc) (k : String) :
    amFind (DepGraph.visit ld s cur st lib).nodes k =
      (if k = lib ∧ amFind st.nodes lib = none then some (newNode ld lib nc.depth)
        else amFind st.nodes k).map (linkNode cur lib k) := by
  unfold keepLib at hk
  have h1 : NOISE_PREFIX.any (fun p => starts_with lib p) = false := by
    cases h : NOISE_PREFIX.any (fun p => starts_with lib p) <;> simp [h] at hk ⊢
  have h2 : (!s && GLIBC_PREFIX.any (fun p => starts_with lib p)) = false := by
    cases h : (!s && GLIBC_PREFIX.any (fun p => starts_with lib p)) <;> simp [h1, h] at hk ⊢
  unfold DepGraph.visit
  simp only [h1, h2, Bool.false_eq_true, if_false]
  have hnc : nodeAt st.nodes cur = nc := nodeAt_of_find _ _ _ hcur
  by_cases hch : lib ∈ nc.children
  · -- the child is already listed
    simp only [hnc, hch, if_true]
    cases hl : amFind st.nodes lib with
    | none =>
      have hne : cur ≠ lib := fun e => by rw [e, hl] at hcur; cases hcur
      have hcont : amContains st.nodes lib = false := by simp [amContains, hl]
      simp only [hcont, Bool.not_false, if_true]
      cases hr : ld.resolve lib with
      | none =>
        by_cases hkl : k = lib
        · subst hkl
          simp [amFind_amModify, amFind_amSet, nodeAt, newNode, linkNode, hr, Ne.symm hne,
            setInsert]
        · by_cases hkc : k = cur
          · subst hkc
            simp [amFind_amModify, amFind_amSet, hkl, Ne.symm hkl, hcur, linkNode, setInsert,
              hch]
          · cases hf : amFind st.nodes k <;>
              simp [amFind_amModify, amFind_amSet, hkl, Ne.symm hkl, hkc, hf, linkNode]
      | some res =>
        by_cases hkl : k = lib
        · subst hkl
          simp [amFind_amModify, amFind_amSet, nodeAt, newNode, linkNode, hr, Ne.symm hne,
            setInsert]
        · by_cases hkc : k = cur
          · subst hkc
            simp [amFind_amModify, amFind_amSet, hkl, Ne.symm hkl, hcur, linkNode, setInsert,
              hch]
          · cases hf : amFind st.nodes k <;>
              simp [amFind_amModify, amFind_amSet, hkl, Ne.symm hkl, hkc, hf, linkNode]
    | some nl =>
      have hcont : amContains st.nodes lib = true := by simp [amContains, hl]
      have hnl : nodeAt st.nodes lib = nl := nodeAt_of_find _ _ _ hl
      simp only [hcont, Bool.not_true, Bool.false_eq_true, if_false, hnl]
      by_cases hp : cur ∈ nl.parents
      · simp only [hp, if_true]
        by_cases hkl : k = lib
        · subst hkl
          by_cases hkc : k = cur
          · subst hkc
            have : nl = nc := by rw [hl] at hcur; exact Option.some.inj hcur
            subst this
            simp [hl, linkNode, setInsert, hp, hch]
          · simp [hl, linkNode, setInsert, hp, hkc]
        · by_cases hkc : k = cur
          · subst hkc
            simp [hcur, linkNode, setInsert, hch, hkl]
          · cases hf : amFind st.nodes k <;> simp [hkl, hkc, hf, linkNode]
      · simp only [hp, if_false]
        by_cases hkl : k = lib
        · subst hkl
          by_cases hkc : k = cur
          · subst hkc
            have : nl = nc := by rw [hl] at hcur; exact Option.some.inj hcur
            subst this
            simp [amFind_amModify, hl, hnl, linkNode, setInsert, hp, hch]
          · simp [amFind_amModify, hl, hnl, linkNode, setInsert, hp, hkc]
        · by_cases hkc : k = cur
          · subst hkc
            simp [amFind_amModify, hcur, linkNode, setInsert, hch, hkl, Ne.symm hkl]
          · cases hf : amFind st.nodes k <;>
              simp [amFind_amModify, hkl, Ne.symm hkl, hkc, hf, linkNode]
  · -- the child is appended to the list of the current node
    simp only [hnc, hch, if_false]
    have hcur1 : amFind (amModify st.nodes cur
        (fun n => { n with children := n.children ++ [lib] })) cur =
        some { nc with children := nc.children ++ [lib] } := by
      simp [amFind_amModify, hnc]
    have hnc1 := nodeAt_of_find _ _ _ hcur1
    by_cases hlc : lib = cur
    · subst hlc
      have hcont : amContains (amModify st.nodes lib
          (fun n => { n with children := n.children ++ [lib] })) lib = true := by
        simp [amContains, hcur1]
      simp only [hcont, Bool.not_true, Bool.false_eq_true, if_false, hnc1]
      by_cases hp : lib ∈ nc.parents
      · simp only [hp, if_true]
        by_cases hkl : k = lib
        · subst hkl
          simp [hcur1, hcur, linkNode, setInsert, hp, hch]
        · cases hf : amFind st.nodes k <;>
            simp [amFind_amModify, hkl, Ne.symm hkl, hf, linkNode]
      · simp only [hp, if_false]
        by_cases hkl : k = lib
        · subst hkl
          simp [amFind_amModify, hnc1, hcur, linkNode, setInsert, hp, hch]
        · cases hf : amFind st.nodes k <;>
            simp [amFind_amModify, hkl, Ne.symm hkl, hf, linkNode]
    · have hfl : amFind (amModify st.nodes cur
          (fun n => { n with children := n.children ++ [lib] })) lib = amFind st.nodes lib := by
        simp [amFind_amModify, Ne.symm hlc]
      cases hl : amFind st.nodes lib with
      | none =>
        have hcont : amContains (amModify st.nodes cur
            (fun n => { n with children := n.children ++ [lib] })) lib = false := by
          simp [amContains, hfl, hl]
        simp only [hcont, Bool.not_false, if_true, hnc1]
        cases hr : ld.resolve lib with
        | none =>
          by_cases hkl : k = lib
          · subst hkl
            simp [amFind_amModify, amFind_amSet, nodeAt, newNode, linkNode, hr, hlc,
              setInsert]
          · by_cases hkc : k = cur
            · subst hkc
              simp [amFind_amModify, amFind_amSet, hkl, Ne.symm hkl, hcur, hnc, linkNode,
                setInsert, hch]
            · cases hf : amFind st.nodes k <;>
                simp [amFind_amModify, amFind_amSet, hkl, Ne.symm hkl, hkc, Ne.symm hkc, hf,
                  linkNode]
        | some res =>
          by_cases hkl : k = lib
          · subst hkl
            simp [amFind_amModify, amFind_amSet, nodeAt, newNode, linkNode, hr, hlc,
              setInsert]
          · by_cases hkc : k = cur
            · subst hkc
              simp [amFind_amModify, amFind_amSet, hkl, Ne.symm hkl, hcur, hnc, linkNode,
                setInsert, hch]
            · cases hf : amFind st.nodes k <;>
                simp [amFind_amModify, amFind_amSet, hkl, Ne.symm hkl, hkc, Ne.symm hkc, hf,
                  linkNode]
      | some nl =>
        have hcont : amContains (amModify st.nodes cur
            (fun n => { n with children := n.children ++ [lib] })) lib = true := by
          simp [amContains, hfl, hl]
        have hnl1 : nodeAt (amModify st.nodes cur
            (fun n => { n with children := n.children ++ [lib] })) lib = nl :=
          nodeAt_of_find _ _ _ (hfl.trans hl)
        simp only [hcont, Bool.not_true, Bool.false_eq_true, if_false, hnl1]
        by_cases hp : cur ∈ nl.parents
        · simp only [hp, if_true]
          by_cases hkl : k = lib
          · subst hkl
            simp [amFind_amModify, Ne.symm hlc, hlc, hl, linkNode, setInsert, hp]
          · by_cases hkc : k = cur
            · subst hkc
              simp [amFind_amModify, hcur, hnc, linkNode, setInsert, hch, hkl]
            · cases hf : amFind st.nodes k <;>
                simp [amFind_amModify, hkl, hkc, Ne.symm hkc, hf, linkNode]
        · simp only [hp, if_false]
          by_cases hkl : k = lib
          · subst hkl
            simp [amFind_amModify, Ne.symm hlc, hlc, hl, hnl1, linkNode, setInsert, hp]
          · by_cases hkc : k = cur
            · subst hkc
              simp [amFind_amModify, hcur, hnc, linkNode, setInsert, hch, hkl, Ne.symm hkl]
            · cases hf : amFind st.nodes k <;>
                simp [amFind_amModify, hkl, Ne.symm hkl, hkc, Ne.symm hkc, hf, linkNode]

theorem visit_q (ld : LdCache) (s : Bool) (cur lib : String) (st : BfsState) (nc : Node)
    (hk : keepLib s lib = true) (hcur : amFind st.nodes cur = some nc) :
    (DepGraph.visit ld s cur st lib).q =
      if amFind st.nodes lib = none ∧ (ld.resolve lib).isSome = true then st.q ++ [lib]
      else st.q := by
  unfold keepLib at hk
  have h1 : NOISE_PREFIX.any (fun p => starts_with lib p) = false := by
    cases h : NOISE_PREFIX.any (fun p => starts_with lib p) <;> simp [h] at hk ⊢
  have h2 : (!s && GLIBC_PREFIX.any (fun p => starts_with lib p)) = false := by
    cases h : (!s && GLIBC_PREFIX.any (fun p => starts_with lib p)) <;> simp [h1, h] at hk ⊢
  unfold DepGraph.visit
  simp only [h1, h2, Bool.false_eq_true, if_false]
  have hc : ∀ nodes1 : List (String × Node),
      (nodes1 = st.nodes ∨
        nodes1 = amModify st.nodes cur (fun n => { n with children := n.children ++ [lib] })) →
      amContains nodes1 lib = (amFind st.nodes lib).isSome := by
    intro nodes1 h
    rcases h with h | h
    · rw [h, amContains]
    · rw [h, amContains, amFind_amModify]
      by_cases hlc : cur = lib
      · subst hlc
        simp [hcur]
      · simp [hlc]
  have key : ∀ nodes1 : List (String × Node),
      (nodes1 = st.nodes ∨
        nodes1 = amModify st.nodes cur (fun n => { n with children := n.children ++ [lib] })) →
      (if (!amContains nodes1 lib) = true then
          match ld.resolve lib with
          | some res =>
            (⟨amModify (amModify (amSet nodes1 lib ⟨"", "", (nodeAt nodes1 cur).depth + 1, [], []⟩)
              lib (fun n => { n with parents := n.parents ++ [cur] })) lib
              (fun n => { n with path := res }), st.q ++ [lib]⟩ : BfsState)
          | none =>
            ⟨amModify (amSet nodes1 lib ⟨"", "", (nodeAt nodes1 cur).depth + 1, [], []⟩)
              lib (fun n => { n with parents := n.parents ++ [cur] }), st.q⟩
        else if cur ∈ (nodeAt nodes1 lib).parents then ⟨nodes1, st.q⟩
        else ⟨amModify nodes1 lib (fun n => { n with parents := n.parents ++ [cur] }), st.q⟩).q =
      if amFind st.nodes lib = none ∧ (ld.resolve lib).isSome = true then st.q ++ [lib]
      else st.q := by
    intro nodes1 h
    rw [hc nodes1 h]
    cases hl : amFind st.nodes lib with
    | none =>
      cases hr : ld.resolve lib <;> simp
    | some nl =>
      by_cases hp : cur ∈ (nodeAt nodes1 lib).parents <;> simp [hp]
  split
  · exact key _ (Or.inl rfl)
  · exact key _ (Or.inr rfl)

theorem visit_nodup (ld : LdCache) (s : Bool) (cur lib : String) (st : BfsState)
    (h : (amKeys st.nodes).Nodup) : (amKeys (DepGraph.visit ld s cur st lib).nodes).Nodup := by
  unfold DepGraph.visit
  have hm : ∀ (m : List (String × Node)) (k : String) (f : Node → Node),
      (amKeys m).Nodup → (amKeys (amModify m k f)).Nodup :=
    fun m k f hn => nodup_amKeys_amSet m k _ hn
  have hs : ∀ (m : List (String × Node)) (k : String) (v : Node),
      (amKeys m).Nodup → (amKeys (amSet m k v)).Nodup :=
    fun m k v hn => nodup_amKeys_amSet m k v hn
  dsimp only
  repeat' split
  all_goals try dsimp only
  all_goals
    first
    | exact h
    | exact hm _ _ _ h
    | exact hm _ _ _ (hm _ _ _ h)
    | exact hm _ _ _ (hs _ _ _ h)
    | exact hm _ _ _ (hm _ _ _ (hs _ _ _ h))
    | exact hm _ _ _ (hs _ _ _ (hm _ _ _ h))
    | exact hm _ _ _ (hm _ _ _ (hs _ _ _ (hm _ _ _ h)))

/-! ## Effect of one step on nodes and edges -/

theorem visit_old (ld : LdCache) (s : Bool) (cur lib : String) (st : BfsState) (nc : Node)
    (hk : keepLib s lib = true) (hcur : amFind st.nodes cur = some nc) {k : String} {n : Node}
    (h : amFind st.nodes k = some n) :
    amFind (DepGraph.visit ld s cur st lib).nodes k = some (linkNode cur lib k n) := by
  rw [visit_find ld s cur lib st nc hk hcur k]
  have hc : ¬ (k = lib ∧ amFind st.nodes lib = none) := by
    rintro ⟨rfl, h2⟩
    rw [h2] at h
    cases h
  simp [hc, h]

theorem visit_new (ld : LdCache) (s : Bool) (cur lib : String) (st : BfsState) (nc : Node)
    (hk : keepLib s lib = true) (hcur : amFind st.nodes cur = some nc) {k : String} {n2 : Node}
    (h : amFind (DepGraph.visit ld s cur st lib).nodes k = some n2) :
    (∃ n, amFind st.nodes k = some n ∧ n2 = linkNode cur lib k n) ∨
    (amFind st.nodes k = none ∧ k = lib ∧ k ≠ cur ∧
      n2 = ⟨(ld.resolve lib).getD "", "", nc.depth + 1, [], [cur]⟩) := by
  rw [visit_find ld s cur lib st nc hk hcur k] at h
  by_cases hc : k = lib ∧ amFind st.nodes lib = none
  · obtain ⟨rfl, h2⟩ := hc
    have hne : k ≠ cur := fun e => by rw [e, hcur] at h2; cases h2
    right
    refine ⟨h2, rfl, hne, ?_⟩
    simp [h2, newNode, linkNode, hne, setInsert] at h
    exact h.symm
  · simp only [hc, if_false] at h
    cases hf : amFind st.nodes k with
    | none => simp [hf] at h
    | some n =>
      left
      refine ⟨n, rfl, ?_⟩
      simpa [hf] using h.symm

theorem visit_has_lib (ld : LdCache) (s : Bool) (cur lib : String) (st : BfsState) (nc : Node)
    (hk : keepLib s lib = true) (hcur : amFind st.nodes cur = some nc) :
    amContains (DepGraph.visit ld s cur st lib).nodes lib = true := by
  rw [amContains, visit_find ld s cur lib st nc hk hcur lib]
  cases hf : amFind st.nodes lib <;> simp

theorem visit_contains_mono (ld : LdCache) (s : Bool) (cur lib : String) (st : BfsState)
    (nc : Node) (hcur : amFind st.nodes cur = some nc) (k : String)
    (h : amContains st.nodes k = true) :
    amContains (DepGraph.visit ld s cur st lib).nodes k = true := by
  cases hk : keepLib s lib with
  | false => rw [visit_skip ld s cur lib st hk]; exact h
  | true =>
    rw [amContains, Option.isSome_iff_exists] at h
    obtain ⟨n, hn⟩ := h
    rw [amContains, visit_old ld s cur lib st nc hk hcur hn]
    rfl

theorem visit_depthOf (ld : LdCache) (s : Bool) (cur lib : String) (st : BfsState)
    (nc : Node) (hcur : amFind st.nodes cur = some nc) (k : String)
    (h : amContains st.nodes k = true) :
    depthOf (DepGraph.visit ld s cur st lib).nodes k = depthOf st.nodes k := by
  cases hk : keepLib s lib with
  | false => rw [visit_skip ld s cur lib st hk]
  | true =>
    rw [amContains, Option.isSome_iff_exists] at h
    obtain ⟨n, hn⟩ := h
    simp [depthOf, nodeAt, visit_old ld s cur lib st nc hk hcur hn, hn, linkNode]

theorem visit_childEdge (ld : LdCache) (s : Bool) (cur lib : String) (st : BfsState) (nc : Node)
    (hk : keepLib s lib = true) (hcur : amFind st.nodes cur = some nc) (a b : String) :
    childEdge (DepGraph.visit ld s cur st lib).nodes a b ↔
      childEdge st.nodes a b ∨ (a = cur ∧ b = lib) := by
  constructor
  · rintro ⟨n2, h2, hb⟩
    rcases visit_new ld s cur lib st nc hk hcur h2 with ⟨n, hn, rfl⟩ | ⟨_, _, _, rfl⟩
    · by_cases hac : a = cur
      · simp only [linkNode, hac, if_true, mem_setInsert] at hb
        rcases hb with hb | hb
        · exact Or.inl ⟨n, hn, hb⟩
        · exact Or.inr ⟨hac, hb⟩
      · simp only [linkNode, hac, if_false] at hb
        exact Or.inl ⟨n, hn, hb⟩
    · simp at hb
  · rintro (⟨n, hn, hb⟩ | ⟨rfl, rfl⟩)
    · refine ⟨_, visit_old ld s cur lib st nc hk hcur hn, ?_⟩
      by_cases hac : a = cur
      · simp only [linkNode, hac, if_true, mem_setInsert]
        exact Or.inl hb
      · simpa only [linkNode, hac, if_false] using hb
    · refine ⟨_, visit_old ld s a b st nc hk hcur hcur, ?_⟩
      simp [linkNode, mem_setInsert]

theorem visit_parentEdge (ld : LdCache) (s : Bool) (cur lib : String) (st : BfsState) (nc : Node)
    (hk : keepLib s lib = true) (hcur : amFind st.nodes cur = some nc) (a b : String) :
    parentEdge (DepGraph.visit ld s cur st lib).nodes a b ↔
      parentEdge st.nodes a b ∨ (a = cur ∧ b = lib) := by
  constructor
  · rintro ⟨n2, h2, ha⟩
    rcases visit_new ld s cur lib st nc hk hcur h2 with ⟨n, hn, rfl⟩ | ⟨_, hbl, _, rfl⟩
    · by_cases hbl : b = lib
      · simp only [linkNode, hbl, if_true, mem_setInsert] at ha
        rcases ha with ha | ha
        · exact Or.inl ⟨n, hbl ▸ hn, ha⟩
        · exact Or.inr ⟨ha, hbl⟩
      · simp only [linkNode, hbl, if_false] at ha
        exact Or.inl ⟨n, hn, ha⟩
    · simp at ha
      exact Or.inr ⟨ha, hbl⟩
  · rintro (⟨n, hn, ha⟩ | ⟨rfl, rfl⟩)
    · refine ⟨_, visit_old ld s cur lib st nc hk hcur hn, ?_⟩
      by_cases hbl : b = lib
      · simp only [linkNode, hbl, if_true, mem_setInsert]
        exact Or.inl ha
      · simpa only [linkNode, hbl, if_false] using ha
    · cases hf : amFind st.nodes b with
      | some nl =>
        refine ⟨_, visit_old ld s a b st nc hk hcur hf, ?_⟩
        simp [linkNode, mem_setInsert]
      | none =>
        refine ⟨⟨(ld.resolve b).getD "", "", nc.depth + 1, [], [a]⟩, ?_, by simp⟩
        have hne : b ≠ a := fun e => by rw [e, hcur] at hf; cases hf
        rw [visit_find ld s a b st nc hk hcur b]
        simp [hf, newNode, linkNode, hne, setInsert]

theorem Chain.mono {E F : String → String → Prop} (h : ∀ a b, E a b → F a b)
    {a b : String} {m : Nat} (c : Chain E a b m) : Chain F a b m := by
  induction c with
  | refl => exact Chain.refl _
  | step _ e ih => exact Chain.step ih (h _ _ e)

/-! ## The invariant is kept by one step of the requirement loop -/

theorem visit_q_sub (ld : LdCache) (s : Bool) (cur lib : String) (st : BfsState) (nc : Node)
    (hk : keepLib s lib = true) (hcur : amFind st.nodes cur = some nc) (k : String)
    (h : k ∈ (DepGraph.visit ld s cur st lib).q) :
    k ∈ st.q ∨ (k = lib ∧ amFind st.nodes lib = none ∧ (ld.resolve lib).isSome = true) := by
  rw [visit_q ld s cur lib st nc hk hcur] at h
  split at h
  · rename_i hc
    rcases List.mem_append.mp h with h | h
    · exact Or.inl h
    · exact Or.inr ⟨by simpa using h, hc.1, hc.2⟩
  · exact Or.inl h

theorem visit_q_mono (ld : LdCache) (s : Bool) (cur lib : String) (st : BfsState) (nc : Node)
    (hk : keepLib s lib = true) (hcur : amFind st.nodes cur = some nc) (k : String)
    (h : k ∈ st.q) : k ∈ (DepGraph.visit ld s cur st lib).q := by
  rw [visit_q ld s cur lib st nc hk hcur]
  split
  · exact List.mem_append_left _ h
  · exact h

theorem visit_depthOf_new (ld : LdCache) (s : Bool) (cur lib : String) (st : BfsState)
    (nc : Node) (hk : keepLib s lib = true) (hcur : amFind st.nodes cur = some nc)
    (hn : amFind st.nodes lib = none) :
    depthOf (DepGraph.visit ld s cur st lib).nodes lib = nc.depth + 1 := by
  simp [depthOf, nodeAt, visit_find ld s cur lib st nc hk hcur lib, hn, newNode, linkNode]

theorem visit_inv (reader : String → Option (List String)) (ld : LdCache) (s : Bool)
    (root root_path cur lib : String) (D : Nat) (st : BfsState) (nc : Node)
    (needed : List String)
    (hinv : Inv reader ld s root root_path (some cur) D st)
    (hcur : amFind st.nodes cur = some nc) (hd : nc.depth = D) (hp : nc.path ≠ "")
    (hr : reader nc.path = some needed) (hl : lib ∈ needed) :
    Inv reader ld s root root_path (some cur) D (DepGraph.visit ld s cur st lib) := by
  cases hk : keepLib s lib with
  | false => rw [visit_skip ld s cur lib st hk]; exact hinv
  | true =>
    have hold := @visit_old ld s cur lib st nc hk hcur
    have hnew := @visit_new ld s cur lib st nc hk hcur
    have hce := visit_childEdge ld s cur lib st nc hk hcur
    have hpe := visit_parentEdge ld s cur lib st nc hk hcur
    have hmono := visit_contains_mono ld s cur lib st nc hcur
    have hdep := visit_depthOf ld s cur lib st nc hcur
    have hcont : ∀ k n, amFind st.nodes k = some n → amContains st.nodes k = true :=
      fun k n h => by simp [amContains, h]
    refine ⟨?_, ?_, ?_, ?_, ?_, ?_, ?_, ?_, ?_, ?_, ?_, ?_, ?_, ?_, ?_, ?_⟩
    · -- root_node
      obtain ⟨n, hn, h0, hpth⟩ := hinv.root_node
      exact ⟨_, hold hn, by simpa [linkNode] using h0, by simpa [linkNode] using hpth⟩
    · -- q_mem
      intro k hkq
      rcases visit_q_sub ld s cur lib st nc hk hcur k hkq with h | ⟨rfl, _, _⟩
      · exact hmono k (hinv.q_mem k h)
      · exact visit_has_lib ld s cur k st nc hk hcur
    · -- bound
      intro k n2 h2
      rcases hnew h2 with ⟨n, hn, rfl⟩ | ⟨_, _, _, rfl⟩
      · simpa [linkNode] using hinv.bound k n hn
      · simp [hd]
    · -- q_ge
      intro h hq
      rcases visit_q_sub ld s cur lib st nc hk hcur h hq with h1 | ⟨rfl, hn, _⟩
      · rw [hdep h (hinv.q_mem h h1)]
        exact hinv.q_ge h h1
      · rw [visit_depthOf_new ld s cur h st nc hk hcur hn]
        omega
    · -- q_sorted
      have hq0 : st.q.Pairwise (fun a b =>
          depthOf (DepGraph.visit ld s cur st lib).nodes a ≤
            depthOf (DepGraph.visit ld s cur st lib).nodes b) := by
        refine List.Pairwise.imp_of_mem ?_ hinv.q_sorted
        intro a b ha hb hab
        rw [hdep a (hinv.q_mem a ha), hdep b (hinv.q_mem b hb)]
        exact hab
      rw [visit_q ld s cur lib st nc hk hcur]
      split
      · rename_i hc
        rw [List.pairwise_append]
        refine ⟨hq0, List.pairwise_singleton _ _, ?_⟩
        intro a ha b hb
        have hb2 : b = lib := by simpa using hb
        subst hb2
        rw [hdep a (hinv.q_mem a ha), visit_depthOf_new ld s cur b st nc hk hcur hc.1]
        have hca := hinv.q_mem a ha
        rw [amContains, Option.isSome_iff_exists] at hca
        obtain ⟨na, hna⟩ := hca
        have := hinv.bound a na hna
        simp only [depthOf, nodeAt, hna, Option.getD_some]
        omega
      · exact hq0
    · -- edge_depth
      intro a na2 ha2 c hc
      have hedge : childEdge (DepGraph.visit ld s cur st lib).nodes a c := ⟨na2, ha2, hc⟩
      rcases (hce a c).mp hedge with ⟨na, hna, hcn⟩ | ⟨rfl, rfl⟩
      · obtain ⟨ncc, hncc, hle⟩ := hinv.edge_depth a na hna c hcn
        refine ⟨_, hold hncc, ?_⟩
        have : na2 = linkNode cur lib a na := by
          rw [hold hna] at ha2
          exact (Option.some.inj ha2).symm
        subst this
        simpa [linkNode] using hle
      · have : na2 = linkNode a c a nc := by
          rw [hold hcur] at ha2
          exact (Option.some.inj ha2).symm
        subst this
        cases hf : amFind st.nodes c with
        | some nl =>
          refine ⟨_, hold hf, ?_⟩
          have := hinv.bound c nl hf
          simp only [linkNode]
          omega
        | none =>
          have hne : c ≠ a := fun e => by rw [e, hcur] at hf; cases hf
          refine ⟨⟨(ld.resolve c).getD "", "", nc.depth + 1, [], [a]⟩, ?_, by simp [linkNode]⟩
          rw [visit_find ld s a c st nc hk hcur c]
          simp [hf, newNode, linkNode, hne, setInsert]
    · -- edge_src
      intro a na2 ha2 c hc
      have hedge : childEdge (DepGraph.visit ld s cur st lib).nodes a c := ⟨na2, ha2, hc⟩
      rcases (hce a c).mp hedge with ⟨na, hna, hcn⟩ | ⟨rfl, rfl⟩
      · have : na2 = linkNode cur lib a na := by
          rw [hold hna] at ha2
          exact (Option.some.inj ha2).symm
        subst this
        simpa [linkNode] using hinv.edge_src a na hna c hcn
      · have : na2 = linkNode a c a nc := by
          rw [hold hcur] at ha2
          exact (Option.some.inj ha2).symm
        subst this
        exact ⟨by simpa [linkNode] using hp, needed, by simpa [linkNode] using hr, hl, hk⟩
    · -- reach
      intro k n2 h2
      have hsub : ∀ a b, childEdge st.nodes a b →
          childEdge (DepGraph.visit ld s cur st lib).nodes a b :=
        fun a b h => (hce a b).mpr (Or.inl h)
      rcases hnew h2 with ⟨n, hn, rfl⟩ | ⟨_, rfl, _, rfl⟩
      · have := Chain.mono hsub (hinv.reach k n hn)
        simpa [linkNode] using this
      · have h1 := Chain.mono hsub (hinv.reach cur nc hcur)
        exact Chain.step h1 ((hce cur k).mpr (Or.inr ⟨rfl, rfl⟩))
    · -- sym
      intro a b
      rw [hce a b, hpe a b, hinv.sym a b]
    · -- has_parent
      intro k n2 h2 hkr
      rcases hnew h2 with ⟨n, hn, rfl⟩ | ⟨_, _, _, rfl⟩
      · have h0 := hinv.has_parent k n hn hkr
        obtain ⟨p, hp0⟩ := List.exists_mem_of_ne_nil _ h0
        have hp1 : p ∈ (linkNode cur lib k n).parents := by
          by_cases hkl : k = lib
          · simp only [linkNode, hkl, if_true, mem_setInsert]
            exact Or.inl hp0
          · simpa only [linkNode, hkl, if_false] using hp0
        exact List.ne_nil_of_mem hp1
      · simp
    · -- path_eq
      intro k n2 h2
      rcases hnew h2 with ⟨n, hn, rfl⟩ | ⟨hnone, rfl, _, rfl⟩
      · simpa [linkNode] using hinv.path_eq k n hn
      · have hne : k ≠ root := by
          rintro rfl
          obtain ⟨n, hn, _⟩ := hinv.root_node
          rw [hn] at hnone
          cases hnone
        simp [hne]
    · -- pkg_empty
      intro k n2 h2
      rcases hnew h2 with ⟨n, hn, rfl⟩ | ⟨_, _, _, rfl⟩
      · simpa [linkNode] using hinv.pkg_empty k n hn
      · rfl
    · -- filtered
      intro k n2 h2
      rcases hnew h2 with ⟨n, hn, rfl⟩ | ⟨_, rfl, _, rfl⟩
      · exact hinv.filtered k n hn
      · exact Or.inr hk
    · -- closure
      intro k n2 h2
      rcases hnew h2 with ⟨n, hn, rfl⟩ | ⟨hnone, rfl, _, rfl⟩
      · rcases hinv.closure k n hn with h | h | h | h
        · exact Or.inl (visit_q_mono ld s cur lib st nc hk hcur k h)
        · exact Or.inr (Or.inl (by simpa [linkNode] using h))
        · exact Or.inr (Or.inr (Or.inl h))
        · refine Or.inr (Or.inr (Or.inr ?_))
          intro nd hnd x hx hkx
          obtain ⟨h1, h2⟩ := h nd (by simpa [linkNode] using hnd) x hx hkx
          refine ⟨hmono x h1, ?_⟩
          by_cases hkc : k = cur
          · simp only [linkNode, hkc, if_true, mem_setInsert]
            exact Or.inl h2
          · simpa only [linkNode, hkc, if_false] using h2
      · cases hres : ld.resolve k with
        | none => exact Or.inr (Or.inl (by simp))
        | some res =>
          left
          rw [visit_q ld s cur k st nc hk hcur]
          simp [hnone, hres]
    · -- lists_nodup
      intro k n2 h2
      rcases hnew h2 with ⟨n, hn, rfl⟩ | ⟨_, _, _, rfl⟩
      · obtain ⟨h1, h2⟩ := hinv.lists_nodup k n hn
        constructor
        · simp only [linkNode]
          split
          · exact nodup_setInsert _ _ h1
          · exact h1
        · simp only [linkNode]
          split
          · exact nodup_setInsert _ _ h2
          · exact h2
      · simp
    · exact visit_nodup ld s cur lib st hinv.keys_nodup

/-! ## The invariant along the loops of `build` -/

theorem visit_cur (ld : LdCache) (s : Bool) (cur lib : String) (st : BfsState) (nc : Node)
    (hcur : amFind st.nodes cur = some nc) :
    ∃ nc1, amFind (DepGraph.visit ld s cur st lib).nodes cur = some nc1 ∧
      nc1.depth = nc.depth ∧ nc1.path = nc.path := by
  cases hk : keepLib s lib with
  | false => rw [visit_skip ld s cur lib st hk]; exact ⟨nc, hcur, rfl, rfl⟩
  | true => exact ⟨_, visit_old ld s cur lib st nc hk hcur hcur, rfl, rfl⟩

theorem foldl_visit_inv (reader : String → Option (List String)) (ld : LdCache) (s : Bool)
    (root root_path cur : String) (D : Nat) (needed : List String) (l : List String)
    (hl : ∀ x ∈ l, x ∈ needed) (st : BfsState) (nc : Node)
    (hinv : Inv reader ld s root root_path (some cur) D st)
    (hcur : amFind st.nodes cur = some nc) (hd : nc.depth = D) (hp : nc.path ≠ "")
    (hr : reader nc.path = some needed) :
    Inv reader ld s root root_path (some cur) D (l.foldl (DepGraph.visit ld s cur) st) ∧
    (∃ nc1, amFind (l.foldl (DepGraph.visit ld s cur) st).nodes cur = some nc1 ∧
      nc1.path = nc.path) ∧
    (∀ x ∈ l, keepLib s x = true →
      amContains (l.foldl (DepGraph.visit ld s cur) st).nodes x = true ∧
      childEdge (l.foldl (DepGraph.visit ld s cur) st).nodes cur x) ∧
    (∀ k, amContains st.nodes k = true →
      amContains (l.foldl (DepGraph.visit ld s cur) st).nodes k = true) ∧
    (∀ a b, childEdge st.nodes a b →
      childEdge (l.foldl (DepGraph.visit ld s cur) st).nodes a b) := by
  induction l generalizing st nc with
  | nil => exact ⟨hinv, ⟨nc, hcur, rfl⟩, by simp, fun k h => h, fun a b h => h⟩
  | cons x l ih =>
    obtain ⟨nc1, hcur1, hd1, hp1⟩ := visit_cur ld s cur x st nc hcur
    have hinv1 := visit_inv reader ld s root root_path cur x D st nc needed hinv hcur hd hp hr
      (hl x (List.mem_cons_self x l))
    obtain ⟨h1, ⟨nc2, h2, h2p⟩, h3, h4, h5⟩ :=
      ih (fun y hy => hl y (List.mem_cons_of_mem x hy)) (DepGraph.visit ld s cur st x) nc1 hinv1
        hcur1 (hd1.trans hd) (by rw [hp1]; exact hp) (by rw [hp1]; exact hr)
    refine ⟨h1, ⟨nc2, h2, h2p.trans hp1⟩, ?_, ?_, ?_⟩
    · intro y hy hky
      rcases List.mem_cons.mp hy with rfl | hy
      · exact ⟨h4 y (visit_has_lib ld s cur y st nc hky hcur),
          h5 cur y ((visit_childEdge ld s cur y st nc hky hcur cur y).mpr (Or.inr ⟨rfl, rfl⟩))⟩
      · exact h3 y hy hky
    · intro k hk
      exact h4 k (visit_contains_mono ld s cur x st nc hcur k hk)
    · intro a b hab
      refine h5 a b ?_
      cases hkx : keepLib s x with
      | false => rw [visit_skip ld s cur x st hkx]; exact hab
      | true => exact (visit_childEdge ld s cur x st nc hkx hcur a b).mpr (Or.inl hab)

theorem Inv.dequeue {reader : String → Option (List String)} {ld : LdCache} {s : Bool}
    {root root_path cur : String} {D : Nat} {nodes : List (String × Node)} {rest : List String}
    (hinv : Inv reader ld s root root_path none D ⟨nodes, cur :: rest⟩) :
    Inv reader ld s root root_path (some cur) (depthOf nodes cur) ⟨nodes, rest⟩ := by
  have hge : D ≤ depthOf nodes cur := hinv.q_ge cur (List.mem_cons_self cur rest)
  have hsorted := List.pairwise_cons.mp hinv.q_sorted
  refine ⟨hinv.root_node, fun k hk => hinv.q_mem k (List.mem_cons_of_mem cur hk), ?_, ?_,
    hsorted.2, hinv.edge_depth, hinv.edge_src, hinv.reach, hinv.sym, hinv.has_parent,
    hinv.path_eq, hinv.pkg_empty, hinv.filtered, ?_, hinv.lists_nodup, hinv.keys_nodup⟩
  · intro k n hn
    have := hinv.bound k n hn
    omega
  · intro h hh
    exact hsorted.1 h hh
  · intro k n hn
    rcases hinv.closure k n hn with h | h | h | h
    · rcases List.mem_cons.mp h with rfl | h
      · exact Or.inr (Or.inr (Or.inl rfl))
      · exact Or.inl h
    · exact Or.inr (Or.inl h)
    · cases h
    · exact Or.inr (Or.inr (Or.inr h))

theorem Inv.finish {reader : String → Option (List String)} {ld : LdCache} {s : Bool}
    {root root_path cur : String} {D : Nat} {st : BfsState}
    (hinv : Inv reader ld s root root_path (some cur) D st)
    (hc : ∀ n, amFind st.nodes cur = some n → n.path = "" ∨ Expanded reader s st.nodes n) :
    Inv reader ld s root root_path none D st := by
  refine ⟨hinv.root_node, hinv.q_mem, hinv.bound, hinv.q_ge, hinv.q_sorted, hinv.edge_depth,
    hinv.edge_src, hinv.reach, hinv.sym, hinv.has_parent, hinv.path_eq, hinv.pkg_empty,
    hinv.filtered, ?_, hinv.lists_nodup, hinv.keys_nodup⟩
  intro k n hn
  rcases hinv.closure k n hn with h | h | h | h
  · exact Or.inl h
  · exact Or.inr (Or.inl h)
  · have hk : k = cur := Option.some.inj h
    subst hk
    rcases hc n hn with h1 | h1
    · exact Or.inr (Or.inl h1)
    · exact Or.inr (Or.inr (Or.inr h1))
  · exact Or.inr (Or.inr (Or.inr h))

theorem expand_inv (reader : String → Option (List String)) (ld : LdCache) (s : Bool)
    (root root_path cur : String) (D : Nat) (nodes : List (String × Node)) (rest : List String)
    (hinv : Inv reader ld s root root_path none D ⟨nodes, cur :: rest⟩) :
    ∃ D2, Inv reader ld s root root_path none D2
      (DepGraph.expand reader ld s cur ⟨nodes, rest⟩) := by
  have hc := hinv.q_mem cur (List.mem_cons_self cur rest)
  rw [amContains, Option.isSome_iff_exists] at hc
  obtain ⟨nc, hcur⟩ := hc
  have hdq := hinv.dequeue
  have hdc : depthOf nodes cur = nc.depth := by simp [depthOf, nodeAt, hcur]
  refine ⟨depthOf nodes cur, ?_⟩
  unfold DepGraph.expand
  simp only [amTouch_of_find nodes cur nc hcur, nodeAt_of_find nodes cur nc hcur]
  split
  · rename_i hpath
    refine hdq.finish ?_
    intro n hn
    rw [hcur] at hn
    cases hn
    exact Or.inl hpath
  · rename_i hpath
    split
    · rename_i hrd
      refine hdq.finish ?_
      intro n hn
      rw [hcur] at hn
      cases hn
      right
      intro nd hnd
      rw [hrd] at hnd
      cases hnd
    · rename_i needed hrd
      obtain ⟨h1, ⟨nc1, h2, h2p⟩, h3, _, _⟩ :=
        foldl_visit_inv reader ld s root root_path cur (depthOf nodes cur) needed needed
          (fun x hx => hx) ⟨nodes, rest⟩ nc hdq hcur hdc.symm hpath hrd
      refine h1.finish ?_
      intro n hn
      rw [h2] at hn
      cases hn
      right
      intro nd hnd x hx hkx
      rw [h2p, hrd] at hnd
      cases hnd
      obtain ⟨h4, n4, hn4, hx4⟩ := h3 x hx hkx
      rw [h2] at hn4
      cases hn4
      exact ⟨h4, hx4⟩

/-! ### The loop ends within the allotted number of turns -/

theorem countP_lt_of_witness {α : Type} (p q : α → Bool) (l : List α)
    (hpq : ∀ x ∈ l, q x = true → p x = true) (e : α) (he : e ∈ l) (hp : p e = true)
    (hq : q e = false) : l.countP q < l.countP p := by
  induction l with
  | nil => cases he
  | cons x l ih =>
    have hle : l.countP q ≤ l.countP p :=
      List.countP_mono_left (fun y hy => hpq y (List.mem_cons_of_mem x hy))
    rcases List.mem_cons.mp he with rfl | he
    · rw [List.countP_cons_of_pos _ _ hp, List.countP_cons_of_neg _ _ (by simp [hq])]
      omega
    · have ih2 := ih (fun y hy => hpq y (List.mem_cons_of_mem x hy)) he
      by_cases hqx : q x = true
      · rw [List.countP_cons_of_pos _ _ hqx,
          List.countP_cons_of_pos _ _ (hpq x (List.mem_cons_self x l) hqx)]
        omega
      · rw [List.countP_cons_of_neg _ _ hqx]
        by_cases hpx : p x = true
        · rw [List.countP_cons_of_pos _ _ hpx]
          omega
        · rw [List.countP_cons_of_neg _ _ hpx]
          exact ih2

theorem visit_measure (ld : LdCache) (s : Bool) (cur lib : String) (st : BfsState) (nc : Node)
    (hcur : amFind st.nodes cur = some nc) :
    bfsMeasure ld (DepGraph.visit ld s cur st lib) ≤ bfsMeasure ld st := by
  cases hk : keepLib s lib with
  | false => rw [visit_skip ld s cur lib st hk]
  | true =>
    have hmono : ∀ e ∈ ld.cache,
        (!amContains (DepGraph.visit ld s cur st lib).nodes e.1) = true →
        (!amContains st.nodes e.1) = true := by
      intro e _ h
      cases hc : amContains st.nodes e.1 with
      | false => rfl
      | true =>
        rw [visit_contains_mono ld s cur lib st nc hcur e.1 hc] at h
        exact h
    unfold bfsMeasure
    rw [visit_q ld s cur lib st nc hk hcur]
    split
    · rename_i hc
      obtain ⟨hnone, hres⟩ := hc
      rw [Option.isSome_iff_exists] at hres
      obtain ⟨res, hres⟩ := hres
      have hmem : (lib, res) ∈ ld.cache := mem_of_amFind _ _ _ hres
      have hlt := countP_lt_of_witness
        (fun e : String × String => !amContains st.nodes e.1)
        (fun e : String × String => !amContains (DepGraph.visit ld s cur st lib).nodes e.1)
        ld.cache hmono (lib, res) hmem (by simp [amContains, hnone])
        (by simp [visit_has_lib ld s cur lib st nc hk hcur])
      simp only [List.length_append, List.length_singleton]
      omega
    · have := List.countP_mono_left hmono
      omega

theorem foldl_visit_measure (ld : LdCache) (s : Bool) (cur : String) (l : List String)
    (st : BfsState) (nc : Node) (hcur : amFind st.nodes cur = some nc) :
    bfsMeasure ld (l.foldl (DepGraph.visit ld s cur) st) ≤ bfsMeasure ld st := by
  induction l generalizing st nc with
  | nil => exact Nat.le_refl _
  | cons x l ih =>
    obtain ⟨nc1, hcur1, _, _⟩ := visit_cur ld s cur x st nc hcur
    exact Nat.le_trans (ih (DepGraph.visit ld s cur st x) nc1 hcur1)
      (visit_measure ld s cur x st nc hcur)

theorem expand_measure (reader : String → Option (List String)) (ld : LdCache) (s : Bool)
    (cur : String) (st : BfsState) (nc : Node) (hcur : amFind st.nodes cur = some nc) :
    bfsMeasure ld (DepGraph.expand reader ld s cur st) ≤ bfsMeasure ld st := by
  unfold DepGraph.expand
  simp only [amTouch_of_find st.nodes cur nc hcur]
  split
  · exact Nat.le_refl _
  · split
    · exact Nat.le_refl _
    · exact foldl_visit_measure ld s cur _ ⟨st.nodes, st.q⟩ nc hcur

theorem bfs_spec (reader : String → Option (List String)) (ld : LdCache) (s : Bool)
    (root root_path : String) (fuel : Nat) (D : Nat) (st : BfsState)
    (hinv : Inv reader ld s root root_path none D st) (hfuel : bfsMeasure ld st ≤ fuel) :
    (∃ D2, Inv reader ld s root root_path none D2 (DepGraph.bfs reader ld s fuel st)) ∧
      (DepGraph.bfs reader ld s fuel st).q = [] := by
  induction fuel generalizing D st with
  | zero =>
    have hq : st.q = [] := by
      unfold bfsMeasure at hfuel
      exact List.length_eq_zero.mp (by omega)
    exact ⟨⟨D, hinv⟩, hq⟩
  | succ fuel ih =>
    obtain ⟨nodes, q⟩ := st
    cases q with
    | nil => exact ⟨⟨D, hinv⟩, rfl⟩
    | cons cur rest =>
      obtain ⟨D2, hinv2⟩ := expand_inv reader ld s root root_path cur D nodes rest hinv
      have hc := hinv.q_mem cur (List.mem_cons_self cur rest)
      rw [amContains, Option.isSome_iff_exists] at hc
      obtain ⟨nc, hcur⟩ := hc
      have hm := expand_measure reader ld s cur ⟨nodes, rest⟩ nc hcur
      have hm2 : bfsMeasure ld ⟨nodes, rest⟩ + 1 = bfsMeasure ld ⟨nodes, cur :: rest⟩ := by
        simp [bfsMeasure]
        omega
      have hm3 : bfsMeasure ld (DepGraph.expand reader ld s cur ⟨nodes, rest⟩) ≤ fuel := by
        omega
      exact ih D2 _ hinv2 hm3

/-! ## The graph returned by `build` -/

theorem traverse_spec (reader : String → Option (List String)) (ld : LdCache)
    (alpm : AlpmManager) (root_path : String) (s : Bool) :
    (∃ D, Inv reader ld s (filename root_path) root_path none D
      (DepGraph.traverse reader (DepGraph.fresh ld alpm) root_path s)) ∧
    (DepGraph.traverse reader (DepGraph.fresh ld alpm) root_path s).q = [] := by
  unfold DepGraph.traverse DepGraph.fresh
  simp only [amSet]
  have hfind : ∀ (k : String) (n : Node),
      amFind [(filename root_path, (⟨root_path, "", 0, [], []⟩ : Node))] k = some n →
        k = filename root_path ∧ n = ⟨root_path, "", 0, [], []⟩ := by
    intro k n h
    by_cases hk : filename root_path = k
    · simp [amFind, hk] at h
      exact ⟨hk.symm, h.symm⟩
    · simp [amFind, hk] at h
  have hroot : amFind [(filename root_path, (⟨root_path, "", 0, [], []⟩ : Node))]
      (filename root_path) = some ⟨root_path, "", 0, [], []⟩ := by
    simp [amFind]
  have hinit : Inv reader ld s (filename root_path) root_path none 0
      ⟨[(filename root_path, ⟨root_path, "", 0, [], []⟩)], [filename root_path]⟩ := by
    refine ⟨⟨_, hroot, rfl, rfl⟩, ?_, ?_, ?_, ?_, ?_, ?_, ?_, ?_, ?_, ?_, ?_, ?_, ?_, ?_, ?_⟩
    · intro k hk
      have : k = filename root_path := by simpa using hk
      subst this
      simp [amContains, hroot]
    · intro k n h
      obtain ⟨_, rfl⟩ := hfind k n h
      exact Nat.zero_le _
    · intro h _
      exact Nat.zero_le _
    · exact List.pairwise_singleton _ _
    · intro a na h c hc
      obtain ⟨_, rfl⟩ := hfind a na h
      cases hc
    · intro a na h c hc
      obtain ⟨_, rfl⟩ := hfind a na h
      cases hc
    · intro k n h
      obtain ⟨rfl, rfl⟩ := hfind k n h
      exact Chain.refl _
    · intro a b
      constructor
      · rintro ⟨n, h, hb⟩
        obtain ⟨_, rfl⟩ := hfind a n h
        cases hb
      · rintro ⟨n, h, hb⟩
        obtain ⟨_, rfl⟩ := hfind b n h
        cases hb
    · intro k n h hk
      exact absurd (hfind k n h).1 hk
    · intro k n h
      obtain ⟨rfl, rfl⟩ := hfind k n h
      simp
    · intro k n h
      obtain ⟨_, rfl⟩ := hfind k n h
      rfl
    · intro k n h
      exact Or.inl (hfind k n h).1
    · intro k n h
      left
      rw [(hfind k n h).1]
      exact List.mem_singleton_self _
    · intro k n h
      obtain ⟨_, rfl⟩ := hfind k n h
      simp
    · simp [amKeys]
  refine bfs_spec reader ld s (filename root_path) root_path _ 0 _ hinit ?_
  unfold bfsMeasure
  have := List.countP_le_length
    (fun e : String × String =>
      !amContains [(filename root_path, (⟨root_path, "", 0, [], []⟩ : Node))] e.1)
    (l := ld.cache)
  simp only [List.length_singleton]
  omega

theorem amFind_attribute (alpm : AlpmManager) (nodes : List (String × Node)) (k : String) :
    amFind (DepGraph.attribute alpm nodes) k =
      (amFind nodes k).map (DepGraph.setPkg alpm) := by
  induction nodes with
  | nil => rfl
  | cons e rest ih =>
    obtain ⟨k1, n1⟩ := e
    have ih2 : amFind (List.map (fun e : String × Node => (e.1, DepGraph.setPkg alpm e.2)) rest) k
        = (amFind rest k).map (DepGraph.setPkg alpm) := ih
    by_cases hk : k1 = k <;> simp [DepGraph.attribute, amFind, hk, ih2]

theorem amKeys_attribute (alpm : AlpmManager) (nodes : List (String × Node)) :
    amKeys (DepGraph.attribute alpm nodes) = amKeys nodes := by
  simp [DepGraph.attribute, amKeys, List.map_map, Function.comp_def]

/-- Package attribution leaves path, depth and edges of every node as the
traversal made them. -/
theorem build_find (iter : List (String × Node) → List (String × Node))
    (reader : String → Option (List String)) (g0 : DepGraph)
    (root_path : String) (s rp : Bool) :
    ∃ f : Node → Node,
      (∀ n, (f n).path = n.path ∧ (f n).depth = n.depth ∧ (f n).children = n.children ∧
        (f n).parents = n.parents) ∧
      ∀ k, amFind (DepGraph.build iter reader g0 root_path s rp).nodes k =
        (amFind (DepGraph.traverse reader g0 root_path s).nodes k).map f := by
  cases rp with
  | false =>
    refine ⟨id, fun n => ⟨rfl, rfl, rfl, rfl⟩, fun k => ?_⟩
    simp [DepGraph.build]
  | true =>
    refine ⟨DepGraph.setPkg (g0.alpm.batch_resolve
      (DepGraph.all_paths iter (DepGraph.traverse reader g0 root_path s).nodes)), fun n => ?_,
      fun k => ?_⟩
    · by_cases hp : n.path = "" <;> simp [DepGraph.setPkg, hp]
    · simp only [DepGraph.build, if_true]
      exact amFind_attribute _ _ k

theorem build_root_name (iter : List (String × Node) → List (String × Node))
    (reader : String → Option (List String)) (g0 : DepGraph)
    (root_path : String) (s rp : Bool) :
    (DepGraph.build iter reader g0 root_path s rp).root_name = filename root_path := by
  cases rp <;> rfl

theorem build_edges (iter : List (String × Node) → List (String × Node))
    (reader : String → Option (List String)) (g0 : DepGraph)
    (root_path : String) (s rp : Bool) (a b : String) :
    (childEdge (DepGraph.build iter reader g0 root_path s rp).nodes a b ↔
      childEdge (DepGraph.traverse reader g0 root_path s).nodes a b) ∧
    (parentEdge (DepGraph.build iter reader g0 root_path s rp).nodes a b ↔
      parentEdge (DepGraph.traverse reader g0 root_path s).nodes a b) := by
  obtain ⟨f, hf, hfind⟩ := build_find iter reader g0 root_path s rp
  constructor
  · constructor
    · rintro ⟨n, hn, hb⟩
      rw [hfind a] at hn
      cases h0 : amFind (DepGraph.traverse reader g0 root_path s).nodes a with
      | none => simp [h0] at hn
      | some n0 =>
        simp [h0] at hn
        subst hn
        exact ⟨n0, h0, by rw [← (hf n0).2.2.1]; exact hb⟩
    · rintro ⟨n, hn, hb⟩
      exact ⟨f n, by rw [hfind a, hn]; rfl, by rw [(hf n).2.2.1]; exact hb⟩
  · constructor
    · rintro ⟨n, hn, hb⟩
      rw [hfind b] at hn
      cases h0 : amFind (DepGraph.traverse reader g0 root_path s).nodes b with
      | none => simp [h0] at hn
      | some n0 =>
        simp [h0] at hn
        subst hn
        exact ⟨n0, h0, by rw [← (hf n0).2.2.2]; exact hb⟩
    · rintro ⟨n, hn, hb⟩
      exact ⟨f n, by rw [hfind b, hn]; rfl, by rw [(hf n).2.2.2]; exact hb⟩

theorem build_node (iter : List (String × Node) → List (String × Node))
    (reader : String → Option (List String)) (g0 : DepGraph)
    (root_path : String) (s rp : Bool) (k : String) (n : Node)
    (h : amFind (DepGraph.build iter reader g0 root_path s rp).nodes k = some n) :
    ∃ n0, amFind (DepGraph.traverse reader g0 root_path s).nodes k = some n0 ∧
      n.path = n0.path ∧ n.depth = n0.depth ∧ n.children = n0.children ∧
      n.parents = n0.parents := by
  obtain ⟨f, hf, hfind⟩ := build_find iter reader g0 root_path s rp
  rw [hfind k] at h
  cases h0 : amFind (DepGraph.traverse reader g0 root_path s).nodes k with
  | none => simp [h0] at h
  | some n0 =>
    simp [h0] at h
    subst h
    exact ⟨n0, rfl, (hf n0).1, (hf n0).2.1, (hf n0).2.2.1, (hf n0).2.2.2⟩

theorem build_contains (iter : List (String × Node) → List (String × Node))
    (reader : String → Option (List String)) (g0 : DepGraph)
    (root_path : String) (s rp : Bool) (k : String) :
    amContains (DepGraph.build iter reader g0 root_path s rp).nodes k =
      amContains (DepGraph.traverse reader g0 root_path s).nodes k := by
  obtain ⟨f, _, hfind⟩ := build_find iter reader g0 root_path s rp
  rw [amContains, amContains, hfind k]
  cases amFind (DepGraph.traverse reader g0 root_path s).nodes k <;> rfl

theorem Chain.closed {E : String → String → Prop} {T : String → Prop}
    (h : ∀ x y, T x → E x y → T y) {a b : String} {m : Nat} (c : Chain E a b m) (ha : T a) :
    T b := by
  induction c with
  | refl => exact ha
  | step _ e ih => exact h _ _ ih e

/-- In the returned graph every node with a non-empty path that the reader
accepts has all its filtered requirements as keys and as children. -/
theorem build_closed (iter : List (String × Node) → List (String × Node))
    (reader : String → Option (List String)) (ld : LdCache)
    (alpm : AlpmManager) (root_path : String) (s rp : Bool) (k : String) (n : Node)
    (hk : amFind (DepGraph.build iter reader (DepGraph.fresh ld alpm) root_path s rp).nodes k
      = some n)
    (hp : n.path ≠ "") (needed : List String) (hr : reader n.path = some needed)
    (lib : String) (hl : lib ∈ needed) (hkeep : keepLib s lib = true) :
    amContains (DepGraph.build iter reader (DepGraph.fresh ld alpm) root_path s rp).nodes lib
      = true ∧ lib ∈ n.children := by
  obtain ⟨⟨D, hinv⟩, hq⟩ := traverse_spec reader ld alpm root_path s
  obtain ⟨n0, hn0, hp0, _, hc0, _⟩ :=
    build_node iter reader (DepGraph.fresh ld alpm) root_path s rp k n hk
  rcases hinv.closure k n0 hn0 with h | h | h | h
  · rw [hq] at h
    cases h
  · exact absurd (hp0.trans h) hp
  · cases h
  · obtain ⟨h1, h2⟩ := h needed (by rw [← hp0]; exact hr) lib hl hkeep
    exact ⟨by rw [build_contains]; exact h1, by rw [hc0]; exact h2⟩

/-- The children of a node of the graph returned by `build` are requirements
declared by its file: the node is resolved, `reader` gives its requirements,
and the child is one of them that passes the name filters. -/
theorem build_children_declared (iter : List (String × Node) → List (String × Node))
    (reader : String → Option (List String)) (ld : LdCache)
    (alpm : AlpmManager) (root_path : String) (s rp : Bool) (k : String) (n : Node)
    (hk : amFind (DepGraph.build iter reader (DepGraph.fresh ld alpm) root_path s rp).nodes k
      = some n)
    (c : String) (hc : c ∈ n.children) :
    n.path ≠ "" ∧ ∃ needed, reader n.path = some needed ∧ c ∈ needed ∧
      keepLib s c = true := by
  obtain ⟨⟨D, hinv⟩, _⟩ := traverse_spec reader ld alpm root_path s
  obtain ⟨n0, hn0, hp0, _, hc0, _⟩ :=
    build_node iter reader (DepGraph.fresh ld alpm) root_path s rp k n hk
  rw [hp0]
  exact hinv.edge_src k n0 hn0 c (by rw [← hc0]; exact hc)

/-- Every node of the graph returned by `build` is reached from the root
along children edges. -/
theorem build_reach (iter : List (String × Node) → List (String × Node))
    (reader : String → Option (List String)) (ld : LdCache)
    (alpm : AlpmManager) (root_path : String) (s rp : Bool) (k : String) (n : Node)
    (hk : amFind (DepGraph.build iter reader (DepGraph.fresh ld alpm) root_path s rp).nodes k
      = some n) :
    ∃ m, Chain (childEdge (DepGraph.build iter reader (DepGraph.fresh ld alpm) root_path s
      rp).nodes) (DepGraph.build iter reader (DepGraph.fresh ld alpm) root_path s
      rp).root_name k m := by
  obtain ⟨⟨D, hinv⟩, _⟩ := traverse_spec reader ld alpm root_path s
  obtain ⟨n0, hn0, _⟩ :=
    build_node iter reader (DepGraph.fresh ld alpm) root_path s rp k n hk
  have hedge := build_edges iter reader (DepGraph.fresh ld alpm) root_path s rp
  rw [build_root_name]
  exact ⟨n0.depth, Chain.mono (fun a b h => ((hedge a b).1).mpr h) (hinv.reach k n0 hn0)⟩

/-! ## The cache parser -/

theorem readByte_of_get (mem : List Byte) (pos : Nat) (b : Byte) (h : mem.get? pos = some b) :
    readByte mem pos = .ok b := by
  simp only [readByte, h]

theorem readByte_ok (mem : List Byte) (pos : Nat) (h : pos < mem.length) :
    ∃ b, readByte mem pos = .ok b ∧ mem.get? pos = some b := by
  cases hg : mem.get? pos with
  | none =>
    rw [List.get?_eq_none] at hg
    omega
  | some b => exact ⟨b, readByte_of_get mem pos b hg, rfl⟩

theorem readBytes_ok (mem : List Byte) (n pos : Nat) (h : pos + n ≤ mem.length) :
    readBytes mem pos n = .ok ((mem.drop pos).take n) := by
  induction n generalizing pos with
  | zero => simp [readBytes]
  | succ n ih =>
    obtain ⟨b, hb, hg⟩ := readByte_ok mem pos (by omega)
    have hd : mem.drop pos = b :: mem.drop (pos + 1) := by
      rw [List.get?_eq_some] at hg
      obtain ⟨hlt, hget⟩ := hg
      rw [← hget]
      exact List.drop_eq_getElem_cons hlt
    simp [readBytes, hb, ih (pos + 1) (by omega), hd, bind, Except.bind, pure, Except.pure]

theorem readU32_ok (mem : List Byte) (pos : Nat) (h : pos + 4 ≤ mem.length) :
    ∃ v, readU32 mem pos = .ok v ∧ v < 2 ^ 32 := by
  obtain ⟨b0, h0, _⟩ := readByte_ok mem pos (by omega)
  obtain ⟨b1, h1, _⟩ := readByte_ok mem (pos + 1) (by omega)
  obtain ⟨b2, h2, _⟩ := readByte_ok mem (pos + 2) (by omega)
  obtain ⟨b3, h3, _⟩ := readByte_ok mem (pos + 3) (by omega)
  refine ⟨b0.val + 256 * b1.val + 65536 * b2.val + 16777216 * b3.val, ?_, ?_⟩
  · simp [readU32, h0, h1, h2, h3, bind, Except.bind, pure, Except.pure]
  · have := b0.isLt
    have := b1.isLt
    have := b2.isLt
    have := b3.isLt
    omega

theorem readU32_lt (mem : List Byte) (pos v : Nat) (h : readU32 mem pos = .ok v) :
    v < 2 ^ 32 := by
  unfold readU32 at h
  cases h0 : readByte mem pos with
  | error e => simp [h0, bind, Except.bind] at h
  | ok b0 =>
    cases h1 : readByte mem (pos + 1) with
    | error e => simp [h0, h1, bind, Except.bind] at h
    | ok b1 =>
      cases h2 : readByte mem (pos + 2) with
      | error e => simp [h0, h1, h2, bind, Except.bind] at h
      | ok b2 =>
        cases h3 : readByte mem (pos + 3) with
        | error e => simp [h0, h1, h2, h3, bind, Except.bind] at h
        | ok b3 =>
          simp [h0, h1, h2, h3, bind, Except.bind, pure, Except.pure] at h
          have := b0.isLt
          have := b1.isLt
          have := b2.isLt
          have := b3.isLt
          omega

/-- C3: an image shorter than the 48-byte header, or with a magic or version
byte that does not match, or whose entry table `48 + nlibs * 24` does not fit
in the mapping, is parsed without fault to the empty index, on which `resolve`
finds no name; the table size never wraps around in `size_t`. -/
theorem parse_rejected_empty (mem : List Byte)
    (h : mem.length < HEADER_SIZE ∨ mem.take 17 ≠ MAGIC ∨ mem.get? 17 ≠ some 49 ∨
      ∃ nlibs, readU32 mem 20 = .ok nlibs ∧ mem.length < HEADER_SIZE + nlibs * ENTRY_SIZE) :
    (∃ c, LdCache.parse mem = .ok c ∧ c.cache = [] ∧ ∀ n, c.resolve n = none) ∧
    (∀ nlibs, readU32 mem 20 = .ok nlibs →
      (HEADER_SIZE + nlibs * ENTRY_SIZE) % 2 ^ SIZE_BITS = HEADER_SIZE + nlibs * ENTRY_SIZE) := by
  have hwrap : ∀ nlibs, readU32 mem 20 = .ok nlibs →
      (HEADER_SIZE + nlibs * ENTRY_SIZE) % 2 ^ SIZE_BITS = HEADER_SIZE + nlibs * ENTRY_SIZE := by
    intro nlibs hn
    have := readU32_lt mem 20 nlibs hn
    apply Nat.mod_eq_of_lt
    simp only [HEADER_SIZE, ENTRY_SIZE, SIZE_BITS]
    omega
  refine ⟨?_, hwrap⟩
  suffices hp : LdCache.parse mem = .ok ⟨[]⟩ from ⟨⟨[]⟩, hp, rfl, fun n => rfl⟩
  by_cases hlen : mem.length < HEADER_SIZE
  · simp [LdCache.parse, hlen]
  · have hlen2 : 48 ≤ mem.length := by
      simp only [HEADER_SIZE] at hlen
      omega
    have hmagic := readBytes_ok mem 17 0 (by omega)
    obtain ⟨ver, hver, hget⟩ := readByte_ok mem 17 (by omega)
    obtain ⟨nlibs, hnlibs, _⟩ := readU32_ok mem 20 (by omega)
    simp only [List.drop_zero] at hmagic
    unfold LdCache.parse
    simp only [hlen, if_false, hmagic, hver, hnlibs, bind, Except.bind, hwrap nlibs hnlibs]
    by_cases hm : List.take 17 mem = MAGIC ∧ ver = 49
    · have hbig : HEADER_SIZE + nlibs * ENTRY_SIZE > mem.length := by
        rcases h with h | h | h | ⟨v, hv, hgt⟩
        · exact absurd h hlen
        · exact absurd hm.1 h
        · rw [hget, hm.2] at h
          exact absurd rfl h
        · rw [hnlibs] at hv
          cases hv
          exact hgt
      simp [hm, hbig]
    · simp [hm]

/-- Witness of C3: a 48-byte image that declares three entries. -/
theorem parse_rejected_empty_witness :
    (∃ c, LdCache.parse (mkHeader 3) = .ok c ∧ c.cache = [] ∧ ∀ n, c.resolve n = none) ∧
    (∀ nlibs, readU32 (mkHeader 3) 20 = .ok nlibs →
      (HEADER_SIZE + nlibs * ENTRY_SIZE) % 2 ^ SIZE_BITS = HEADER_SIZE + nlibs * ENTRY_SIZE) :=
  parse_rejected_empty (mkHeader 3)
    (Or.inr (Or.inr (Or.inr ⟨3, by decide, by decide⟩)))

/-- C1: on the one-page image `imageSecondEntryUnterminated` the header checks
pass and entry 0 has both offsets in range, with name "a" and path "p", so the
claim promises `resolve "a" = "p"`; but the constructor, building the name
view of entry 1, reads position 4096 = `mmap_size` and faults before any index
exists. -/
theorem parse_second_entry_unterminated :
    HEADER_SIZE ≤ imageSecondEntryUnterminated.length ∧
    imageSecondEntryUnterminated.take 17 = MAGIC ∧
    imageSecondEntryUnterminated.get? 17 = some 49 ∧
    readU32 imageSecondEntryUnterminated 20 = .ok 2 ∧
    HEADER_SIZE + 2 * ENTRY_SIZE ≤ imageSecondEntryUnterminated.length ∧
    readU32 imageSecondEntryUnterminated (HEADER_SIZE + 0 * ENTRY_SIZE + 4) = .ok 96 ∧
    readU32 imageSecondEntryUnterminated (HEADER_SIZE + 0 * ENTRY_SIZE + 8) = .ok 98 ∧
    readCStr imageSecondEntryUnterminated 96 = .ok "a" ∧
    readCStr imageSecondEntryUnterminated 98 = .ok "p" ∧
    firstMatch imageSecondEntryUnterminated "a" 2 0 = some "p" ∧
    imageSecondEntryUnterminated.length = 4096 ∧
    LdCache.parse imageSecondEntryUnterminated = .error 4096 := by
  decide!

/-- C2: on the one-page image `imageUnterminated` the header checks pass and
the single entry has both offsets (4095) below `mmap_size`, yet the constructor
reads the byte at position 4096 = `mmap_size` while measuring the name string. -/
theorem parse_reads_past_mapping :
    imageUnterminated.length = 4096 ∧
    readU32 imageUnterminated 20 = .ok 1 ∧
    HEADER_SIZE + 1 * ENTRY_SIZE ≤ imageUnterminated.length ∧
    readU32 imageUnterminated (HEADER_SIZE + 4) = .ok 4095 ∧
    readU32 imageUnterminated (HEADER_SIZE + 8) = .ok 4095 ∧
    imageUnterminated.get? 4095 = some 65 ∧
    LdCache.parse imageUnterminated = .error 4096 := by
  decide!

/-! ### The index on images whose strings end inside the mapping -/

theorem amFind_append_single {β : Type} (m : List (String × β)) (k k2 : String) (v : β) :
    amFind (m ++ [(k, v)]) k2 =
      match amFind m k2 with
      | some x => some x
      | none => if k = k2 then some v else none := by
  induction m with
  | nil => simp [amFind]
  | cons e rest ih =>
    obtain ⟨k1, v1⟩ := e
    by_cases h1 : k1 = k2
    · simp [amFind, h1]
    · simp only [List.cons_append, amFind, h1, if_false]
      exact ih

theorem amFind_amEmplace {β : Type} (m : List (String × β)) (k k2 : String) (v : β) :
    amFind (amEmplace m k v) k2 =
      match amFind m k2 with
      | some x => some x
      | none => if k = k2 then some v else none := by
  unfold amEmplace
  cases hc : amContains m k with
  | true =>
    simp only [if_true]
    cases hf : amFind m k2 with
    | some x => rfl
    | none =>
      have hne : k ≠ k2 := by
        rintro rfl
        simp [amContains, hf] at hc
      simp [hne]
  | false =>
    simp only [Bool.false_eq_true, if_false]
    exact amFind_append_single m k k2 v

theorem scanCStr_ok_of_nul (l : List Byte) (pos : Nat) (h : (0 : Byte) ∈ l) :
    ∃ bs, scanCStr l pos = .ok bs := by
  induction l generalizing pos with
  | nil => cases h
  | cons b rest ih =>
    unfold scanCStr
    by_cases hb : b = 0
    · exact ⟨[], by simp [hb]⟩
    · have hrest : (0 : Byte) ∈ rest := by
        rcases List.mem_cons.mp h with h | h
        · exact absurd h.symm hb
        · exact h
      obtain ⟨bs, hbs⟩ := ih (pos + 1) hrest
      exact ⟨b :: bs, by simp [hb, hbs, bind, Except.bind, pure, Except.pure]⟩

theorem readCStr_ok_of_nul (mem : List Byte) (off : Nat) (h : (0 : Byte) ∈ mem.drop off) :
    ∃ s, readCStr mem off = .ok s := by
  obtain ⟨bs, hbs⟩ := scanCStr_ok_of_nul (mem.drop off) off h
  exact ⟨bytesToString bs, by simp [readCStr, hbs, bind, Except.bind, pure, Except.pure]⟩

/-- If the entry loop returns an index, a lookup in it gives what was indexed
before the loop or else the path of the first matching entry of the loop. -/
theorem loadEntries_find (mem : List Byte) (n i : Nat) (cache c : List (String × String))
    (h : LdCache.loadEntries mem n i cache = .ok c) (name : String) :
    amFind c name =
      match amFind cache name with
      | some p => some p
      | none => firstMatch mem name n i := by
  induction n generalizing i cache with
  | zero =>
    simp only [LdCache.loadEntries, Except.ok.injEq] at h
    subst h
    cases amFind cache name <;> rfl
  | succ n ih =>
    unfold LdCache.loadEntries at h
    unfold firstMatch
    cases hk : readU32 mem (HEADER_SIZE + i * ENTRY_SIZE + 4) with
    | error e => simp [hk, bind, Except.bind] at h
    | ok key =>
      cases hv : readU32 mem (HEADER_SIZE + i * ENTRY_SIZE + 8) with
      | error e => simp [hk, hv, bind, Except.bind] at h
      | ok value =>
        simp only [hk, hv, bind, Except.bind] at h
        by_cases hr : key ≥ mem.length ∨ value ≥ mem.length
        · simp only [hr, if_true] at h
          have hcond : ¬ (key < mem.length ∧ value < mem.length ∧
              readCStr mem key = .ok name) := by
            rintro ⟨h1, h2, _⟩
            rcases hr with hr | hr <;> omega
          simp only [hcond, if_false]
          exact ih (i + 1) cache h
        · simp only [hr, if_false] at h
          have hr2 : key < mem.length ∧ value < mem.length := by
            constructor <;> (by_contra hc; exact hr (by omega))
          cases hnm : readCStr mem key with
          | error e => simp [hnm] at h
          | ok nm =>
            cases hpth : readCStr mem value with
            | error e => simp [hnm, hpth] at h
            | ok pth =>
              simp only [hnm, hpth] at h
              rw [ih (i + 1) _ h, amFind_amEmplace]
              cases hf : amFind cache name with
              | some p => rfl
              | none =>
                by_cases he : nm = name
                · subst he
                  simp [hr2, Except.toOption, hnm, hpth]
                · have hne : ¬ ((Except.ok nm : Except Nat String) = Except.ok name) := by
                    intro hc
                    exact he (Except.ok.inj hc)
                  simp [he, hne, hnm]

/-- The entry loop returns an index when the table fits in the mapping and
every offset it accepts is followed by a NUL byte inside the mapping. -/
theorem loadEntries_ok (mem : List Byte) (n i : Nat) (cache : List (String × String))
    (hfit : HEADER_SIZE + (i + n) * ENTRY_SIZE ≤ mem.length)
    (hterm : ∀ j, i ≤ j → j < i + n → ∀ off,
      (readU32 mem (HEADER_SIZE + j * ENTRY_SIZE + 4) = .ok off ∨
        readU32 mem (HEADER_SIZE + j * ENTRY_SIZE + 8) = .ok off) →
      off < mem.length → (0 : Byte) ∈ mem.drop off) :
    ∃ c, LdCache.loadEntries mem n i cache = .ok c := by
  induction n generalizing i cache with
  | zero => exact ⟨cache, rfl⟩
  | succ n ih =>
    have hfit2 : HEADER_SIZE + i * ENTRY_SIZE + 24 ≤ mem.length := by
      simp only [HEADER_SIZE, ENTRY_SIZE] at hfit ⊢
      omega
    obtain ⟨key, hk, _⟩ := readU32_ok mem (HEADER_SIZE + i * ENTRY_SIZE + 4) (by omega)
    obtain ⟨value, hv, _⟩ := readU32_ok mem (HEADER_SIZE + i * ENTRY_SIZE + 8) (by omega)
    have hnext : ∀ cache2, ∃ c, LdCache.loadEntries mem n (i + 1) cache2 = .ok c := by
      intro cache2
      refine ih (i + 1) cache2 (by rw [show i + 1 + n = i + (n + 1) by omega]; exact hfit) ?_
      intro j hj1 hj2 off hoff hlt
      exact hterm j (by omega) (by omega) off hoff hlt
    unfold LdCache.loadEntries
    simp only [hk, hv, bind, Except.bind]
    by_cases hr : key ≥ mem.length ∨ value ≥ mem.length
    · simp only [hr, if_true]
      exact hnext cache
    · simp only [hr, if_false]
      have hr2 : key < mem.length ∧ value < mem.length := by
        constructor <;> (by_contra hc; exact hr (by omega))
      obtain ⟨nm, hnm⟩ := readCStr_ok_of_nul mem key
        (hterm i (Nat.le_refl i) (by omega) key (Or.inl hk) hr2.1)
      obtain ⟨pth, hpth⟩ := readCStr_ok_of_nul mem value
        (hterm i (Nat.le_refl i) (by omega) value (Or.inr hv) hr2.2)
      simp only [hnm, hpth]
      exact hnext _

/-- On every image that passes the header checks and in which every accepted
offset is followed by a NUL byte inside the mapping, the constructor returns an
index, and `resolve` gives the path of the first entry, in on-disk order,
whose offsets are in range and whose name is the one asked for. -/
theorem parse_resolve_first_match (mem : List Byte) (nlibs : Nat)
    (hlen : HEADER_SIZE ≤ mem.length) (hmagic : mem.take 17 = MAGIC)
    (hver : mem.get? 17 = some 49) (hn : readU32 mem 20 = .ok nlibs)
    (hfit : HEADER_SIZE + nlibs * ENTRY_SIZE ≤ mem.length)
    (hterm : ∀ j, j < nlibs → ∀ off,
      (readU32 mem (HEADER_SIZE + j * ENTRY_SIZE + 4) = .ok off ∨
        readU32 mem (HEADER_SIZE + j * ENTRY_SIZE + 8) = .ok off) →
      off < mem.length → (0 : Byte) ∈ mem.drop off) :
    ∃ c, LdCache.parse mem = .ok c ∧ ∀ name, c.resolve name = firstMatch mem name nlibs 0 := by
  obtain ⟨cache, hc⟩ := loadEntries_ok mem nlibs 0 [] (by simpa using hfit)
    (fun j _ hj off hoff hlt => hterm j (by omega) off hoff hlt)
  refine ⟨⟨cache⟩, ?_, ?_⟩
  · have hlen2 : ¬ mem.length < HEADER_SIZE := by omega
    have hlen3 : 48 ≤ mem.length := by
      simp only [HEADER_SIZE] at hlen
      exact hlen
    have hmag := readBytes_ok mem 17 0 (by omega)
    simp only [List.drop_zero] at hmag
    have hwrap : (HEADER_SIZE + nlibs * ENTRY_SIZE) % 2 ^ SIZE_BITS =
        HEADER_SIZE + nlibs * ENTRY_SIZE := by
      have := readU32_lt mem 20 nlibs hn
      apply Nat.mod_eq_of_lt
      simp only [HEADER_SIZE, ENTRY_SIZE, SIZE_BITS]
      omega
    have hfit2 : ¬ HEADER_SIZE + nlibs * ENTRY_SIZE > mem.length := by omega
    unfold LdCache.parse
    simp only [hlen2, if_false, hmag, readByte_of_get mem 17 49 hver, hn, bind, Except.bind,
      hwrap, hmagic, and_self, if_true, hfit2, hc, pure, Except.pure]
  · intro name
    have := loadEntries_find mem nlibs 0 [] cache hc name
    simpa [LdCache.resolve, amFind] using this

/-- The first of two entries with the same name wins: on `imageDuplicate` the
name "a" resolves to "p", the path of entry 0, not to "q". -/
theorem parse_duplicate_first_wins :
    LdCache.parse imageDuplicate = .ok ⟨[("a", "p")]⟩ ∧
    LdCache.resolve ⟨[("a", "p")]⟩ "a" = some "p" ∧
    firstMatch imageDuplicate "a" 2 0 = some "p" := by
  decide

/-! ## Claims on the dependency graph -/

/-- C4: the key set of the graph returned by `build` is the least set that
contains the root key and, with every member whose node has a non-empty path
accepted by the reader, every requirement it declares that passes the filters.
Every node other than the root is reachable from the root along children edges,
has a non-empty parents list, and each parent lists it as a child. -/
theorem build_keys_least_closed (iter : List (String × Node) → List (String × Node))
    (reader : String → Option (List String)) (ld : LdCache)
    (alpm : AlpmManager) (root_path : String) (s rp : Bool) (g : DepGraph)
    (hg : g = DepGraph.build iter reader (DepGraph.fresh ld alpm) root_path s rp) :
    (amContains g.nodes g.root_name = true ∧
      ∀ k n, amFind g.nodes k = some n → n.path ≠ "" →
        ∀ needed, reader n.path = some needed →
          ∀ lib ∈ needed, keepLib s lib = true →
            amContains g.nodes lib = true ∧ lib ∈ n.children) ∧
    (∀ T : String → Prop, T g.root_name →
      (∀ k n, T k → amFind g.nodes k = some n → n.path ≠ "" →
        ∀ needed, reader n.path = some needed →
          ∀ lib ∈ needed, keepLib s lib = true → T lib) →
      ∀ k, amContains g.nodes k = true → T k) ∧
    (∀ k n, amFind g.nodes k = some n → k ≠ g.root_name →
      (∃ m, Chain (childEdge g.nodes) g.root_name k m) ∧ n.parents ≠ [] ∧
        ∀ p ∈ n.parents, childEdge g.nodes p k) ∧
    (∀ k n, amFind g.nodes k = some n →
      n.path = if k = g.root_name then root_path else (ld.resolve k).getD "") := by
  subst hg
  obtain ⟨⟨D, hinv⟩, _⟩ := traverse_spec reader ld alpm root_path s
  have hnode := build_node iter reader (DepGraph.fresh ld alpm) root_path s rp
  have hcont := build_contains iter reader (DepGraph.fresh ld alpm) root_path s rp
  have hedge := build_edges iter reader (DepGraph.fresh ld alpm) root_path s rp
  have hroot := build_root_name iter reader (DepGraph.fresh ld alpm) root_path s rp
  obtain ⟨f, hf, hfind⟩ := build_find iter reader (DepGraph.fresh ld alpm) root_path s rp
  refine ⟨⟨?_, ?_⟩, ?_, ?_, ?_⟩
  · obtain ⟨n, hn, _⟩ := hinv.root_node
    rw [hroot, hcont, amContains, hn]
    rfl
  · intro k n hk hp needed hr lib hl hkeep
    exact build_closed iter reader ld alpm root_path s rp k n hk hp needed hr lib hl hkeep
  · intro T hT0 hT k hk
    rw [hcont, amContains, Option.isSome_iff_exists] at hk
    obtain ⟨n0, hn0⟩ := hk
    have hch := hinv.reach k n0 hn0
    refine Chain.closed ?_ hch (hroot ▸ hT0)
    rintro x y hx ⟨nx, hnx, hy⟩
    obtain ⟨hpx, needed, hr, hyn, hky⟩ := hinv.edge_src x nx hnx y hy
    have hgx := (hfind x).trans (congrArg (Option.map f) hnx)
    exact hT x (f nx) hx hgx (by rw [(hf nx).1]; exact hpx) needed
      (by rw [(hf nx).1]; exact hr) y hyn hky
  · intro k n hk hkr
    obtain ⟨n0, hn0, _, hd0, _, hpar⟩ := hnode k n hk
    refine ⟨⟨n0.depth, ?_⟩, ?_, ?_⟩
    · rw [hroot]
      exact Chain.mono (fun a b h => ((hedge a b).1).mpr h) (hinv.reach k n0 hn0)
    · rw [hpar]
      exact hinv.has_parent k n0 hn0 (by rw [← hroot]; exact hkr)
    · intro p hp
      rw [(hedge p k).1]
      exact (hinv.sym p k).mpr ⟨n0, hn0, by rw [← hpar]; exact hp⟩
  · intro k n hk
    obtain ⟨n0, hn0, hp0, _⟩ := hnode k n hk
    rw [hp0, hroot]
    exact hinv.path_eq k n0 hn0

/-- C5: in the graph returned by `build` the depth of every node is the
shortest-hop distance from the root: a chain of exactly `depth` edges leads from
the root to the node, and no chain from the root to it has fewer edges; this holds
for chains along children lists and, equally, along parents lists. -/
theorem build_depth_shortest (iter : List (String × Node) → List (String × Node))
    (reader : String → Option (List String)) (ld : LdCache)
    (alpm : AlpmManager) (root_path : String) (s rp : Bool) (g : DepGraph)
    (hg : g = DepGraph.build iter reader (DepGraph.fresh ld alpm) root_path s rp)
    (k : String) (n : Node) (hk : amFind g.nodes k = some n) :
      (Chain (childEdge g.nodes) g.root_name k n.depth ∧
        ∀ m, Chain (childEdge g.nodes) g.root_name k m → n.depth ≤ m) ∧
      (Chain (parentEdge g.nodes) g.root_name k n.depth ∧
        ∀ m, Chain (parentEdge g.nodes) g.root_name k m → n.depth ≤ m) := by
  subst hg
  obtain ⟨⟨D, hinv⟩, _⟩ := traverse_spec reader ld alpm root_path s
  have hnode := build_node iter reader (DepGraph.fresh ld alpm) root_path s rp
  have hedge := build_edges iter reader (DepGraph.fresh ld alpm) root_path s rp
  have hroot := build_root_name iter reader (DepGraph.fresh ld alpm) root_path s rp
  have lower : ∀ (k : String) (m : Nat),
      Chain (childEdge (DepGraph.traverse reader (DepGraph.fresh ld alpm) root_path s).nodes)
        (filename root_path) k m →
      ∀ n0, amFind (DepGraph.traverse reader (DepGraph.fresh ld alpm) root_path s).nodes k
        = some n0 → n0.depth ≤ m := by
    intro k m hc
    induction hc with
    | refl =>
      intro n0 hn0
      obtain ⟨nr, hnr, h0, _⟩ := hinv.root_node
      rw [hnr] at hn0
      cases hn0
      omega
    | step _ e ih =>
      intro n0 hn0
      obtain ⟨nb, hnb, hcb⟩ := e
      obtain ⟨nc, hnc, hle⟩ := hinv.edge_depth _ nb hnb _ hcb
      rw [hnc] at hn0
      cases hn0
      have := ih nb hnb
      omega
  obtain ⟨n0, hn0, _, hd0, _, _⟩ := hnode k n hk
  have hup := hinv.reach k n0 hn0
  rw [hroot, hd0]
  refine ⟨⟨?_, ?_⟩, ?_, ?_⟩
  · exact Chain.mono (fun a b h => ((hedge a b).1).mpr h) hup
  · intro m hm
    exact lower k m (Chain.mono (fun a b h => ((hedge a b).1).mp h) hm) n0 hn0
  · exact Chain.mono (fun a b h => ((hedge a b).2).mpr ((hinv.sym a b).mp h)) hup
  · intro m hm
    exact lower k m
      (Chain.mono (fun a b h => (hinv.sym a b).mpr (((hedge a b).2).mp h)) hm) n0 hn0

/-- Witness of C4: the statement at the graph built for `/usr/bin/app`, whose
keys are the root and the three libraries that pass the filters. -/
theorem build_keys_least_closed_witness :
    amKeys exGraph.nodes = ["app", "liba.so", "libb.so", "libmissing.so"] ∧
    (∀ T : String → Prop, T exGraph.root_name →
      (∀ k n, T k → amFind exGraph.nodes k = some n → n.path ≠ "" →
        ∀ needed, exReader n.path = some needed →
          ∀ lib ∈ needed, keepLib false lib = true → T lib) →
      ∀ k, amContains exGraph.nodes k = true → T k) :=
  ⟨by decide,
    (build_keys_least_closed id exReader exCache exAlpm "/usr/bin/app" false true exGraph rfl).2.1⟩

/-- Witness of C5: `libmissing.so` is recorded at depth 2 in the example graph
and no chain from the root reaches it in fewer than two edges. -/
theorem build_depth_shortest_witness :
    amFind exGraph.nodes "libmissing.so" = some ⟨"", "", 2, [], ["liba.so"]⟩ ∧
    ((Chain (childEdge exGraph.nodes) exGraph.root_name "libmissing.so" 2 ∧
        ∀ m, Chain (childEdge exGraph.nodes) exGraph.root_name "libmissing.so" m → 2 ≤ m) ∧
      (Chain (parentEdge exGraph.nodes) exGraph.root_name "libmissing.so" 2 ∧
        ∀ m, Chain (parentEdge exGraph.nodes) exGraph.root_name "libmissing.so" m → 2 ≤ m)) :=
  ⟨by decide,
    build_depth_shortest id exReader exCache exAlpm "/usr/bin/app" false true exGraph rfl
      "libmissing.so" ⟨"", "", 2, [], ["liba.so"]⟩ (by decide)⟩

/-! ## More on the traversal: intermediate states, the queue -/

theorem visit_split (ld : LdCache) (s : Bool) (cur lib : String) (st : BfsState)
    (hk : keepLib s lib = true) :
    DepGraph.visit ld s cur st lib =
      DepGraph.linkChild ld cur lib ⟨DepGraph.pushChild cur lib st.nodes, st.q⟩ := by
  unfold keepLib at hk
  have h1 : NOISE_PREFIX.any (fun p => starts_with lib p) = false := by
    cases h : NOISE_PREFIX.any (fun p => starts_with lib p) <;> simp [h] at hk ⊢
  have h2 : (!s && GLIBC_PREFIX.any (fun p => starts_with lib p)) = false := by
    cases h : (!s && GLIBC_PREFIX.any (fun p => starts_with lib p)) <;> simp [h1, h] at hk ⊢
  unfold DepGraph.visit DepGraph.linkChild DepGraph.pushChild
  simp only [h1, h2, Bool.false_eq_true, if_false]

theorem traverse_eq_bfs (reader : String → Option (List String)) (g : DepGraph)
    (root_path : String) (s : Bool) :
    DepGraph.traverse reader g root_path s =
      DepGraph.bfs reader g.ld_cache s (g.ld_cache.cache.length + 1)
        (DepGraph.initState g root_path) := rfl

theorem bfs_of_nil (reader : String → Option (List String)) (ld : LdCache) (s : Bool)
    (n : Nat) (st : BfsState) (h : st.q = []) : DepGraph.bfs reader ld s n st = st := by
  cases n with
  | zero => rfl
  | succ n => simp [DepGraph.bfs, h]

theorem bfs_add (reader : String → Option (List String)) (ld : LdCache) (s : Bool)
    (a b : Nat) (st : BfsState) :
    DepGraph.bfs reader ld s (a + b) st =
      DepGraph.bfs reader ld s b (DepGraph.bfs reader ld s a st) := by
  induction a generalizing st with
  | zero => simp [DepGraph.bfs]
  | succ a ih =>
    obtain ⟨nodes, q⟩ := st
    cases q with
    | nil =>
      rw [bfs_of_nil reader ld s (a + 1 + b) ⟨nodes, []⟩ rfl,
        bfs_of_nil reader ld s (a + 1) ⟨nodes, []⟩ rfl,
        bfs_of_nil reader ld s b ⟨nodes, []⟩ rfl]
    | cons cur rest =>
      rw [show a + 1 + b = (a + b) + 1 by omega]
      simp only [DepGraph.bfs]
      exact ih _

/-- The invariant holds after any number of turns of the `while` loop. -/
theorem bfs_inv (reader : String → Option (List String)) (ld : LdCache) (s : Bool)
    (root root_path : String) (fuel : Nat) (D : Nat) (st : BfsState)
    (hinv : Inv reader ld s root root_path none D st) :
    ∃ D2, Inv reader ld s root root_path none D2 (DepGraph.bfs reader ld s fuel st) := by
  induction fuel generalizing D st with
  | zero => exact ⟨D, hinv⟩
  | succ fuel ih =>
    obtain ⟨nodes, q⟩ := st
    cases q with
    | nil => exact ⟨D, hinv⟩
    | cons cur rest =>
      obtain ⟨D2, hinv2⟩ := expand_inv reader ld s root root_path cur D nodes rest hinv
      exact ih D2 _ hinv2

theorem initState_inv (reader : String → Option (List String)) (ld : LdCache)
    (alpm : AlpmManager) (root_path : String) (s : Bool) :
    Inv reader ld s (filename root_path) root_path none 0
      (DepGraph.initState (DepGraph.fresh ld alpm) root_path) := by
  unfold DepGraph.initState DepGraph.fresh
  simp only [amSet]
  have hfind : ∀ (k : String) (n : Node),
      amFind [(filename root_path, (⟨root_path, "", 0, [], []⟩ : Node))] k = some n →
        k = filename root_path ∧ n = ⟨root_path, "", 0, [], []⟩ := by
    intro k n h
    by_cases hk : filename root_path = k
    · simp [amFind, hk] at h
      exact ⟨hk.symm, h.symm⟩
    · simp [amFind, hk] at h
  have hroot : amFind [(filename root_path, (⟨root_path, "", 0, [], []⟩ : Node))]
      (filename root_path) = some ⟨root_path, "", 0, [], []⟩ := by
    simp [amFind]
  refine ⟨⟨_, hroot, rfl, rfl⟩, ?_, ?_, ?_, ?_, ?_, ?_, ?_, ?_, ?_, ?_, ?_, ?_, ?_, ?_, ?_⟩
  · intro k hk
    have : k = filename root_path := by simpa using hk
    subst this
    simp [amContains, hroot]
  · intro k n h
    obtain ⟨_, rfl⟩ := hfind k n h
    exact Nat.zero_le _
  · intro h _
    exact Nat.zero_le _
  · exact List.pairwise_singleton _ _
  · intro a na h c hc
    obtain ⟨_, rfl⟩ := hfind a na h
    cases hc
  · intro a na h c hc
    obtain ⟨_, rfl⟩ := hfind a na h
    cases hc
  · intro k n h
    obtain ⟨rfl, rfl⟩ := hfind k n h
    exact Chain.refl _
  · intro a b
    constructor
    · rintro ⟨n, h, hb⟩
      obtain ⟨_, rfl⟩ := hfind a n h
      cases hb
    · rintro ⟨n, h, hb⟩
      obtain ⟨_, rfl⟩ := hfind b n h
      cases hb
  · intro k n h hk
    exact absurd (hfind k n h).1 hk
  · intro k n h
    obtain ⟨rfl, rfl⟩ := hfind k n h
    simp
  · intro k n h
    obtain ⟨_, rfl⟩ := hfind k n h
    rfl
  · intro k n h
    exact Or.inl (hfind k n h).1
  · intro k n h
    left
    rw [(hfind k n h).1]
    exact List.mem_singleton_self _
  · intro k n h
    obtain ⟨_, rfl⟩ := hfind k n h
    simp
  · simp [amKeys]

theorem Inv.edgesOk {reader : String → Option (List String)} {ld : LdCache} {s : Bool}
    {root root_path : String} {pend : Option String} {D : Nat} {st : BfsState}
    (h : Inv reader ld s root root_path pend D st) : EdgesOk st.nodes :=
  ⟨h.sym, h.lists_nodup⟩

theorem amTouch_find (nodes : List (String × Node)) (k : String) :
    ∃ n, amFind (amTouch nodes k) k = some n := by
  unfold amTouch
  cases h : amFind nodes k with
  | some n => exact ⟨n, by simp [amContains, h]⟩
  | none => exact ⟨Node.empty, by simp [amContains, h, amFind_amSet]⟩

theorem amTouch_contains_mono (nodes : List (String × Node)) (k k2 : String)
    (h : amContains nodes k2 = true) : amContains (amTouch nodes k) k2 = true := by
  unfold amTouch
  split
  · exact h
  · rw [amContains, amFind_amSet]
    by_cases hk : k = k2
    · simp [hk]
    · simpa [hk] using h

/-- What the requirement loop adds to the queue: only names that were not keys
before and that the cache resolves, each once. -/
theorem foldl_visit_q (ld : LdCache) (s : Bool) (cur : String) (l : List String)
    (st : BfsState) (nc : Node) (hcur : amFind st.nodes cur = some nc) :
    ∃ added, (l.foldl (DepGraph.visit ld s cur) st).q = st.q ++ added ∧ added.Nodup ∧
      (∀ x ∈ added, amContains st.nodes x = false ∧ (ld.resolve x).isSome = true ∧
        amContains (l.foldl (DepGraph.visit ld s cur) st).nodes x = true) ∧
      (∀ k, amContains st.nodes k = true →
        amContains (l.foldl (DepGraph.visit ld s cur) st).nodes k = true) := by
  induction l generalizing st nc with
  | nil => exact ⟨[], by simp, List.nodup_nil, by simp, fun k h => h⟩
  | cons x l ih =>
    obtain ⟨nc1, hcur1, _, _⟩ := visit_cur ld s cur x st nc hcur
    obtain ⟨added1, hq1, hnd1, hadd1, hmono1⟩ := ih (DepGraph.visit ld s cur st x) nc1 hcur1
    have hmono0 := visit_contains_mono ld s cur x st nc hcur
    rw [List.foldl_cons]
    cases hk : keepLib s x with
    | false =>
      rw [visit_skip ld s cur x st hk] at hq1 hadd1 hmono1 ⊢
      exact ⟨added1, hq1, hnd1, hadd1, hmono1⟩
    | true =>
      have hq := visit_q ld s cur x st nc hk hcur
      have hnotin : ∀ y ∈ added1, amContains st.nodes y = false := by
        intro y hy
        cases hc : amContains st.nodes y with
        | false => rfl
        | true =>
          have := (hadd1 y hy).1
          rw [hmono0 y hc] at this
          cases this
      by_cases hc : amFind st.nodes x = none ∧ (ld.resolve x).isSome = true
      · rw [if_pos hc] at hq
        refine ⟨x :: added1, ?_, ?_, ?_, fun k h => hmono1 k (hmono0 k h)⟩
        · rw [hq1, hq]
          simp
        · refine List.nodup_cons.mpr ⟨?_, hnd1⟩
          intro hx
          have := (hadd1 x hx).1
          rw [visit_has_lib ld s cur x st nc hk hcur] at this
          cases this
        · intro y hy
          rcases List.mem_cons.mp hy with rfl | hy
          · exact ⟨by simp [amContains, hc.1], hc.2,
              hmono1 y (visit_has_lib ld s cur y st nc hk hcur)⟩
          · exact ⟨hnotin y hy, (hadd1 y hy).2⟩
      · rw [if_neg hc] at hq
        refine ⟨added1, ?_, hnd1, ?_, fun k h => hmono1 k (hmono0 k h)⟩
        · rw [hq1, hq]
        · intro y hy
          exact ⟨hnotin y hy, (hadd1 y hy).2⟩

theorem expand_q (reader : String → Option (List String)) (ld : LdCache) (s : Bool)
    (cur : String) (st : BfsState) :
    ∃ added, (DepGraph.expand reader ld s cur st).q = st.q ++ added ∧ added.Nodup ∧
      (∀ x ∈ added, amContains st.nodes x = false ∧ (ld.resolve x).isSome = true ∧
        amContains (DepGraph.expand reader ld s cur st).nodes x = true) ∧
      (∀ k, amContains st.nodes k = true →
        amContains (DepGraph.expand reader ld s cur st).nodes k = true) := by
  have htm := amTouch_contains_mono st.nodes cur
  unfold DepGraph.expand
  simp only
  split
  · exact ⟨[], by simp, List.nodup_nil, by simp, htm⟩
  · split
    · exact ⟨[], by simp, List.nodup_nil, by simp, htm⟩
    · rename_i needed _
      obtain ⟨nc, hnc⟩ := amTouch_find st.nodes cur
      obtain ⟨added, hq, hnd, hadd, hmono⟩ :=
        foldl_visit_q ld s cur needed ⟨amTouch st.nodes cur, st.q⟩ nc hnc
      refine ⟨added, hq, hnd, ?_, fun k h => hmono k (htm k h)⟩
      intro x hx
      obtain ⟨h1, h2, h3⟩ := hadd x hx
      refine ⟨?_, h2, h3⟩
      cases hc : amContains st.nodes x with
      | false => rfl
      | true =>
        simp only at h1
        rw [htm x hc] at h1
        cases h1

theorem bfsEnqueued_spec (reader : String → Option (List String)) (ld : LdCache) (s : Bool)
    (fuel : Nat) (st : BfsState) :
    (DepGraph.bfsEnqueued reader ld s fuel st).Nodup ∧
    ∀ k ∈ DepGraph.bfsEnqueued reader ld s fuel st,
      amContains st.nodes k = false ∧ (ld.resolve k).isSome = true := by
  induction fuel generalizing st with
  | zero => exact ⟨List.nodup_nil, by simp [DepGraph.bfsEnqueued]⟩
  | succ fuel ih =>
    obtain ⟨nodes, q⟩ := st
    cases q with
    | nil => exact ⟨List.nodup_nil, by simp [DepGraph.bfsEnqueued]⟩
    | cons cur rest =>
      obtain ⟨added, hq, hnd, hadd, hmono⟩ := expand_q reader ld s cur ⟨nodes, rest⟩
      obtain ⟨ih1, ih2⟩ := ih (DepGraph.expand reader ld s cur ⟨nodes, rest⟩)
      have hdrop : (DepGraph.expand reader ld s cur ⟨nodes, rest⟩).q.drop rest.length
          = added := by
        rw [hq]
        simp
      simp only [DepGraph.bfsEnqueued, hdrop]
      constructor
      · refine List.Nodup.append hnd ih1 ?_
        intro x hx1 hx2
        have := (ih2 x hx2).1
        rw [(hadd x hx1).2.2] at this
        cases this
      · intro k hk
        rcases List.mem_append.mp hk with hk | hk
        · exact ⟨(hadd k hk).1, (hadd k hk).2.1⟩
        · refine ⟨?_, (ih2 k hk).2⟩
          cases hc : amContains nodes k with
          | false => rfl
          | true =>
            have := (ih2 k hk).1
            rw [hmono k hc] at this
            cases this

/-! ## Claims on the traversal -/

/-- C17, refuted as stated: the root gets a parent when an expanded node
requires the root key. Inspecting `libfoo.so`, which requires `libbar.so`,
which requires `libfoo.so`, gives a root node whose parents list is
`["libbar.so"]`. -/
theorem build_root_has_parent :
    exGraphRootRequired.root_name = "libfoo.so" ∧
    amFind exGraphRootRequired.nodes "libfoo.so" =
      some ⟨"/usr/lib/libfoo.so", "", 0, ["libbar.so"], ["libbar.so"]⟩ ∧
    (⟨"/usr/lib/libfoo.so", "", 0, ["libbar.so"], ["libbar.so"]⟩ : Node).parents ≠ [] := by
  decide

/-- C17, amended: the graph returned by `build` contains the root key, the
root node has depth 0 and the path given to `build`, and its parents list
holds exactly the keys of the nodes that list the root key in their children:
these are the resolved nodes whose declared requirements, as read by `reader`,
contain the root key, the root key passing the name filters. The list is
empty when no resolved node declares the root key as a requirement. -/
theorem build_root_node (iter : List (String × Node) → List (String × Node))
    (reader : String → Option (List String)) (ld : LdCache)
    (alpm : AlpmManager) (root_path : String) (s rp : Bool) (g : DepGraph)
    (hg : g = DepGraph.build iter reader (DepGraph.fresh ld alpm) root_path s rp) :
    ∃ n, amFind g.nodes g.root_name = some n ∧ n.depth = 0 ∧ n.path = root_path ∧
      (∀ p, p ∈ n.parents ↔ childEdge g.nodes p g.root_name) ∧
      (∀ p, p ∈ n.parents ↔ ∃ np needed, amFind g.nodes p = some np ∧ np.path ≠ "" ∧
        reader np.path = some needed ∧ g.root_name ∈ needed ∧
        keepLib s g.root_name = true) ∧
      ((∀ k nk needed, amFind g.nodes k = some nk → nk.path ≠ "" →
        reader nk.path = some needed → g.root_name ∉ needed) → n.parents = []) ∧
      ((∀ p, ¬ childEdge g.nodes p g.root_name) → n.parents = []) := by
  subst hg
  obtain ⟨⟨D, hinv⟩, _⟩ := traverse_spec reader ld alpm root_path s
  obtain ⟨f, hf, hfind⟩ := build_find iter reader (DepGraph.fresh ld alpm) root_path s rp
  have hedge := build_edges iter reader (DepGraph.fresh ld alpm) root_path s rp
  have hroot := build_root_name iter reader (DepGraph.fresh ld alpm) root_path s rp
  obtain ⟨n0, hn0, hd0, hp0⟩ := hinv.root_node
  have hgn := (hfind (filename root_path)).trans (congrArg (Option.map f) hn0)
  have hpar : ∀ p, p ∈ (f n0).parents ↔
      childEdge (DepGraph.build iter reader (DepGraph.fresh ld alpm) root_path s rp).nodes p
        (filename root_path) := by
    intro p
    rw [(hedge p (filename root_path)).1, hinv.sym p (filename root_path), (hf n0).2.2.2]
    constructor
    · intro hp
      exact ⟨n0, hn0, hp⟩
    · rintro ⟨n1, hn1, hp⟩
      rw [hn0] at hn1
      cases hn1
      exact hp
  have hdecl : ∀ p, p ∈ (f n0).parents ↔ ∃ np needed,
      amFind (DepGraph.build iter reader (DepGraph.fresh ld alpm) root_path s rp).nodes p =
        some np ∧ np.path ≠ "" ∧ reader np.path = some needed ∧
        filename root_path ∈ needed ∧ keepLib s (filename root_path) = true := by
    intro p
    rw [hpar p]
    constructor
    · rintro ⟨np, hnp, hc⟩
      obtain ⟨h1, needed, h2, h3, h4⟩ :=
        build_children_declared iter reader ld alpm root_path s rp p np hnp _ hc
      exact ⟨np, needed, hnp, h1, h2, h3, h4⟩
    · rintro ⟨np, needed, hnp, h1, h2, h3, h4⟩
      exact ⟨np, hnp,
        (build_closed iter reader ld alpm root_path s rp p np hnp h1 needed h2 _ h3 h4).2⟩
  rw [hroot]
  refine ⟨f n0, hgn, by rw [(hf n0).2.1]; exact hd0, by rw [(hf n0).1]; exact hp0, hpar,
    hdecl, ?_, ?_⟩
  · intro hnone
    apply List.eq_nil_iff_forall_not_mem.mpr
    intro p hp
    obtain ⟨np, needed, hnp, h1, h2, h3, _⟩ := (hdecl p).mp hp
    exact hnone p np needed hnp h1 h2 h3
  · intro hnone
    apply List.eq_nil_iff_forall_not_mem.mpr
    intro p hp
    exact hnone p ((hpar p).mp hp)

/-- Witness of C17 (amended): the root of the example graph; no file of the
example system declares `app` as a requirement. -/
theorem build_root_node_witness :
    (∀ k nk needed, amFind exGraph.nodes k = some nk → nk.path ≠ "" →
      exReader nk.path = some needed → exGraph.root_name ∉ needed) ∧
    ∃ n, amFind exGraph.nodes exGraph.root_name = some n ∧ n.depth = 0 ∧
      n.path = "/usr/bin/app" ∧ n.parents = [] := by
  have hno : ∀ k nk needed, amFind exGraph.nodes k = some nk → nk.path ≠ "" →
      exReader nk.path = some needed → exGraph.root_name ∉ needed := by
    intro k nk needed hk _ hr
    have hall : ∀ e ∈ exGraph.nodes, ∀ l, exReader e.2.path = some l →
        exGraph.root_name ∉ l := by
      intro e he l hl
      have hd : ∀ e ∈ exGraph.nodes,
          exGraph.root_name ∉ (exReader e.2.path).getD [] := by decide
      have := hd e he
      rw [hl] at this
      exact this
    exact hall (k, nk) (mem_of_amFind _ _ _ hk) needed hr
  obtain ⟨n, h1, h2, h3, _, _, h6, _⟩ :=
    build_root_node id exReader exCache exAlpm "/usr/bin/app" false true exGraph rfl
  exact ⟨hno, n, h1, h2, h3, h6 hno⟩

/-- Between the two statements of the body of the requirement loop, the
append to the children and the creation of the node or the registration of the
parent, an edge is recorded on one side only: after the first statement for
the first requirement of the example root, `liba.so` is a child of `app` but
not yet a node. The invariant on edges is read once a requirement is
processed. -/
theorem edge_one_sided_inside_loop_body :
    keepLib false "liba.so" = true ∧
    DepGraph.visit exCache false "app"
        ⟨amTouch (DepGraph.initState (DepGraph.fresh exCache exAlpm) "/usr/bin/app").nodes "app",
          []⟩ "liba.so" =
      DepGraph.linkChild exCache "app" "liba.so"
        ⟨DepGraph.pushChild "app" "liba.so"
          (amTouch (DepGraph.initState (DepGraph.fresh exCache exAlpm) "/usr/bin/app").nodes
            "app"), []⟩ ∧
    childEdge (DepGraph.pushChild "app" "liba.so"
      (amTouch (DepGraph.initState (DepGraph.fresh exCache exAlpm) "/usr/bin/app").nodes "app"))
      "app" "liba.so" ∧
    amContains (DepGraph.pushChild "app" "liba.so"
      (amTouch (DepGraph.initState (DepGraph.fresh exCache exAlpm) "/usr/bin/app").nodes "app"))
      "liba.so" = false ∧
    ¬ parentEdge (DepGraph.pushChild "app" "liba.so"
      (amTouch (DepGraph.initState (DepGraph.fresh exCache exAlpm) "/usr/bin/app").nodes "app"))
      "app" "liba.so" := by
  refine ⟨by decide, visit_split _ _ _ _ _ (by decide),
    ⟨⟨"/usr/bin/app", "", 0, ["liba.so"], []⟩, by decide, by decide⟩, by decide, ?_⟩
  rintro ⟨n, hn, _⟩
  have hnone : amFind (DepGraph.pushChild "app" "liba.so"
      (amTouch (DepGraph.initState (DepGraph.fresh exCache exAlpm) "/usr/bin/app").nodes "app"))
      "liba.so" = none := by decide
  rw [hnone] at hn
  cases hn

/-- C18: at every point of the traversal at which a requirement is fully
processed, that is after every turn of the `while` loop and after every
processed requirement inside a turn, and in the final graph, edges are
recorded symmetrically (`c` is in the children of `k` exactly when `c` is a
node and `k` is in its parents) and no children or parents list holds a key
twice. -/
theorem traversal_edges_symmetric (iter : List (String × Node) → List (String × Node))
    (reader : String → Option (List String)) (ld : LdCache)
    (alpm : AlpmManager) (root_path : String) (s rp : Bool) (g : DepGraph)
    (hg : g = DepGraph.build iter reader (DepGraph.fresh ld alpm) root_path s rp) :
    (∀ n, EdgesOk (DepGraph.bfs reader ld s n
      (DepGraph.initState (DepGraph.fresh ld alpm) root_path)).nodes) ∧
    (∀ n cur rest needed l,
      (DepGraph.bfs reader ld s n
        (DepGraph.initState (DepGraph.fresh ld alpm) root_path)).q = cur :: rest →
      (nodeAt (DepGraph.bfs reader ld s n
        (DepGraph.initState (DepGraph.fresh ld alpm) root_path)).nodes cur).path ≠ "" →
      reader (nodeAt (DepGraph.bfs reader ld s n
        (DepGraph.initState (DepGraph.fresh ld alpm) root_path)).nodes cur).path = some needed →
      l <+: needed →
      EdgesOk (l.foldl (DepGraph.visit ld s cur)
        ⟨amTouch (DepGraph.bfs reader ld s n
          (DepGraph.initState (DepGraph.fresh ld alpm) root_path)).nodes cur, rest⟩).nodes) ∧
    EdgesOk g.nodes := by
  subst hg
  have hinit := initState_inv reader ld alpm root_path s
  refine ⟨?_, ?_, ?_⟩
  · intro n
    obtain ⟨D, hinv⟩ := bfs_inv reader ld s (filename root_path) root_path n 0 _ hinit
    exact hinv.edgesOk
  · intro n cur rest needed l hq hpath hrd hl
    obtain ⟨D, hinv⟩ := bfs_inv reader ld s (filename root_path) root_path n 0 _ hinit
    generalize DepGraph.bfs reader ld s n
      (DepGraph.initState (DepGraph.fresh ld alpm) root_path) = st at hq hpath hrd hinv
    obtain ⟨nodes, q⟩ := st
    simp only at hq
    subst hq
    have hc := hinv.q_mem cur (List.mem_cons_self cur rest)
    rw [amContains, Option.isSome_iff_exists] at hc
    obtain ⟨nc, hcur⟩ := hc
    simp only [nodeAt_of_find nodes cur nc hcur] at hpath hrd
    simp only [amTouch_of_find nodes cur nc hcur]
    have hdc : depthOf nodes cur = nc.depth := by simp [depthOf, nodeAt, hcur]
    exact (foldl_visit_inv reader ld s (filename root_path) root_path cur (depthOf nodes cur)
      needed l (fun x hx => hl.subset hx) ⟨nodes, rest⟩ nc hinv.dequeue hcur hdc.symm hpath
      hrd).1.edgesOk
  · obtain ⟨⟨D, hinv⟩, _⟩ := traverse_spec reader ld alpm root_path s
    have hedge := build_edges iter reader (DepGraph.fresh ld alpm) root_path s rp
    refine ⟨?_, ?_⟩
    · intro k c
      rw [(hedge k c).1, (hedge k c).2]
      exact hinv.sym k c
    · intro k n hk
      obtain ⟨n0, hn0, _, _, hc, hp⟩ :=
        build_node iter reader (DepGraph.fresh ld alpm) root_path s rp k n hk
      rw [hc, hp]
      exact hinv.lists_nodup k n0 hn0

/-- Witness of C18: the example graph, in which `libb.so` is a child
of `liba.so` and `liba.so` a parent of `libb.so`. -/
theorem traversal_edges_symmetric_witness :
    amFind exGraph.nodes "libb.so" =
      some ⟨"/usr/lib/libb.so", "B", 1, [], ["app", "liba.so"]⟩ ∧
    EdgesOk exGraph.nodes :=
  ⟨by decide,
    (traversal_edges_symmetric id exReader exCache exAlpm "/usr/bin/app" false true exGraph
      rfl).2.2⟩

/-- C19: in the graph returned by `build`, with or without package
attribution, a node whose path is empty has no children and an empty owning
package. -/
theorem build_unresolved_leaf (iter : List (String × Node) → List (String × Node))
    (reader : String → Option (List String)) (ld : LdCache)
    (alpm : AlpmManager) (root_path : String) (s rp : Bool) (g : DepGraph)
    (hg : g = DepGraph.build iter reader (DepGraph.fresh ld alpm) root_path s rp)
    (k : String) (n : Node) (hk : amFind g.nodes k = some n) (hp : n.path = "") :
    n.children = [] ∧ n.pkg = "" := by
  subst hg
  obtain ⟨⟨D, hinv⟩, _⟩ := traverse_spec reader ld alpm root_path s
  obtain ⟨n0, hn0, hp0, _, hc0, _⟩ :=
    build_node iter reader (DepGraph.fresh ld alpm) root_path s rp k n hk
  constructor
  · rw [hc0]
    apply List.eq_nil_iff_forall_not_mem.mpr
    intro c hc
    exact (hinv.edge_src k n0 hn0 c hc).1 (hp0.symm.trans hp)
  · have hpkg0 := hinv.pkg_empty k n0 hn0
    cases rp with
    | false =>
      simp only [DepGraph.build, Bool.false_eq_true, if_false] at hk
      rw [hn0] at hk
      cases hk
      exact hpkg0
    | true =>
      simp only [DepGraph.build, if_true] at hk
      rw [amFind_attribute, hn0] at hk
      simp only [Option.map_some', Option.some.injEq] at hk
      rw [← hk]
      have hp00 : n0.path = "" := hp0.symm.trans hp
      simp [DepGraph.setPkg, hp00, hpkg0]

/-- Witness of C19: `libmissing.so` in the example graph built with attribution. -/
theorem build_unresolved_leaf_witness :
    (⟨"", "", 2, [], ["liba.so"]⟩ : Node).children = [] ∧
    (⟨"", "", 2, [], ["liba.so"]⟩ : Node).pkg = "" :=
  build_unresolved_leaf id exReader exCache exAlpm "/usr/bin/app" false true exGraph rfl
    "libmissing.so" ⟨"", "", 2, [], ["liba.so"]⟩ (by decide) rfl

/-- C20: the `while` loop of `build` ends within `cache.length + 1` turns, for
every cache index and every reader: the queue is then empty and further turns
change nothing. Over the whole run the keys pushed on the queue, the root
first, are pairwise distinct; every key pushed by the loop is resolved by the
cache, and a step of the requirement loop pushes a name only when it passes
the filters, is not yet a key and is resolved. -/
theorem traversal_terminates_enqueue_once (reader : String → Option (List String))
    (ld : LdCache) (alpm : AlpmManager) (root_path : String) (s : Bool) :
    (DepGraph.traverse reader (DepGraph.fresh ld alpm) root_path s).q = [] ∧
    (∀ extra, DepGraph.bfs reader ld s (ld.cache.length + 1 + extra)
        (DepGraph.initState (DepGraph.fresh ld alpm) root_path) =
      DepGraph.traverse reader (DepGraph.fresh ld alpm) root_path s) ∧
    (filename root_path :: DepGraph.bfsEnqueued reader ld s (ld.cache.length + 1)
      (DepGraph.initState (DepGraph.fresh ld alpm) root_path)).Nodup ∧
    (∀ k ∈ DepGraph.bfsEnqueued reader ld s (ld.cache.length + 1)
      (DepGraph.initState (DepGraph.fresh ld alpm) root_path), (ld.resolve k).isSome = true) ∧
    (∀ (st : BfsState) (cur lib : String) (nc : Node), amFind st.nodes cur = some nc →
      (DepGraph.visit ld s cur st lib).q =
        if keepLib s lib = true ∧ amFind st.nodes lib = none ∧ (ld.resolve lib).isSome = true
        then st.q ++ [lib] else st.q) := by
  obtain ⟨_, hq⟩ := traverse_spec reader ld alpm root_path s
  have henq := bfsEnqueued_spec reader ld s (ld.cache.length + 1)
    (DepGraph.initState (DepGraph.fresh ld alpm) root_path)
  refine ⟨hq, ?_, ?_, fun k hk => (henq.2 k hk).2, ?_⟩
  · intro extra
    rw [bfs_add]
    exact bfs_of_nil reader ld s extra _ hq
  · refine List.nodup_cons.mpr ⟨?_, henq.1⟩
    intro hmem
    have := (henq.2 _ hmem).1
    simp [DepGraph.initState, DepGraph.fresh, amSet, amContains, amFind] at this
  · intro st cur lib nc hcur
    cases hk : keepLib s lib with
    | false =>
      rw [visit_skip ld s cur lib st hk]
      simp
    | true =>
      rw [visit_q ld s cur lib st nc hk hcur]
      simp

/-- Witness of C20: on the example system the loop pushes `liba.so` and
`libb.so`, each once, and ends with an empty queue. -/
theorem traversal_terminates_enqueue_once_witness :
    (DepGraph.traverse exReader (DepGraph.fresh exCache exAlpm) "/usr/bin/app" false).q = [] ∧
    DepGraph.bfsEnqueued exReader exCache false (exCache.cache.length + 1)
      (DepGraph.initState (DepGraph.fresh exCache exAlpm) "/usr/bin/app") =
        ["liba.so", "libb.so"] :=
  ⟨(traversal_terminates_enqueue_once exReader exCache exAlpm "/usr/bin/app" false).1,
    by decide⟩

/-! ## The requirement filters -/

theorem starts_with_three (lib p : String) (a b c : Char) (rest : List Char)
    (hp : p.data = a :: b :: c :: rest) (h : starts_with lib p = true) :
    ∃ tl, lib.data = a :: b :: c :: tl := by
  unfold starts_with at h
  rw [hp] at h
  match hl : lib.data with
  | [] => simp [hl, List.isPrefixOf] at h
  | [x] => simp [hl, List.isPrefixOf] at h
  | [x, y] => simp [hl, List.isPrefixOf] at h
  | x :: y :: z :: tl =>
    simp [hl, List.isPrefixOf] at h
    obtain ⟨h1, h2, h3, _⟩ := h
    exact ⟨tl, by rw [h1, h2, h3]⟩

/-- No name starts both with a standard-runtime prefix and with a noise prefix. -/
theorem glibc_not_noise (lib : String)
    (h : GLIBC_PREFIX.any (fun p => starts_with lib p) = true) :
    NOISE_PREFIX.any (fun p => starts_with lib p) = false := by
  have hg : ∃ c rest, lib.data = 'l' :: 'i' :: c :: rest ∧ c ≠ 'n' := by
    simp only [GLIBC_PREFIX, List.any_cons, List.any_nil, Bool.or_false, Bool.or_eq_true] at h
    rcases h with h | h | h | h | h
    all_goals
      obtain ⟨tl, htl⟩ := starts_with_three lib _ 'l' 'i' 'b' _ rfl h
      exact ⟨'b', tl, htl, by decide⟩
  obtain ⟨c, rest, hl, hc⟩ := hg
  simp only [NOISE_PREFIX, List.any_cons, List.any_nil, Bool.or_false, Bool.or_eq_false_iff]
  constructor
  · cases hs : starts_with lib "linux-vdso" with
    | false => rfl
    | true =>
      obtain ⟨tl, htl⟩ := starts_with_three lib _ 'l' 'i' 'n' _ rfl hs
      rw [hl] at htl
      simp at htl
      exact absurd htl.1 hc
  · cases hs : starts_with lib "ld-linux" with
    | false => rfl
    | true =>
      obtain ⟨tl, htl⟩ := starts_with_three lib _ 'l' 'd' '-' _ rfl hs
      rw [hl] at htl
      simp at htl

/-- C6, refuted as stated: the root key is never filtered. With inclusion
disabled, inspecting `/usr/lib/libc.so.6` gives a graph whose (root) key starts
with the standard-runtime prefix "libc.so"; with inclusion enabled, inspecting
the loader gives a graph whose (root) key starts with the noise prefix "ld-linux". -/
theorem build_root_key_not_filtered :
    (amContains (DepGraph.build id (fun _ => none) (DepGraph.fresh ⟨[]⟩ AlpmManager.unloaded)
        "/usr/lib/libc.so.6" false false).nodes "libc.so.6" = true ∧
      GLIBC_PREFIX.any (fun p => starts_with "libc.so.6" p) = true) ∧
    (amContains (DepGraph.build id (fun _ => none) (DepGraph.fresh ⟨[]⟩ AlpmManager.unloaded)
        "/usr/lib/ld-linux-x86-64.so.2" true false).nodes "ld-linux-x86-64.so.2" = true ∧
      NOISE_PREFIX.any (fun p => starts_with "ld-linux-x86-64.so.2" p) = true) := by
  decide

/-- C6, amended: in the graph returned by `build` no key other than the root
key starts with a noise prefix, and with inclusion disabled none other than the
root key starts with a standard-runtime prefix; with inclusion enabled every
standard-runtime name declared by an expanded node is a key of the graph and is
listed in the children of that node. -/
theorem build_keys_filtered (iter : List (String × Node) → List (String × Node))
    (reader : String → Option (List String)) (ld : LdCache)
    (alpm : AlpmManager) (root_path : String) (s rp : Bool) (g : DepGraph)
    (hg : g = DepGraph.build iter reader (DepGraph.fresh ld alpm) root_path s rp) :
    (∀ k, amContains g.nodes k = true → k ≠ g.root_name →
      NOISE_PREFIX.any (fun p => starts_with k p) = false ∧
      (s = false → GLIBC_PREFIX.any (fun p => starts_with k p) = false)) ∧
    (s = true → ∀ k n, amFind g.nodes k = some n → n.path ≠ "" →
      ∀ needed, reader n.path = some needed →
        ∀ lib ∈ needed, GLIBC_PREFIX.any (fun p => starts_with lib p) = true →
          amContains g.nodes lib = true ∧ lib ∈ n.children) := by
  subst hg
  obtain ⟨⟨D, hinv⟩, _⟩ := traverse_spec reader ld alpm root_path s
  have hcont := build_contains iter reader (DepGraph.fresh ld alpm) root_path s rp
  have hroot := build_root_name iter reader (DepGraph.fresh ld alpm) root_path s rp
  constructor
  · intro k hk hkr
    rw [hcont, amContains, Option.isSome_iff_exists] at hk
    obtain ⟨n0, hn0⟩ := hk
    rcases hinv.filtered k n0 hn0 with h | h
    · exact absurd (h.trans hroot.symm) hkr
    · unfold keepLib at h
      cases h1 : NOISE_PREFIX.any (fun p => starts_with k p) with
      | true => simp [h1] at h
      | false =>
        refine ⟨rfl, ?_⟩
        intro hs
        cases h2 : GLIBC_PREFIX.any (fun p => starts_with k p) with
        | true => simp [h1, h2, hs] at h
        | false => rfl
  · intro hs k n hk hp needed hr lib hl hglibc
    refine build_closed iter reader ld alpm root_path s rp k n hk hp needed hr lib hl ?_
    simp [keepLib, glibc_not_noise lib hglibc, hs]

/-- Witness of C6 (amended): with inclusion enabled the root of the example
graph declares `libc.so.6`, which is then a key and a child of the root; with
inclusion disabled it is not a key. -/
theorem build_keys_filtered_witness :
    amContains exGraph.nodes "libc.so.6" = false ∧
    (amContains exGraphStd.nodes "libc.so.6" = true ∧
      "libc.so.6" ∈ (⟨"/usr/bin/app", "-", 0, ["liba.so", "libc.so.6", "libb.so"], []⟩ : Node).children) ∧
    (∀ k, amContains exGraph.nodes k = true → k ≠ exGraph.root_name →
      NOISE_PREFIX.any (fun p => starts_with k p) = false ∧
      (false = false → GLIBC_PREFIX.any (fun p => starts_with k p) = false)) :=
  ⟨by decide,
    (build_keys_filtered id exReader exCache exAlpm "/usr/bin/app" true true exGraphStd rfl).2 rfl
      "app" ⟨"/usr/bin/app", "-", 0, ["liba.so", "libc.so.6", "libb.so"], []⟩ (by decide)
      (by decide) ["liba.so", "libc.so.6", "libb.so", "ld-linux-x86-64.so.2"] (by decide)
      "libc.so.6" (by decide) (by decide),
    (build_keys_filtered id exReader exCache exAlpm "/usr/bin/app" false true exGraph rfl).1⟩

/-! ## Package attribution -/

/-- C7: two requested paths that differ only by the leading '/' share one key
of `lookup_map`, so the later request overwrites the earlier one. With the
manifest of `zlib` holding `usr/lib/libz.so`, the request
`["/usr/lib/libz.so", "usr/lib/libz.so"]` attributes the second path only:
the first stays unknown although its stripped form is in the manifest. -/
theorem batch_resolve_key_collision :
    stripSlash "/usr/lib/libz.so" = "usr/lib/libz.so" ∧
    "usr/lib/libz.so" ∈ (⟨"zlib", ["usr/lib/libz.so"]⟩ : AlpmPkg).files ∧
    (AlpmManager.batch_resolve ⟨true, some [⟨"zlib", ["usr/lib/libz.so"]⟩], []⟩
      ["/usr/lib/libz.so", "usr/lib/libz.so"]).pkg_cache = [("usr/lib/libz.so", "zlib")] ∧
    (AlpmManager.batch_resolve ⟨true, some [⟨"zlib", ["usr/lib/libz.so"]⟩], []⟩
      ["/usr/lib/libz.so", "usr/lib/libz.so"]).get_package "usr/lib/libz.so" = "zlib" ∧
    (AlpmManager.batch_resolve ⟨true, some [⟨"zlib", ["usr/lib/libz.so"]⟩], []⟩
      ["/usr/lib/libz.so", "usr/lib/libz.so"]).get_package "/usr/lib/libz.so" = "-" := by
  decide

theorem create_unavailable (env : AlpmEnv)
    (h : AlpmManager.openLib env = none ∨
      ∃ lib, AlpmManager.openLib env = some lib ∧
        ((∃ sym ∈ ALPM_SYMBOLS, sym ∉ lib.symbols) ∨ lib.init_result = none)) :
    AlpmManager.create env = AlpmManager.unloaded := by
  unfold AlpmManager.create
  rcases h with h | ⟨lib, h, h2⟩
  · rw [h]
  · rw [h]
    rcases h2 with ⟨sym, hs, hn⟩ | h2
    · have hall : ALPM_SYMBOLS.all (fun s => decide (s ∈ lib.symbols)) = false := by
        rw [Bool.eq_false_iff]
        intro hall
        rw [List.all_eq_true] at hall
        exact hn (by simpa using hall sym hs)
      simp [hall]
    · simp [h2]

theorem lib_to_pkg_nil_of_unknown (nodes : List (String × Node)) (r : String) (ld : LdCache)
    (a : AlpmManager) (h : ∀ e ∈ nodes, knownPkg e.2.pkg = false) :
    (DepGraph.mk nodes r ld a).lib_to_pkg = [] := by
  unfold DepGraph.lib_to_pkg
  simp only
  induction nodes with
  | nil => rfl
  | cons e rest ih =>
    rw [List.foldl_cons, h e (List.mem_cons_self e rest)]
    exact ih (fun x hx => h x (List.mem_cons_of_mem e hx))

theorem addChildren_nil (p : String) (deps : List (String × List String))
    (children : List String) : DepGraph.addChildren [] p deps children = deps := by
  unfold DepGraph.addChildren
  induction children generalizing deps with
  | nil => rfl
  | cons c rest ih =>
    rw [List.foldl_cons]
    simp [amFind]

theorem get_minimal_pkgs_of_unknown (g : DepGraph)
    (h : ∀ e ∈ g.nodes, knownPkg e.2.pkg = false) : g.get_minimal_pkgs = [] := by
  obtain ⟨nodes, r, ld, a⟩ := g
  have hl := lib_to_pkg_nil_of_unknown nodes r ld a h
  have hd : (DepGraph.mk nodes r ld a).pkg_deps = [] := by
    unfold DepGraph.pkg_deps
    rw [hl]
    simp only [addChildren_nil]
    generalize (DepGraph.mk nodes r ld a).p_pkg = pp
    clear h hl
    induction nodes with
    | nil => rfl
    | cons e rest ih =>
      rw [List.foldl_cons]
      simp
  unfold DepGraph.get_minimal_pkgs DepGraph.minimal_unsorted
  rw [hd]
  rfl

theorem traverse_pkg_empty (reader : String → Option (List String)) (ld : LdCache)
    (alpm : AlpmManager) (root_path : String) (s : Bool) :
    ∀ e ∈ (DepGraph.traverse reader (DepGraph.fresh ld alpm) root_path s).nodes,
      e.2.pkg = "" := by
  obtain ⟨⟨D, hinv⟩, _⟩ := traverse_spec reader ld alpm root_path s
  intro e he
  exact hinv.pkg_empty e.1 e.2 (amFind_of_mem _ _ _ hinv.keys_nodup he)

/-- C8: when the library cannot be loaded, an entry point is missing or
`alpm_initialize` fails, the manager is unavailable, `batch_resolve` returns the
state unchanged for every request, `get_package` answers "-" for every path,
and `get_minimal_pkgs` is empty on every graph built with that manager. -/
theorem unavailable_degrades (env : AlpmEnv)
    (h : AlpmManager.openLib env = none ∨
      ∃ lib, AlpmManager.openLib env = some lib ∧
        ((∃ sym ∈ ALPM_SYMBOLS, sym ∉ lib.symbols) ∨ lib.init_result = none)) :
    (AlpmManager.create env).is_available = false ∧
    (∀ paths, (AlpmManager.create env).batch_resolve paths = AlpmManager.create env) ∧
    (∀ path, (AlpmManager.create env).get_package path = "-") ∧
    (∀ (iter : List (String × Node) → List (String × Node))
        (reader : String → Option (List String)) (ld : LdCache) (root_path : String)
        (s rp : Bool),
      (DepGraph.build iter reader (DepGraph.fresh ld (AlpmManager.create env)) root_path s
        rp).get_minimal_pkgs = []) := by
  rw [create_unavailable env h]
  refine ⟨rfl, fun paths => rfl, fun path => rfl, ?_⟩
  intro iter reader ld root_path s rp
  apply get_minimal_pkgs_of_unknown
  have hpkg := traverse_pkg_empty reader ld AlpmManager.unloaded root_path s
  cases rp with
  | false =>
    intro e he
    have : e.2.pkg = "" := hpkg e he
    rw [this]
    rfl
  | true =>
    intro e he
    simp only [DepGraph.build, if_true, DepGraph.attribute] at he
    obtain ⟨e0, he0, rfl⟩ := List.mem_map.mp he
    have h0 : e0.2.pkg = "" := hpkg e0 he0
    simp only [DepGraph.setPkg]
    split
    · rw [h0]
      rfl
    · rfl

/-- Witness of C8: an environment in which no `libalpm` can be loaded. -/
theorem unavailable_degrades_witness :
    (AlpmManager.create ⟨fun _ => none⟩).is_available = false ∧
    (∀ paths, (AlpmManager.create ⟨fun _ => none⟩).batch_resolve paths =
      AlpmManager.create ⟨fun _ => none⟩) ∧
    (∀ path, (AlpmManager.create ⟨fun _ => none⟩).get_package path = "-") ∧
    (∀ (iter : List (String × Node) → List (String × Node))
        (reader : String → Option (List String)) (ld : LdCache) (root_path : String)
        (s rp : Bool),
      (DepGraph.build iter reader (DepGraph.fresh ld (AlpmManager.create ⟨fun _ => none⟩))
        root_path s rp).get_minimal_pkgs = []) :=
  unavailable_degrades ⟨fun _ => none⟩ (Or.inl rfl)

/-! ## The scan of the package database -/

theorem amFind_amErase {β : Type} (m : List (String × β)) (k k2 : String)
    (hnd : (amKeys m).Nodup) :
    amFind (amErase m k) k2 = if k = k2 then none else amFind m k2 := by
  induction m with
  | nil => simp [amErase, amFind]
  | cons e rest ih =>
    obtain ⟨k1, v1⟩ := e
    simp only [amKeys, List.map_cons, List.nodup_cons] at hnd
    by_cases h1 : k1 = k
    · subst h1
      by_cases h2 : k1 = k2
      · subst h2
        simp only [amErase, if_true]
        exact (amFind_eq_none_iff rest k1).mpr hnd.1
      · simp [amErase, amFind, h2]
    · by_cases h2 : k1 = k2
      · subst h2
        simp [amErase, amFind, h1, Ne.symm h1]
      · simp only [amErase, h1, if_false, amFind, h2]
        exact ih hnd.2

theorem amKeys_amErase_sub {β : Type} (m : List (String × β)) (k : String) :
    (amKeys (amErase m k)).Sublist (amKeys m) := by
  induction m with
  | nil => exact List.Sublist.refl _
  | cons e rest ih =>
    obtain ⟨k1, v1⟩ := e
    by_cases h1 : k1 = k
    · simp only [amErase, h1, if_true, amKeys, List.map_cons]
      exact List.sublist_cons_self _ _
    · simp only [amErase, h1, if_false, amKeys, List.map_cons]
      exact List.Sublist.cons₂ _ ih

theorem LookupOk.erase {lm : List (String × String)} (h : LookupOk lm) (k : String) :
    LookupOk (amErase lm k) := by
  refine ⟨h.1.sublist (amKeys_amErase_sub lm k), ?_⟩
  intro k2 v hf
  rw [amFind_amErase lm k k2 h.1] at hf
  by_cases hk : k = k2
  · simp [hk] at hf
  · simp only [hk, if_false] at hf
    exact h.2 k2 v hf

theorem amFind_nil_of_isEmpty {β : Type} (m : List (String × β)) (h : m.isEmpty = true)
    (k : String) : amFind m k = none := by
  cases m with
  | nil => rfl
  | cons e rest => simp at h

/-- The effect of scanning the manifest of one package. -/
theorem scanFiles_spec (name : String) (fs : List String) (lm pc : List (String × String))
    (hlm : LookupOk lm) :
    (∀ x, amFind lm (stripSlash x) = some x → stripSlash x ∈ fs →
      amFind (AlpmManager.scanFiles name fs lm pc).2.2 x = some name) ∧
    (∀ x, ¬ (amFind lm (stripSlash x) = some x ∧ stripSlash x ∈ fs) →
      amFind (AlpmManager.scanFiles name fs lm pc).2.2 x = amFind pc x) ∧
    (∀ k, amFind (AlpmManager.scanFiles name fs lm pc).2.1 k =
      if k ∈ fs then none else amFind lm k) ∧
    LookupOk (AlpmManager.scanFiles name fs lm pc).2.1 ∧
    ((AlpmManager.scanFiles name fs lm pc).1 = true →
      ∀ k, amFind (AlpmManager.scanFiles name fs lm pc).2.1 k = none) := by
  induction fs generalizing lm pc with
  | nil =>
    refine ⟨?_, ?_, ?_, hlm, ?_⟩
    · intro x _ hx
      cases hx
    · intro x _
      rfl
    · intro k
      simp [AlpmManager.scanFiles]
    · intro hb
      simp [AlpmManager.scanFiles] at hb
  | cons f rest ih =>
    cases hf : amFind lm f with
    | none =>
      have hstep : AlpmManager.scanFiles name (f :: rest) lm pc =
          AlpmManager.scanFiles name rest lm pc := by
        simp [AlpmManager.scanFiles, hf]
      rw [hstep]
      obtain ⟨h1, h2, h3, h4, h5⟩ := ih lm pc hlm
      refine ⟨?_, ?_, ?_, h4, h5⟩
      · intro x hx hmem
        rcases List.mem_cons.mp hmem with he | he
        · rw [he, hf] at hx
          cases hx
        · exact h1 x hx he
      · intro x hx
        exact h2 x (fun ⟨ha, hb⟩ => hx ⟨ha, List.mem_cons_of_mem f hb⟩)
      · intro k
        rw [h3 k]
        by_cases hk : k = f
        · subst hk
          simp [hf]
        · simp [hk]
    | some orig =>
      have hforig : f = stripSlash orig := hlm.2 f orig hf
      have herase := amFind_amErase lm f
      have hok1 : LookupOk (amErase lm f) := hlm.erase f
      cases hemp : (amErase lm f).isEmpty with
      | true =>
        have hstep : AlpmManager.scanFiles name (f :: rest) lm pc =
            (true, amErase lm f, amSet pc orig name) := by
          simp [AlpmManager.scanFiles, hf, hemp]
        rw [hstep]
        have hnil := amFind_nil_of_isEmpty (amErase lm f) hemp
        have hother : ∀ k, k ≠ f → amFind lm k = none := by
          intro k hk
          have := hnil k
          rw [herase k hlm.1] at this
          simpa [Ne.symm hk] using this
        refine ⟨?_, ?_, ?_, hok1, fun _ => hnil⟩
        · intro x hx _
          have hxf : stripSlash x = f := by
            by_contra hne
            rw [hother _ hne] at hx
            cases hx
          rw [hxf, hf] at hx
          cases hx
          simp [amFind_amSet]
        · intro x hx
          have hne : orig ≠ x := by
            rintro rfl
            exact hx ⟨by rw [← hforig]; exact hf, by rw [← hforig]; exact List.mem_cons_self f rest⟩
          simp [amFind_amSet, hne]
        · intro k
          simp only
          rw [hnil k]
          by_cases hk : k ∈ f :: rest
          · simp [hk]
          · have hkf : k ≠ f := fun e => hk (e ▸ List.mem_cons_self f rest)
            simp [hk, hother k hkf]
      | false =>
        have hstep : AlpmManager.scanFiles name (f :: rest) lm pc =
            AlpmManager.scanFiles name rest (amErase lm f) (amSet pc orig name) := by
          simp [AlpmManager.scanFiles, hf, hemp]
        rw [hstep]
        obtain ⟨h1, h2, h3, h4, h5⟩ := ih (amErase lm f) (amSet pc orig name) hok1
        refine ⟨?_, ?_, ?_, h4, h5⟩
        · intro x hx hmem
          by_cases hxf : stripSlash x = f
          · rw [hxf, hf] at hx
            cases hx
            rw [h2 orig]
            · simp [amFind_amSet]
            · rintro ⟨ha, _⟩
              rw [herase _ hlm.1, ← hforig] at ha
              simp at ha
          · have hmem2 : stripSlash x ∈ rest := by
              rcases List.mem_cons.mp hmem with he | he
              · exact absurd he hxf
              · exact he
            refine h1 x ?_ hmem2
            rw [herase _ hlm.1]
            simpa [Ne.symm hxf] using hx
        · intro x hx
          have hne : orig ≠ x := by
            rintro rfl
            exact hx ⟨by rw [← hforig]; exact hf, by rw [← hforig]; exact List.mem_cons_self f rest⟩
          rw [h2 x]
          · simp [amFind_amSet, hne]
          · rintro ⟨ha, hb⟩
            rw [herase _ hlm.1] at ha
            by_cases hxf : f = stripSlash x
            · simp [hxf] at ha
            · simp only [hxf, if_false] at ha
              exact hx ⟨ha, List.mem_cons_of_mem f hb⟩
        · intro k
          rw [h3 k, herase k hlm.1]
          by_cases hk : k = f
          · subst hk
            simp
          · by_cases hkr : k ∈ rest
            · simp [hkr]
            · simp [hk, hkr, Ne.symm hk]

/-- The effect of the whole scan on the attribution of a path `x`. -/
theorem scanPkgs_spec (db : List AlpmPkg) (lm pc : List (String × String))
    (hlm : LookupOk lm) (x : String) :
    amFind (AlpmManager.scanPkgs db lm pc) x =
      if amFind lm (stripSlash x) = some x then
        match firstOwner db (stripSlash x) with
        | some n => some n
        | none => amFind pc x
      else amFind pc x := by
  induction db generalizing lm pc with
  | nil =>
    simp only [AlpmManager.scanPkgs, firstOwner]
    split <;> rfl
  | cons pkg rest ih =>
    obtain ⟨h1, h2, h3, h4, h5⟩ := scanFiles_spec pkg.name pkg.files lm pc hlm
    unfold AlpmManager.scanPkgs firstOwner
    cases hs : AlpmManager.scanFiles pkg.name pkg.files lm pc with
    | mk b r =>
      obtain ⟨lm1, pc1⟩ := r
      rw [hs] at h1 h2 h3 h4 h5
      simp only at h1 h2 h3 h4 h5
      cases b with
      | true =>
        simp only
        by_cases hx : amFind lm (stripSlash x) = some x
        · have hmem : stripSlash x ∈ pkg.files := by
            by_contra hne
            have := h3 (stripSlash x)
            rw [h5 rfl (stripSlash x)] at this
            simp [hne, hx] at this
          simp [hx, hmem, h1 x hx hmem]
        · simp only [hx, if_false]
          exact h2 x (fun ⟨ha, _⟩ => hx ha)
      | false =>
        simp only
        rw [ih lm1 pc1 h4, h3]
        by_cases hx : amFind lm (stripSlash x) = some x
        · by_cases hmem : stripSlash x ∈ pkg.files
          · simp [hx, hmem, h1 x hx hmem]
          · simp [hx, hmem, h2 x (fun ⟨_, hb⟩ => hmem hb)]
        · have hx1 : ¬ ((if stripSlash x ∈ pkg.files then none
              else amFind lm (stripSlash x)) = some x) := by
            split
            · simp
            · exact hx
          simp only [hx, hx1, if_false]
          exact h2 x (fun ⟨ha, _⟩ => hx ha)

theorem lookupMap_foldl_ok (l : List String) (m : List (String × String)) (h : LookupOk m) :
    LookupOk (l.foldl (fun m p => amSet m (stripSlash p) p) m) := by
  induction l generalizing m with
  | nil => exact h
  | cons p rest ih =>
    rw [List.foldl_cons]
    apply ih
    refine ⟨nodup_amKeys_amSet m _ _ h.1, ?_⟩
    intro k v hf
    rw [amFind_amSet] at hf
    by_cases hk : stripSlash p = k
    · simp only [hk, if_true, Option.some.injEq] at hf
      rw [← hf, hk]
    · simp only [hk, if_false] at hf
      exact h.2 k v hf

theorem lookupMap_ok (to_find : List String) : LookupOk (lookupMap to_find) :=
  lookupMap_foldl_ok to_find [] ⟨by simp [amKeys], fun k v hf => by simp [amFind] at hf⟩

theorem lookupMap_foldl_find (l : List String) (m : List (String × String)) (k v : String)
    (h : amFind (l.foldl (fun m p => amSet m (stripSlash p) p) m) k = some v) :
    v ∈ l ∨ amFind m k = some v := by
  induction l generalizing m with
  | nil => exact Or.inr h
  | cons p rest ih =>
    rw [List.foldl_cons] at h
    rcases ih _ h with h1 | h1
    · exact Or.inl (List.mem_cons_of_mem p h1)
    · rw [amFind_amSet] at h1
      by_cases hk : stripSlash p = k
      · simp only [hk, if_true, Option.some.injEq] at h1
        exact Or.inl (h1 ▸ List.mem_cons_self p rest)
      · simp only [hk, if_false] at h1
        exact Or.inr h1

theorem lookupMap_foldl_last (l : List String) (m : List (String × String)) (x : String)
    (hx : x ∈ l ∨ amFind m (stripSlash x) = some x)
    (hinj : ∀ y ∈ l, stripSlash y = stripSlash x → y = x) :
    amFind (l.foldl (fun m p => amSet m (stripSlash p) p) m) (stripSlash x) = some x := by
  induction l generalizing m with
  | nil =>
    rcases hx with hx | hx
    · cases hx
    · exact hx
  | cons p rest ih =>
    rw [List.foldl_cons]
    apply ih
    · by_cases hp : stripSlash p = stripSlash x
      · right
        have := hinj p (List.mem_cons_self p rest) hp
        simp [amFind_amSet, this]
      · rcases hx with hx | hx
        · rcases List.mem_cons.mp hx with he | he
          · exact absurd (by rw [he]) hp
          · exact Or.inl he
        · right
          simp [amFind_amSet, hp, hx]
    · intro y hy
      exact hinj y (List.mem_cons_of_mem p hy)

/-- The attribution state after `batch_resolve` on an available manager: a
path gets a new attribution exactly when it is the path stored in
`lookup_map` under its stripped form and some manifest holds that form; it is
then attributed to the first such package. -/
theorem batch_resolve_find (pc : List (String × String)) (db : List AlpmPkg)
    (paths : List String) (x : String) :
    amFind (AlpmManager.batch_resolve ⟨true, some db, pc⟩ paths).pkg_cache x =
      if amFind (lookupMap (paths.filter (fun p => !amContains pc p))) (stripSlash x) = some x then
        match firstOwner db (stripSlash x) with
        | some n => some n
        | none => amFind pc x
      else amFind pc x := by
  unfold AlpmManager.batch_resolve
  simp only
  cases hemp : (paths.filter (fun p => !amContains pc p)).isEmpty with
  | true =>
    have hnil : paths.filter (fun p => !amContains pc p) = [] := List.isEmpty_iff.mp hemp
    simp [hnil, lookupMap, amFind]
  | false =>
    simp only [Bool.false_eq_true, if_false]
    exact scanPkgs_spec db _ pc (lookupMap_ok _) x

/-- On requests in which no two unattributed paths share a stripped form,
every requested path that was unattributed is attributed to the first package
whose manifest holds its stripped form, and stays unattributed, with
`get_package` answering "-", when there is none. -/
theorem batch_resolve_without_collision (pc : List (String × String)) (db : List AlpmPkg)
    (paths : List String)
    (hinj : ∀ y ∈ paths, ∀ z ∈ paths, amFind pc y = none → amFind pc z = none →
      stripSlash y = stripSlash z → y = z)
    (x : String) (hx : x ∈ paths) (hnew : amFind pc x = none) :
    amFind (AlpmManager.batch_resolve ⟨true, some db, pc⟩ paths).pkg_cache x =
      firstOwner db (stripSlash x) ∧
    (firstOwner db (stripSlash x) = none →
      (AlpmManager.batch_resolve ⟨true, some db, pc⟩ paths).get_package x = "-") ∧
    (∀ n, firstOwner db (stripSlash x) = some n →
      (AlpmManager.batch_resolve ⟨true, some db, pc⟩ paths).get_package x = n) := by
  have hmemf : ∀ y, y ∈ paths.filter (fun p => !amContains pc p) ↔
      y ∈ paths ∧ amFind pc y = none := by
    intro y
    rw [List.mem_filter]
    cases hf : amFind pc y <;> simp [amContains, hf]
  have hlast : amFind (lookupMap (paths.filter (fun p => !amContains pc p))) (stripSlash x)
      = some x := by
    refine lookupMap_foldl_last _ [] x (Or.inl ((hmemf x).mpr ⟨hx, hnew⟩)) ?_
    intro y hy hs
    obtain ⟨hy1, hy2⟩ := (hmemf y).mp hy
    exact hinj y hy1 x hx hy2 hnew hs
  have hfind := batch_resolve_find pc db paths x
  rw [hlast] at hfind
  simp only [if_true] at hfind
  have hres : amFind (AlpmManager.batch_resolve ⟨true, some db, pc⟩ paths).pkg_cache x =
      firstOwner db (stripSlash x) := by
    rw [hfind]
    cases firstOwner db (stripSlash x) with
    | none => exact hnew
    | some n => rfl
  refine ⟨hres, ?_, ?_⟩
  · intro hn
    simp [AlpmManager.get_package, hres, hn]
  · intro n hn
    simp [AlpmManager.get_package, hres, hn]

/-! ## The minimal package set -/

theorem amFind_foldl_lib_to_pkg (nodes : List (String × Node)) (acc : List (String × String))
    (hnd : (amKeys nodes).Nodup) (k : String) :
    amFind (nodes.foldl (fun m e => if knownPkg e.2.pkg then amSet m e.1 e.2.pkg else m) acc) k =
      match amFind nodes k with
      | some n => if knownPkg n.pkg = true then some n.pkg else amFind acc k
      | none => amFind acc k := by
  induction nodes generalizing acc with
  | nil => rfl
  | cons e rest ih =>
    obtain ⟨k1, n1⟩ := e
    simp only [amKeys, List.map_cons, List.nodup_cons] at hnd
    rw [List.foldl_cons, ih _ hnd.2]
    by_cases hk : k1 = k
    · subst hk
      have hnone : amFind rest k1 = none := (amFind_eq_none_iff rest k1).mpr hnd.1
      by_cases hkn : knownPkg n1.pkg = true <;> simp [amFind, hnone, hkn, amFind_amSet]
    · cases hf : amFind rest k with
      | none =>
        by_cases hkn : knownPkg n1.pkg = true <;> simp [amFind, hk, hkn, amFind_amSet, hf]
      | some n =>
        by_cases hkn : knownPkg n1.pkg = true <;> simp [amFind, hk, hkn, amFind_amSet, hf]

theorem amFind_lib_to_pkg (g : DepGraph) (hnd : (amKeys g.nodes).Nodup) (k : String) :
    amFind g.lib_to_pkg k = g.owner k := by
  unfold DepGraph.lib_to_pkg DepGraph.owner
  rw [amFind_foldl_lib_to_pkg g.nodes [] hnd k]
  cases amFind g.nodes k with
  | none => rfl
  | some n => by_cases hkn : knownPkg n.pkg = true <;> simp [hkn, amFind]

theorem p_pkg_eq (g : DepGraph) (hnd : (amKeys g.nodes).Nodup) (k : String) :
    g.p_pkg k = match g.owner k with
      | some p => p
      | none => if k = g.root_name then "__ROOT__" else "" := by
  unfold DepGraph.p_pkg
  rw [amFind_lib_to_pkg g hnd k]

theorem knownPkg_ne_empty (p : String) (h : knownPkg p = true) : p ≠ "" := by
  intro e
  rw [e] at h
  exact absurd h (by decide)

theorem owner_known (g : DepGraph) (k p : String) (h : g.owner k = some p) :
    knownPkg p = true := by
  unfold DepGraph.owner at h
  cases hf : amFind g.nodes k with
  | none => simp [hf] at h
  | some n =>
    by_cases hkn : knownPkg n.pkg = true
    · simp [hf, hkn] at h
      rw [← h]
      exact hkn
    · simp [hf, hkn] at h

theorem depsHas_insert (d : List (String × List String)) (p c p2 c2 : String) :
    depsHas (amSet d p (setInsert ((amFind d p).getD []) c)) p2 c2 ↔
      depsHas d p2 c2 ∨ (p2 = p ∧ c2 = c) := by
  unfold depsHas
  rw [amFind_amSet]
  by_cases hp : p = p2
  · subst hp
    simp only [if_true, Option.some.injEq, exists_eq_left', mem_setInsert, true_and]
    cases hf : amFind d p with
    | none => simp
    | some kids => simp
  · simp only [hp, if_false]
    constructor
    · exact Or.inl
    · rintro (h | ⟨h, _⟩)
      · exact h
      · exact absurd h.symm hp

theorem depsHas_addChildren (l2p : List (String × String)) (p : String)
    (children : List String) (deps : List (String × List String)) (p2 c2 : String) :
    depsHas (DepGraph.addChildren l2p p deps children) p2 c2 ↔
      depsHas deps p2 c2 ∨
        (p2 = p ∧ ∃ child ∈ children, amFind l2p child = some c2 ∧ c2 ≠ p) := by
  unfold DepGraph.addChildren
  induction children generalizing deps with
  | nil => simp
  | cons ch rest ih =>
    rw [List.foldl_cons, ih]
    cases hf : amFind l2p ch with
    | none =>
      simp only [List.mem_cons, exists_eq_or_imp, hf]
      simp
    | some cp =>
      by_cases hne : cp = p
      · subst hne
        simp only [ne_eq, not_true_eq_false, if_false, List.mem_cons, exists_eq_or_imp, hf,
          Option.some.injEq]
        constructor
        · rintro (h | ⟨h1, h2⟩)
          · exact Or.inl h
          · exact Or.inr ⟨h1, Or.inr h2⟩
        · rintro (h | ⟨h1, h2 | h2⟩)
          · exact Or.inl h
          · exact absurd h2.1.symm h2.2
          · exact Or.inr ⟨h1, h2⟩
      · simp only [ne_eq, hne, not_false_eq_true, if_true, depsHas_insert, List.mem_cons,
          exists_eq_or_imp, hf, Option.some.injEq]
        constructor
        · rintro ((h | ⟨h1, h2⟩) | ⟨h1, h2⟩)
          · exact Or.inl h
          · exact Or.inr ⟨h1, Or.inl ⟨h2.symm, by rw [h2]; exact hne⟩⟩
          · exact Or.inr ⟨h1, Or.inr h2⟩
        · rintro (h | ⟨h1, h2 | h2⟩)
          · exact Or.inl (Or.inl h)
          · exact Or.inl (Or.inr ⟨h1, h2.1.symm⟩)
          · exact Or.inr ⟨h1, h2⟩

theorem depsHas_foldl_pkg_deps (g : DepGraph) (l : List (String × Node))
    (deps : List (String × List String)) (p c : String) :
    depsHas (l.foldl (fun deps e =>
      if g.p_pkg e.1 = "" then deps
      else DepGraph.addChildren g.lib_to_pkg (g.p_pkg e.1) deps e.2.children) deps) p c ↔
      depsHas deps p c ∨ g.pkgEdge l p c := by
  induction l generalizing deps with
  | nil => simp [DepGraph.pkgEdge]
  | cons e rest ih =>
    rw [List.foldl_cons, ih]
    have hsplit : g.pkgEdge (e :: rest) p c ↔
        (g.p_pkg e.1 = p ∧ p ≠ "" ∧
          ∃ child ∈ e.2.children, amFind g.lib_to_pkg child = some c ∧ c ≠ p) ∨
        g.pkgEdge rest p c := by
      simp [DepGraph.pkgEdge]
    rw [hsplit]
    by_cases hp : g.p_pkg e.1 = ""
    · simp only [hp, if_true]
      constructor
      · rintro (h | h)
        · exact Or.inl h
        · exact Or.inr (Or.inr h)
      · rintro (h | ⟨h1, h2, _⟩ | h)
        · exact Or.inl h
        · exact absurd h1.symm h2
        · exact Or.inr h
    · simp only [hp, if_false, depsHas_addChildren]
      constructor
      · rintro ((h | ⟨h1, h2⟩) | h)
        · exact Or.inl h
        · exact Or.inr (Or.inl ⟨h1.symm, by rw [h1]; exact hp, by rw [h1]; exact h2⟩)
        · exact Or.inr (Or.inr h)
      · rintro (h | ⟨h1, _, h3⟩ | h)
        · exact Or.inl (Or.inl h)
        · exact Or.inl (Or.inr ⟨h1.symm, by rw [h1]; exact h3⟩)
        · exact Or.inr h

theorem depsHas_pkg_deps (g : DepGraph) (p c : String) :
    depsHas g.pkg_deps p c ↔ g.pkgEdge g.nodes p c := by
  unfold DepGraph.pkg_deps
  rw [depsHas_foldl_pkg_deps]
  simp [depsHas, amFind]

theorem nodup_addChildren (l2p : List (String × String)) (p : String)
    (children : List String) (deps : List (String × List String))
    (h : (amKeys deps).Nodup) : (amKeys (DepGraph.addChildren l2p p deps children)).Nodup := by
  unfold DepGraph.addChildren
  induction children generalizing deps with
  | nil => exact h
  | cons ch rest ih =>
    rw [List.foldl_cons]
    apply ih
    cases amFind l2p ch with
    | none => exact h
    | some cp =>
      by_cases hne : cp = p
      · simpa [hne] using h
      · simpa [hne] using nodup_amKeys_amSet deps p _ h

theorem nodup_pkg_deps (g : DepGraph) : (amKeys g.pkg_deps).Nodup := by
  unfold DepGraph.pkg_deps
  have : ∀ (l : List (String × Node)) (deps : List (String × List String)),
      (amKeys deps).Nodup →
      (amKeys (l.foldl (fun deps e =>
        if g.p_pkg e.1 = "" then deps
        else DepGraph.addChildren g.lib_to_pkg (g.p_pkg e.1) deps e.2.children) deps)).Nodup := by
    intro l
    induction l with
    | nil => exact fun deps h => h
    | cons e rest ih =>
      intro deps h
      rw [List.foldl_cons]
      apply ih
      split
      · exact h
      · exact nodup_addChildren _ _ _ _ h
  exact this g.nodes [] (by simp [amKeys])

theorem mem_foldl_setInsert (kids t : List String) (x : String) :
    x ∈ kids.foldl setInsert t ↔ x ∈ t ∨ x ∈ kids := by
  induction kids generalizing t with
  | nil => simp
  | cons k rest ih =>
    rw [List.foldl_cons, ih, mem_setInsert, List.mem_cons]
    constructor
    · rintro ((h | h) | h)
      · exact Or.inl h
      · exact Or.inr (Or.inl h)
      · exact Or.inr (Or.inr h)
    · rintro (h | h | h)
      · exact Or.inl (Or.inl h)
      · exact Or.inl (Or.inr h)
      · exact Or.inr h

theorem mem_transitive_foldl (deps : List (String × List String)) (t : List String)
    (x : String) :
    x ∈ deps.foldl (fun t e => if e.1 ≠ "__ROOT__" then e.2.foldl setInsert t else t) t ↔
      x ∈ t ∨ ∃ e ∈ deps, e.1 ≠ "__ROOT__" ∧ x ∈ e.2 := by
  induction deps generalizing t with
  | nil => simp
  | cons e rest ih =>
    rw [List.foldl_cons, ih]
    by_cases he : e.1 = "__ROOT__"
    · simp [he]
    · simp only [ne_eq, he, not_false_eq_true, if_true, mem_foldl_setInsert, List.mem_cons,
        exists_eq_or_imp, true_and]
      constructor
      · rintro ((h | h) | h)
        · exact Or.inl h
        · exact Or.inr (Or.inl h)
        · exact Or.inr (Or.inr h)
      · rintro (h | h | h)
        · exact Or.inl (Or.inl h)
        · exact Or.inl (Or.inr h)
        · exact Or.inr h

theorem mem_transitive (deps : List (String × List String)) (hnd : (amKeys deps).Nodup)
    (x : String) :
    x ∈ DepGraph.transitive deps ↔ ∃ p, p ≠ "__ROOT__" ∧ depsHas deps p x := by
  unfold DepGraph.transitive
  rw [mem_transitive_foldl]
  simp only [List.not_mem_nil, false_or]
  constructor
  · rintro ⟨⟨p, kids⟩, he, hp, hx⟩
    exact ⟨p, hp, kids, amFind_of_mem deps p kids hnd he, hx⟩
  · rintro ⟨p, hp, kids, hf, hx⟩
    exact ⟨(p, kids), mem_of_amFind deps p kids hf, hp, hx⟩

/-- Membership in the result of `get_minimal_pkgs`, in terms of package edges. -/
theorem mem_get_minimal_pkgs (g : DepGraph) (x : String) :
    x ∈ g.get_minimal_pkgs ↔
      g.pkgEdge g.nodes "__ROOT__" x ∧ ¬ ∃ p, p ≠ "__ROOT__" ∧ g.pkgEdge g.nodes p x := by
  unfold DepGraph.get_minimal_pkgs
  rw [(List.perm_insertionSort strLe g.minimal_unsorted).mem_iff]
  unfold DepGraph.minimal_unsorted
  have htr := mem_transitive g.pkg_deps (nodup_pkg_deps g) x
  simp only [depsHas_pkg_deps] at htr
  rw [← depsHas_pkg_deps g "__ROOT__" x, ← htr]
  unfold depsHas
  cases hf : amFind g.pkg_deps "__ROOT__" with
  | none => simp
  | some kids => simp [List.mem_filter]

/-! ## Claims on the minimal package set -/

theorem build_keys_nodup (iter : List (String × Node) → List (String × Node))
    (reader : String → Option (List String)) (ld : LdCache)
    (alpm : AlpmManager) (root_path : String) (s rp : Bool) :
    (amKeys (DepGraph.build iter reader (DepGraph.fresh ld alpm) root_path s rp).nodes).Nodup := by
  obtain ⟨⟨D, hinv⟩, _⟩ := traverse_spec reader ld alpm root_path s
  cases rp with
  | false => exact hinv.keys_nodup
  | true =>
    simp only [DepGraph.build, if_true, amKeys_attribute]
    exact hinv.keys_nodup

/-- C9, failing input: the inspected binary `/usr/bin/app` is itself owned by a
package. The test `lib_to_pkg.contains(parent)` comes before the test
`parent == root_name`, so the edges of the root are filed under `app-pkg`,
nothing is filed under the root marker and the result is empty, although
package `A` owns the direct child `liba.so` of the root and no library of
another package requires one of `A`. -/
theorem minimal_empty_when_root_owned :
    amFind exGraphOwned.nodes exGraphOwned.root_name =
      some ⟨"/usr/bin/app", "app-pkg", 0, ["liba.so", "libb.so"], []⟩ ∧
    exGraphOwned.owner "liba.so" = some "A" ∧
    (∀ e ∈ exGraphOwned.nodes, e.1 ≠ exGraphOwned.root_name →
      exGraphOwned.owner e.1 ≠ none → exGraphOwned.owner e.1 ≠ some "A" →
      ∀ d ∈ e.2.children, exGraphOwned.owner d ≠ some "A") ∧
    exGraphOwned.get_minimal_pkgs = [] ∧
    "A" ∉ exGraphOwned.get_minimal_pkgs := by
  decide

/-- When the root of a graph returned by `build` has no known owning package
(or one named `__ROOT__`), its edges are filed under the root marker: a package
`P` other than `__ROOT__` that owns a direct child of the root is then in the
result of `get_minimal_pkgs` whenever no node other than the root that is
owned by a known package other than `P` has a child owned by `P`. -/
theorem minimal_contains_direct (iter : List (String × Node) → List (String × Node))
    (reader : String → Option (List String)) (ld : LdCache)
    (alpm : AlpmManager) (root_path : String) (s rp : Bool) (g : DepGraph)
    (hg : g = DepGraph.build iter reader (DepGraph.fresh ld alpm) root_path s rp)
    (P c : String)
    (hroot : g.owner g.root_name = none ∨ g.owner g.root_name = some "__ROOT__")
    (hP : P ≠ "__ROOT__")
    (hc : childEdge g.nodes g.root_name c) (hcP : g.owner c = some P)
    (hno : ∀ e ∈ g.nodes, e.1 ≠ g.root_name → g.owner e.1 ≠ none → g.owner e.1 ≠ some P →
      ∀ d ∈ e.2.children, g.owner d ≠ some P) :
    P ∈ g.get_minimal_pkgs := by
  have hnd : (amKeys g.nodes).Nodup := by
    rw [hg]
    exact build_keys_nodup iter reader ld alpm root_path s rp
  rw [mem_get_minimal_pkgs]
  constructor
  · obtain ⟨nr, hnr, hcr⟩ := hc
    refine ⟨(g.root_name, nr), mem_of_amFind _ _ _ hnr, ?_, by decide, c, hcr, ?_, hP⟩
    · rw [p_pkg_eq g hnd]
      rcases hroot with h | h <;> simp [h]
    · rw [amFind_lib_to_pkg g hnd]
      exact hcP
  · rintro ⟨p, hp, e, he, hpe, hpne, d, hd, hdP, hPp⟩
    rw [amFind_lib_to_pkg g hnd] at hdP
    rw [p_pkg_eq g hnd] at hpe
    cases ho : g.owner e.1 with
    | none =>
      rw [ho] at hpe
      by_cases hr : e.1 = g.root_name
      · simp [hr] at hpe
        exact hp hpe.symm
      · simp [hr] at hpe
        exact hpne hpe.symm
    | some q =>
      rw [ho] at hpe
      simp only at hpe
      subst hpe
      by_cases hr : e.1 = g.root_name
      · rw [hr] at ho
        rcases hroot with h | h
        · rw [h] at ho
          cases ho
        · rw [h] at ho
          exact hp (Option.some.inj ho).symm
      · refine hno e he hr (by rw [ho]; simp) ?_ d hd hdP
        rw [ho]
        intro hq
        exact hPp (Option.some.inj hq).symm

/-- An instance: in the example graph the root is not packaged,
requires `liba.so` of package `A`, and no library of another package requires
one of `A`; the result is `["A"]`. -/
theorem minimal_contains_direct_witness :
    exGraph.get_minimal_pkgs = ["A"] ∧ "A" ∈ exGraph.get_minimal_pkgs :=
  ⟨by decide,
    minimal_contains_direct id exReader exCache exAlpm "/usr/bin/app" false true exGraph rfl
      "A" "liba.so" (Or.inl (by decide)) (by decide)
      ⟨⟨"/usr/bin/app", "-", 0, ["liba.so", "libb.so"], []⟩, by decide, by decide⟩
      (by decide) (by decide)⟩

/-- C10, refuted as stated: a package may be named like the synthetic root
marker. With `liba.so` owned by a package named `__ROOT__` and requiring
`libb.so` of package `B`, the result contains `B`, the owner of a child of the
non-root node `liba.so`, which a different known package owns. -/
theorem minimal_keeps_child_of_marker_package :
    "liba.so" ≠ exGraphMarker.root_name ∧
    amFind exGraphMarker.nodes "liba.so" =
      some ⟨"/usr/lib/liba.so", "__ROOT__", 1, ["libb.so", "libmissing.so"], ["app"]⟩ ∧
    knownPkg "__ROOT__" = true ∧
    exGraphMarker.owner "liba.so" = some "__ROOT__" ∧
    exGraphMarker.owner "libb.so" = some "B" ∧
    exGraphMarker.get_minimal_pkgs = ["B"] ∧
    "B" ∈ exGraphMarker.get_minimal_pkgs := by
  decide

/-- C10, amended: in a graph returned by `build`, a package `P` that owns a
child of a non-root node owned by a different known package, one not named
`__ROOT__`, is not in the result of `get_minimal_pkgs`. -/
theorem minimal_excludes_downstream (iter : List (String × Node) → List (String × Node))
    (reader : String → Option (List String)) (ld : LdCache)
    (alpm : AlpmManager) (root_path : String) (s rp : Bool) (g : DepGraph)
    (hg : g = DepGraph.build iter reader (DepGraph.fresh ld alpm) root_path s rp)
    (P d : String) (e : String × Node) (he : e ∈ g.nodes) (_hk : e.1 ≠ g.root_name)
    (hQ : g.owner e.1 ≠ none) (hQP : g.owner e.1 ≠ some P)
    (hQR : g.owner e.1 ≠ some "__ROOT__")
    (hd : d ∈ e.2.children) (hdP : g.owner d = some P) :
    P ∉ g.get_minimal_pkgs := by
  have hnd : (amKeys g.nodes).Nodup := by
    rw [hg]
    exact build_keys_nodup iter reader ld alpm root_path s rp
  rw [mem_get_minimal_pkgs]
  rintro ⟨_, hnot⟩
  cases ho : g.owner e.1 with
  | none => exact hQ ho
  | some q =>
    apply hnot
    refine ⟨q, ?_, e, he, ?_, knownPkg_ne_empty q (owner_known g e.1 q ho), d, hd, ?_, ?_⟩
    · intro hq
      rw [ho, hq] at hQR
      exact hQR rfl
    · rw [p_pkg_eq g hnd, ho]
    · rw [amFind_lib_to_pkg g hnd]
      exact hdP
    · intro hq
      rw [ho, hq] at hQP
      exact hQP rfl

/-- Witness of C10 (amended): in the example graph `liba.so` of package `A`
requires `libb.so` of package `B`, which the root requires too; `B` is left
out and the result is `["A"]`. In the diamond, where two libraries of `P` each
require a library of `Q`, the result is `["P"]`. -/
theorem minimal_excludes_downstream_witness :
    exGraph.get_minimal_pkgs = ["A"] ∧ exGraphDiamond.get_minimal_pkgs = ["P"] ∧
    "B" ∉ exGraph.get_minimal_pkgs :=
  ⟨by decide, by decide,
    minimal_excludes_downstream id exReader exCache exAlpm "/usr/bin/app" false true exGraph rfl
      "B" "libb.so"
      ("liba.so", ⟨"/usr/lib/liba.so", "A", 1, ["libb.so", "libmissing.so"], ["app"]⟩)
      (by decide) (by decide) (by decide) (by decide) (by decide) (by decide) (by decide)⟩

/-! ## More claims on the minimal package set -/

theorem char_eq_of_toNat (a b : Char) (h : a.toNat = b.toNat) : a = b :=
  Char.ext (UInt32.ext (by simpa [Char.toNat, UInt32.toNat] using h))

theorem lexLe_total (a b : List Char) : lexLe a b = true ∨ lexLe b a = true := by
  induction a generalizing b with
  | nil => exact Or.inl rfl
  | cons x xs ih =>
    cases b with
    | nil => exact Or.inr rfl
    | cons y ys =>
      simp only [lexLe, Bool.or_eq_true, Bool.and_eq_true, decide_eq_true_eq]
      rcases Nat.lt_trichotomy x.toNat y.toNat with h | h | h
      · exact Or.inl (Or.inl h)
      · have hxy := char_eq_of_toNat x y h
        rcases ih ys with h2 | h2
        · exact Or.inl (Or.inr ⟨hxy, h2⟩)
        · exact Or.inr (Or.inr ⟨hxy.symm, h2⟩)
      · exact Or.inr (Or.inl h)

theorem lexLe_trans (a b c : List Char) (h1 : lexLe a b = true) (h2 : lexLe b c = true) :
    lexLe a c = true := by
  induction a generalizing b c with
  | nil => rfl
  | cons x xs ih =>
    cases b with
    | nil => simp [lexLe] at h1
    | cons y ys =>
      cases c with
      | nil => simp [lexLe] at h2
      | cons z zs =>
        simp only [lexLe, Bool.or_eq_true, Bool.and_eq_true, decide_eq_true_eq] at h1 h2 ⊢
        rcases h1 with h1 | ⟨h1, h1r⟩
        · rcases h2 with h2 | ⟨h2, _⟩
          · exact Or.inl (Nat.lt_trans h1 h2)
          · exact Or.inl (h2 ▸ h1)
        · rcases h2 with h2 | ⟨h2, h2r⟩
          · exact Or.inl (h1 ▸ h2)
          · exact Or.inr ⟨h1.trans h2, ih ys zs h1r h2r⟩

theorem lexLe_antisymm (a b : List Char) (h1 : lexLe a b = true) (h2 : lexLe b a = true) :
    a = b := by
  induction a generalizing b with
  | nil =>
    cases b with
    | nil => rfl
    | cons y ys => simp [lexLe] at h2
  | cons x xs ih =>
    cases b with
    | nil => simp [lexLe] at h1
    | cons y ys =>
      simp only [lexLe, Bool.or_eq_true, Bool.and_eq_true, decide_eq_true_eq] at h1 h2
      rcases h1 with h1 | ⟨h1, h1r⟩
      · rcases h2 with h2 | ⟨h2, _⟩
        · omega
        · rw [h2] at h1
          omega
      · rcases h2 with h2 | ⟨_, h2r⟩
        · rw [h1] at h2
          omega
        · rw [h1, ih ys h1r h2r]

theorem strLe_total (a b : String) : strLe a b ∨ strLe b a := lexLe_total a.data b.data

theorem strLe_trans (a b c : String) (h1 : strLe a b) (h2 : strLe b c) : strLe a c :=
  lexLe_trans a.data b.data c.data h1 h2

theorem strLe_antisymm (a b : String) (h1 : strLe a b) (h2 : strLe b a) : a = b := by
  have := lexLe_antisymm a.data b.data h1 h2
  cases a
  cases b
  simp only at this
  rw [this]

theorem sorted_get_minimal_pkgs (g : DepGraph) : List.Sorted strLe g.get_minimal_pkgs :=
  @List.sorted_insertionSort _ strLe _ ⟨strLe_total⟩ ⟨strLe_trans⟩ g.minimal_unsorted

theorem eq_of_sorted_of_mem_iff (l1 l2 : List String) (h1 : List.Sorted strLe l1)
    (h2 : List.Sorted strLe l2) (n1 : l1.Nodup) (n2 : l2.Nodup)
    (h : ∀ x, x ∈ l1 ↔ x ∈ l2) : l1 = l2 :=
  @List.eq_of_perm_of_sorted _ strLe ⟨strLe_antisymm⟩ _ _
    ((List.perm_ext_iff_of_nodup n1 n2).mpr h) h1 h2

theorem kids_nodup_addChildren (l2p : List (String × String)) (p : String)
    (children : List String) (deps : List (String × List String))
    (h : ∀ q kids, amFind deps q = some kids → kids.Nodup) :
    ∀ q kids, amFind (DepGraph.addChildren l2p p deps children) q = some kids →
      kids.Nodup := by
  unfold DepGraph.addChildren
  induction children generalizing deps with
  | nil => exact h
  | cons ch rest ih =>
    rw [List.foldl_cons]
    apply ih
    cases amFind l2p ch with
    | none => exact h
    | some cp =>
      by_cases hne : cp = p
      · simpa [hne] using h
      · simp only [ne_eq, hne, not_false_eq_true, if_true]
        intro q kids hq
        rw [amFind_amSet] at hq
        by_cases hpq : p = q
        · simp only [hpq, if_true, Option.some.injEq] at hq
          rw [← hq]
          apply nodup_setInsert
          cases hf : amFind deps q with
          | none => simp
          | some k0 => simpa using h q k0 hf
        · simp only [hpq, if_false] at hq
          exact h q kids hq

theorem kids_nodup_pkg_deps (g : DepGraph) :
    ∀ q kids, amFind g.pkg_deps q = some kids → kids.Nodup := by
  unfold DepGraph.pkg_deps
  have : ∀ (l : List (String × Node)) (deps : List (String × List String)),
      (∀ q kids, amFind deps q = some kids → kids.Nodup) →
      ∀ q kids, amFind (l.foldl (fun deps e =>
        if g.p_pkg e.1 = "" then deps
        else DepGraph.addChildren g.lib_to_pkg (g.p_pkg e.1) deps e.2.children) deps) q
          = some kids → kids.Nodup := by
    intro l
    induction l with
    | nil => exact fun deps h => h
    | cons e rest ih =>
      intro deps h
      rw [List.foldl_cons]
      apply ih
      split
      · exact h
      · exact kids_nodup_addChildren _ _ _ _ h
  exact this g.nodes [] (fun q kids hq => by simp [amFind] at hq)

theorem nodup_get_minimal_pkgs (g : DepGraph) : g.get_minimal_pkgs.Nodup := by
  unfold DepGraph.get_minimal_pkgs
  rw [(List.perm_insertionSort strLe g.minimal_unsorted).nodup_iff]
  unfold DepGraph.minimal_unsorted
  cases hf : amFind g.pkg_deps "__ROOT__" with
  | none => exact List.nodup_nil
  | some kids => exact (kids_nodup_pkg_deps g "__ROOT__" kids hf).filter _

theorem amFind_perm {β : Type} (m m2 : List (String × β)) (hp : m2.Perm m)
    (hnd : (amKeys m).Nodup) (k : String) : amFind m2 k = amFind m k := by
  have hnd2 : (amKeys m2).Nodup := (hp.map Prod.fst).nodup_iff.mpr hnd
  cases hf : amFind m k with
  | some v => exact amFind_of_mem m2 k v hnd2 (hp.mem_iff.mpr (mem_of_amFind m k v hf))
  | none =>
    rw [amFind_eq_none_iff] at hf ⊢
    intro hk
    exact hf ((hp.map Prod.fst).mem_iff.mp hk)

theorem pkgEdge_perm (g g2 : DepGraph) (hp : g2.nodes.Perm g.nodes)
    (hr : g2.root_name = g.root_name) (hnd : (amKeys g.nodes).Nodup) (p x : String) :
    g2.pkgEdge g2.nodes p x ↔ g.pkgEdge g.nodes p x := by
  have hnd2 : (amKeys g2.nodes).Nodup := (hp.map Prod.fst).nodup_iff.mpr hnd
  have hown : ∀ k, g2.owner k = g.owner k := by
    intro k
    unfold DepGraph.owner
    rw [amFind_perm g.nodes g2.nodes hp hnd k]
  have hpp : ∀ k, g2.p_pkg k = g.p_pkg k := by
    intro k
    rw [p_pkg_eq g2 hnd2, p_pkg_eq g hnd, hown k, hr]
  have hl : ∀ k, amFind g2.lib_to_pkg k = amFind g.lib_to_pkg k := by
    intro k
    rw [amFind_lib_to_pkg g2 hnd2, amFind_lib_to_pkg g hnd, hown k]
  unfold DepGraph.pkgEdge
  constructor
  · rintro ⟨e, he, h1, h2, d, hd, h3, h4⟩
    exact ⟨e, hp.mem_iff.mp he, by rw [← hpp]; exact h1, h2, d, hd, by rw [← hl]; exact h3, h4⟩
  · rintro ⟨e, he, h1, h2, d, hd, h3, h4⟩
    exact ⟨e, hp.mem_iff.mpr he, by rw [hpp]; exact h1, h2, d, hd, by rw [hl]; exact h3, h4⟩

/-- C11, refuted as stated: with an unpackaged library between the root and
package `C`, package `A` owns a direct child of the root and is excluded,
because `C` requires it; but `C` is not in the result, which is empty, so no
declared package leads to `A`. -/
theorem minimal_excludes_without_declared_path :
    exGraphUnowned.owner exGraphUnowned.root_name = none ∧
    amFind exGraphUnowned.nodes exGraphUnowned.root_name =
      some ⟨"/opt/app", "-", 0, ["libu.so", "liba.so"], []⟩ ∧
    exGraphUnowned.owner "liba.so" = some "A" ∧
    exGraphUnowned.pkg_deps = [("__ROOT__", ["A"]), ("C", ["A"])] ∧
    "A" ∉ exGraphUnowned.get_minimal_pkgs ∧
    exGraphUnowned.get_minimal_pkgs = [] := by
  decide

/-- The filter of `get_minimal_pkgs` read backwards: in a graph returned by
`build`, a package `P`, not named `__ROOT__` and not the owner of the root, that
owns a direct child of the root and is not in the result is a package-level
dependency of another package of the graph: some node owned by a known package
`Q`, other than `P` and not named `__ROOT__`, has a child owned by `P`. -/
theorem minimal_excluded_has_owner_edge (iter : List (String × Node) → List (String × Node))
    (reader : String → Option (List String))
    (ld : LdCache) (alpm : AlpmManager) (root_path : String) (s rp : Bool) (g : DepGraph)
    (hg : g = DepGraph.build iter reader (DepGraph.fresh ld alpm) root_path s rp)
    (P c : String) (hP : P ≠ "__ROOT__") (hPr : g.owner g.root_name ≠ some P)
    (hc : childEdge g.nodes g.root_name c) (hcP : g.owner c = some P)
    (hex : P ∉ g.get_minimal_pkgs) :
    ∃ e ∈ g.nodes, ∃ Q, g.owner e.1 = some Q ∧ Q ≠ P ∧ Q ≠ "__ROOT__" ∧
      ∃ d ∈ e.2.children, g.owner d = some P := by
  have hnd : (amKeys g.nodes).Nodup := by
    rw [hg]
    exact build_keys_nodup iter reader ld alpm root_path s rp
  obtain ⟨nr, hnr, hcr⟩ := hc
  have hrmem : (g.root_name, nr) ∈ g.nodes := mem_of_amFind _ _ _ hnr
  have hmarker : g.p_pkg g.root_name = "__ROOT__" →
      ∃ e ∈ g.nodes, ∃ Q, g.owner e.1 = some Q ∧ Q ≠ P ∧ Q ≠ "__ROOT__" ∧
        ∃ d ∈ e.2.children, g.owner d = some P := by
    intro hpr
    have hedge : g.pkgEdge g.nodes "__ROOT__" P :=
      ⟨(g.root_name, nr), hrmem, hpr, by decide, c, hcr,
        by rw [amFind_lib_to_pkg g hnd]; exact hcP, hP⟩
    rw [mem_get_minimal_pkgs] at hex
    have hex2 : ∃ p, p ≠ "__ROOT__" ∧ g.pkgEdge g.nodes p P := by
      by_contra hno
      exact hex ⟨hedge, hno⟩
    obtain ⟨p, hp, e, he, hpe, hpne, d, hd, hdP, hPp⟩ := hex2
    rw [amFind_lib_to_pkg g hnd] at hdP
    rw [p_pkg_eq g hnd] at hpe
    cases ho : g.owner e.1 with
    | none =>
      rw [ho] at hpe
      by_cases hr : e.1 = g.root_name
      · simp [hr] at hpe
        exact absurd hpe.symm hp
      · simp [hr] at hpe
        exact absurd hpe.symm hpne
    | some q =>
      rw [ho] at hpe
      simp only at hpe
      subst hpe
      exact ⟨e, he, q, ho, fun h => hPp h.symm, hp, d, hd, hdP⟩
  cases ho : g.owner g.root_name with
  | none =>
    apply hmarker
    rw [p_pkg_eq g hnd, ho]
    simp
  | some R =>
    by_cases hR : R = "__ROOT__"
    · apply hmarker
      rw [p_pkg_eq g hnd, ho, hR]
    · refine ⟨(g.root_name, nr), hrmem, R, ho, ?_, hR, c, hcr, hcP⟩
      intro h
      rw [ho, h] at hPr
      exact hPr rfl

/-- An instance: in the example graph `B` owns the direct child
`libb.so` of the root and is excluded; `liba.so`, owned by `A`, requires
`libb.so`. -/
theorem minimal_excluded_has_owner_edge_witness :
    "B" ∉ exGraph.get_minimal_pkgs ∧
    ∃ e ∈ exGraph.nodes, ∃ Q, exGraph.owner e.1 = some Q ∧ Q ≠ "B" ∧ Q ≠ "__ROOT__" ∧
      ∃ d ∈ e.2.children, exGraph.owner d = some "B" :=
  ⟨by decide,
    minimal_excluded_has_owner_edge id exReader exCache exAlpm "/usr/bin/app" false true exGraph
      rfl "B" "libb.so" (by decide) (by decide)
      ⟨⟨"/usr/bin/app", "-", 0, ["liba.so", "libb.so"], []⟩, by decide, by decide⟩
      (by decide) (by decide)⟩

/-- C12: the list returned by `get_minimal_pkgs` on a graph returned by
`build` is sorted in the byte-wise lexicographic order and holds no name
twice, so it is strictly increasing; it is the same for every iteration order
of the node map, and it is the only sorted duplicate-free list with its
members. -/
theorem minimal_sorted_deterministic (iter : List (String × Node) → List (String × Node))
    (reader : String → Option (List String))
    (ld : LdCache) (alpm : AlpmManager) (root_path : String) (s rp : Bool) (g : DepGraph)
    (hg : g = DepGraph.build iter reader (DepGraph.fresh ld alpm) root_path s rp) :
    List.Sorted strLe g.get_minimal_pkgs ∧ g.get_minimal_pkgs.Nodup ∧
    List.Pairwise (fun a b => strLe a b ∧ a ≠ b) g.get_minimal_pkgs ∧
    (∀ g2 : DepGraph, g2.nodes.Perm g.nodes → g2.root_name = g.root_name →
      g2.get_minimal_pkgs = g.get_minimal_pkgs) ∧
    (∀ r : List String, List.Sorted strLe r → r.Nodup →
      (∀ x, x ∈ r ↔ x ∈ g.get_minimal_pkgs) → r = g.get_minimal_pkgs) := by
  have hnd : (amKeys g.nodes).Nodup := by
    rw [hg]
    exact build_keys_nodup iter reader ld alpm root_path s rp
  have hs := sorted_get_minimal_pkgs g
  have hn := nodup_get_minimal_pkgs g
  refine ⟨hs, hn, ?_, ?_, ?_⟩
  · have hs2 : List.Pairwise strLe g.get_minimal_pkgs := hs
    have hn2 : List.Pairwise (fun a b => a ≠ b) g.get_minimal_pkgs := hn
    exact hs2.and hn2
  · intro g2 hp hr
    apply eq_of_sorted_of_mem_iff _ _ (sorted_get_minimal_pkgs g2) hs
      (nodup_get_minimal_pkgs g2) hn
    intro x
    rw [mem_get_minimal_pkgs, mem_get_minimal_pkgs, pkgEdge_perm g g2 hp hr hnd]
    constructor
    · rintro ⟨h1, h2⟩
      exact ⟨h1, fun ⟨p, hp1, hp2⟩ => h2 ⟨p, hp1, (pkgEdge_perm g g2 hp hr hnd p x).mpr hp2⟩⟩
    · rintro ⟨h1, h2⟩
      exact ⟨h1, fun ⟨p, hp1, hp2⟩ => h2 ⟨p, hp1, (pkgEdge_perm g g2 hp hr hnd p x).mp hp2⟩⟩
  · intro r hr hrn hmem
    exact eq_of_sorted_of_mem_iff r _ hr hs hrn hn hmem

/-- Witness of C12: the root of `exGraphTwo` requires the library of `zlib`
before the one of `A`; the result is `["A", "zlib"]`, also when the node map
is iterated in the reverse order. -/
theorem minimal_sorted_deterministic_witness :
    exGraphTwo.minimal_unsorted = ["zlib", "A"] ∧
    exGraphTwo.get_minimal_pkgs = ["A", "zlib"] ∧
    (⟨exGraphTwo.nodes.reverse, exGraphTwo.root_name, exGraphTwo.ld_cache,
      exGraphTwo.alpm⟩ : DepGraph).get_minimal_pkgs = exGraphTwo.get_minimal_pkgs :=
  ⟨by decide, by decide,
    (minimal_sorted_deterministic id _ _ _ "/opt/app" false true exGraphTwo rfl).2.2.2.1
      ⟨exGraphTwo.nodes.reverse, exGraphTwo.root_name, exGraphTwo.ld_cache, exGraphTwo.alpm⟩
      (List.reverse_perm _) rfl⟩

/-! ## Excluded packages are reached from the result -/

theorem not_transGen_self_of_rank {R : String → String → Prop} (rank : String → Nat)
    (h : ∀ a b, R a b → rank a < rank b) : ∀ p, ¬ Relation.TransGen R p p := by
  have hlt : ∀ a b, Relation.TransGen R a b → rank a < rank b := by
    intro a b hab
    induction hab with
    | single hr => exact h _ _ hr
    | tail _ hr ih => exact Nat.lt_trans ih (h _ _ hr)
  intro p hp
  exact Nat.lt_irrefl _ (hlt p p hp)

/-- In a finite package adjacency without a cycle, climbing from a package
with a dependency through packages other than the root marker ends at one
that no such package depends on. -/
theorem exists_top_package (deps : List (String × List String))
    (hacyc : ∀ p, ¬ Relation.TransGen (depsHas deps) p p)
    (y : String) (hy : y ≠ "__ROOT__") (hout : ∃ z, depsHas deps y z) :
    ∃ X, X ≠ "__ROOT__" ∧ (∃ z, depsHas deps X z) ∧
      (X = y ∨ Relation.TransGen (depsHas deps) X y) ∧
      ∀ Q, Q ≠ "__ROOT__" → ¬ depsHas deps Q X := by
  haveI : IsStrictOrder String (Relation.TransGen (depsHas deps)) :=
    { irrefl := hacyc, trans := fun _ _ _ => Relation.TransGen.trans }
  have hwf : {x | x ∈ amKeys deps}.WellFoundedOn (Relation.TransGen (depsHas deps)) :=
    (List.finite_toSet (amKeys deps)).wellFoundedOn
  have hkey : ∀ a, (∃ z, depsHas deps a z) → a ∈ {x | x ∈ amKeys deps} := by
    rintro a ⟨z, kids, hf, _⟩
    exact (amFind_isSome_iff deps a).mp ⟨kids, hf⟩
  have hind : y ≠ "__ROOT__" → (∃ z, depsHas deps y z) →
      ∃ X, X ≠ "__ROOT__" ∧ (∃ z, depsHas deps X z) ∧
        (X = y ∨ Relation.TransGen (depsHas deps) X y) ∧
        ∀ Q, Q ≠ "__ROOT__" → ¬ depsHas deps Q X := by
    refine @Set.WellFoundedOn.induction _ _ _ y hwf (hkey y hout)
      (fun (v : String) => v ≠ "__ROOT__" → (∃ z, depsHas deps v z) →
        ∃ X, X ≠ "__ROOT__" ∧ (∃ z, depsHas deps X z) ∧
          (X = v ∨ Relation.TransGen (depsHas deps) X v) ∧
          ∀ Q, Q ≠ "__ROOT__" → ¬ depsHas deps Q X) ?_
    intro v _ ih hv hvout
    by_cases hpre : ∃ Q, Q ≠ "__ROOT__" ∧ depsHas deps Q v
    · obtain ⟨Q, hQ, hQv⟩ := hpre
      obtain ⟨X, h1, h2, h3, h4⟩ :=
        ih Q (hkey Q ⟨v, hQv⟩) (Relation.TransGen.single hQv) hQ ⟨v, hQv⟩
      refine ⟨X, h1, h2, Or.inr ?_, h4⟩
      rcases h3 with h3 | h3
      · rw [h3]
        exact Relation.TransGen.single hQv
      · exact Relation.TransGen.tail h3 hQv
    · exact ⟨v, hv, hvout, Or.inl rfl, fun Q hQ hQv => hpre ⟨Q, hQ, hQv⟩⟩
  exact hind hy hout

/-- A package that no other real package depends on and that owns a node
reached from an unpackaged root through packaged inner nodes owns a direct
child of the root. -/
theorem top_package_owns_root_child (g : DepGraph) (hnd : (amKeys g.nodes).Nodup)
    (hroot : g.owner g.root_name = none)
    (hinner : ∀ e ∈ g.nodes, e.1 ≠ g.root_name → e.2.children ≠ [] →
      (g.owner e.1).isSome = true)
    (hmark : ∀ e ∈ g.nodes, g.owner e.1 ≠ some "__ROOT__")
    (X : String) (htop : ∀ Q, Q ≠ "__ROOT__" → ¬ g.pkgEdge g.nodes Q X)
    (r k : String) (m : Nat) (hch : Chain (childEdge g.nodes) r k m) (hr : r = g.root_name)
    (hk : g.owner k = some X) :
    ∃ c, childEdge g.nodes g.root_name c ∧ g.owner c = some X := by
  induction hch with
  | refl =>
    rw [hr, hroot] at hk
    cases hk
  | @step b c m0 _ e ih =>
    obtain ⟨nb, hnb, hcb⟩ := e
    by_cases hb : b = g.root_name
    · exact ⟨c, ⟨nb, hb ▸ hnb, hcb⟩, hk⟩
    · have hmem : (b, nb) ∈ g.nodes := mem_of_amFind _ _ _ hnb
      have hsome := hinner (b, nb) hmem hb (List.ne_nil_of_mem hcb)
      obtain ⟨Y, hY⟩ := Option.isSome_iff_exists.mp hsome
      simp only at hY
      by_cases hYX : Y = X
      · exact ih (hYX ▸ hY)
      · exfalso
        refine htop Y (fun e => hmark (b, nb) hmem (e ▸ hY)) ⟨(b, nb), hmem, ?_, ?_, c, hcb, ?_,
          fun e => hYX e.symm⟩
        · rw [p_pkg_eq g hnd, hY]
        · exact knownPkg_ne_empty Y (owner_known g b Y hY)
        · rw [amFind_lib_to_pkg g hnd]
          exact hk

/-- Two more graphs on which an excluded owner of a direct child of the root
is reached from no package of the result. When packages `A` and `B` require
each other, each removes the other and the result is empty. When `liba.so`
is owned by a package named `__ROOT__`, that package is not in the result
`["B"]`, and `B` has no dependency. -/
theorem minimal_excludes_on_cycle_and_marker :
    (exGraphPkgCycle.owner exGraphPkgCycle.root_name = none ∧
      exGraphPkgCycle.owner "liba.so" = some "A" ∧
      exGraphPkgCycle.pkg_deps = [("__ROOT__", ["A", "B"]), ("A", ["B"]), ("B", ["A"])] ∧
      exGraphPkgCycle.get_minimal_pkgs = []) ∧
    (exGraphMarker.owner exGraphMarker.root_name = none ∧
      exGraphMarker.owner "liba.so" = some "__ROOT__" ∧
      exGraphMarker.pkg_deps = [("__ROOT__", ["B"])] ∧
      exGraphMarker.get_minimal_pkgs = ["B"]) := by
  decide

/-- C11, amended: in a graph returned by `build` whose root has no known
owning package, in which every node other than the root that has children has
a known owning package, no node is owned by a package named `__ROOT__` and the
package adjacency `pkg_deps` has no cycle, every package `P` that owns a direct
child of the root and is not in the result of `get_minimal_pkgs` is reached, by
a chain of one or more edges of `pkg_deps`, from a package that is in the
result. -/
theorem minimal_excluded_reached_from_result
    (iter : List (String × Node) → List (String × Node))
    (reader : String → Option (List String)) (ld : LdCache) (alpm : AlpmManager)
    (root_path : String) (s rp : Bool) (g : DepGraph)
    (hg : g = DepGraph.build iter reader (DepGraph.fresh ld alpm) root_path s rp)
    (hroot : g.owner g.root_name = none)
    (hinner : ∀ e ∈ g.nodes, e.1 ≠ g.root_name → e.2.children ≠ [] →
      (g.owner e.1).isSome = true)
    (hmark : ∀ e ∈ g.nodes, g.owner e.1 ≠ some "__ROOT__")
    (hacyc : ∀ p, ¬ Relation.TransGen (depsHas g.pkg_deps) p p)
    (P c : String) (hc : childEdge g.nodes g.root_name c) (hcP : g.owner c = some P)
    (hex : P ∉ g.get_minimal_pkgs) :
    ∃ X ∈ g.get_minimal_pkgs, Relation.TransGen (depsHas g.pkg_deps) X P := by
  have hnd : (amKeys g.nodes).Nodup := by
    rw [hg]
    exact build_keys_nodup iter reader ld alpm root_path s rp
  have hmark2 : ∀ k p, g.owner k = some p → p ≠ "__ROOT__" := by
    intro k p hk e
    cases hf : amFind g.nodes k with
    | none => simp [DepGraph.owner, hf] at hk
    | some n => exact hmark (k, n) (mem_of_amFind _ _ _ hf) (e ▸ hk)
  have hrootEdge : ∀ c X, childEdge g.nodes g.root_name c → g.owner c = some X →
      g.pkgEdge g.nodes "__ROOT__" X := by
    rintro c X ⟨nr, hnr, hcr⟩ hcX
    refine ⟨(g.root_name, nr), mem_of_amFind _ _ _ hnr, ?_, by decide, c, hcr, ?_,
      hmark2 c X hcX⟩
    · rw [p_pkg_eq g hnd, hroot]
      simp
    · rw [amFind_lib_to_pkg g hnd]
      exact hcX
  have hex2 : ∃ p, p ≠ "__ROOT__" ∧ g.pkgEdge g.nodes p P := by
    by_contra hno
    exact hex ((mem_get_minimal_pkgs g P).mpr ⟨hrootEdge c P hc hcP, hno⟩)
  obtain ⟨p, hp, hpP⟩ := hex2
  have hpP2 : depsHas g.pkg_deps p P := (depsHas_pkg_deps g p P).mpr hpP
  obtain ⟨X, hX, ⟨z, hXz⟩, hXp, htop⟩ := exists_top_package g.pkg_deps hacyc p hp ⟨P, hpP2⟩
  have htop2 : ∀ Q, Q ≠ "__ROOT__" → ¬ g.pkgEdge g.nodes Q X :=
    fun Q hQ hQX => htop Q hQ ((depsHas_pkg_deps g Q X).mpr hQX)
  obtain ⟨e, he, hpe, hXne, _⟩ := (depsHas_pkg_deps g X z).mp hXz
  have hown : g.owner e.1 = some X := by
    rw [p_pkg_eq g hnd] at hpe
    cases ho : g.owner e.1 with
    | none =>
      rw [ho] at hpe
      by_cases hr : e.1 = g.root_name
      · simp only [hr, if_true] at hpe
        exact absurd hpe.symm hX
      · simp only [hr, if_false] at hpe
        exact absurd hpe.symm hXne
    | some q =>
      rw [ho] at hpe
      simp only at hpe
      rw [hpe]
  have hnode : ∃ n, amFind g.nodes e.1 = some n := by
    cases hf : amFind g.nodes e.1 with
    | none => simp [DepGraph.owner, hf] at hown
    | some n => exact ⟨n, rfl⟩
  obtain ⟨ne, hne⟩ := hnode
  have hreach : ∃ m, Chain (childEdge g.nodes) g.root_name e.1 m := by
    rw [hg] at hne ⊢
    exact build_reach iter reader ld alpm root_path s rp e.1 ne hne
  obtain ⟨m, hch⟩ := hreach
  obtain ⟨c2, hc2, hc2X⟩ := top_package_owns_root_child g hnd hroot hinner hmark X htop2
    g.root_name e.1 m hch rfl hown
  refine ⟨X, (mem_get_minimal_pkgs g X).mpr ⟨hrootEdge c2 X hc2 hc2X, ?_⟩, ?_⟩
  · rintro ⟨Q, hQ, hQX⟩
    exact htop2 Q hQ hQX
  · rcases hXp with h | h
    · rw [h]
      exact Relation.TransGen.single hpP2
    · exact Relation.TransGen.tail h hpP2

/-- Witness of C11 (amended): in the example graph `B` owns the direct child
`libb.so` of the root and is left out of the result `["A"]`; the edge from `A`
to `B` leads to it. -/
theorem minimal_excluded_reached_from_result_witness :
    exGraph.get_minimal_pkgs = ["A"] ∧ exGraph.owner "libb.so" = some "B" ∧
    ∃ X ∈ exGraph.get_minimal_pkgs, Relation.TransGen (depsHas exGraph.pkg_deps) X "B" := by
  have hd : exGraph.pkg_deps = [("__ROOT__", ["A", "B"]), ("A", ["B"])] := by decide
  have hacyc : ∀ p, ¬ Relation.TransGen (depsHas exGraph.pkg_deps) p p := by
    rw [hd]
    apply not_transGen_self_of_rank
      (fun p => if p = "__ROOT__" then 0 else if p = "A" then 1 else 2)
    rintro a b ⟨kids, hf, hb⟩
    by_cases h1 : a = "__ROOT__"
    · subst h1
      simp only [amFind, if_true, Option.some.injEq] at hf
      subst hf
      simp only [List.mem_cons, List.mem_singleton, List.not_mem_nil, or_false] at hb
      rcases hb with rfl | rfl <;> decide
    · by_cases h2 : a = "A"
      · subst h2
        simp only [amFind, if_true, Option.some.injEq] at hf
        have hf2 : kids = ["B"] := by
          simpa using hf.symm
        subst hf2
        simp only [List.mem_singleton] at hb
        subst hb
        decide
      · have h1b : ¬ "__ROOT__" = a := fun e => h1 e.symm
        have h2b : ¬ "A" = a := fun e => h2 e.symm
        simp [amFind, h1b, h2b] at hf
  exact ⟨by decide, by decide,
    minimal_excluded_reached_from_result id exReader exCache exAlpm "/usr/bin/app" false true
      exGraph rfl (by decide) (by decide) (by decide) hacyc "B" "libb.so"
      ⟨⟨"/usr/bin/app", "-", 0, ["liba.so", "libb.so"], []⟩, by decide, by decide⟩
      (by decide) (by decide)⟩

/-! ## The upward walk of `explain_why` -/

theorem loopParents_cons_mem (walk : String → ExplainResult) (path : List String)
    (p : String) (ps : List String) (hp : p ∈ path) :
    loopParents walk path (p :: ps) = loopParents walk path ps := by
  simp [loopParents, hp]

theorem loopParents_cons_chains (walk : String → ExplainResult) (path : List String)
    (p : String) (ps : List String) (hp : p ∉ path) (cs : List (List String))
    (hw : walk p = .chains cs) :
    loopParents walk path (p :: ps) =
      match loopParents walk path ps with
      | .chains cs2 => .chains (cs ++ cs2)
      | err => err := by
  simp [loopParents, hp, hw]

theorem loopParents_cons_err (walk : String → ExplainResult) (path : List String)
    (p : String) (ps : List String) (hp : p ∉ path)
    (hw : ∀ cs, walk p ≠ .chains cs) :
    loopParents walk path (p :: ps) = walk p := by
  cases h : walk p with
  | chains cs => exact absurd h (hw cs)
  | not_found => simp [loopParents, hp, h]
  | out_of_range k => simp [loopParents, hp, h]
  | out_of_fuel => simp [loopParents, hp, h]

/-- The loop ends with the printed lines, or with what one of the calls it
made ended with. -/
theorem loopParents_cases (walk : String → ExplainResult) (path : List String)
    (ps : List String) :
    (∃ cs, loopParents walk path ps = .chains cs) ∨
      ∃ p ∈ ps, p ∉ path ∧ walk p = loopParents walk path ps := by
  induction ps with
  | nil => exact Or.inl ⟨[], rfl⟩
  | cons p ps ih =>
    by_cases hp : p ∈ path
    · rw [loopParents_cons_mem walk path p ps hp]
      rcases ih with h | ⟨q, hq, hq2, hq3⟩
      · exact Or.inl h
      · exact Or.inr ⟨q, List.mem_cons_of_mem _ hq, hq2, hq3⟩
    · cases hw : walk p with
      | chains cs =>
        rw [loopParents_cons_chains walk path p ps hp cs hw]
        rcases ih with ⟨cs2, h2⟩ | ⟨q, hq, hq2, hq3⟩
        · rw [h2]
          exact Or.inl ⟨cs ++ cs2, rfl⟩
        · cases hl : loopParents walk path ps with
          | chains cs2 => exact Or.inl ⟨cs ++ cs2, rfl⟩
          | not_found => exact Or.inr ⟨q, List.mem_cons_of_mem _ hq, hq2, hq3.trans hl⟩
          | out_of_range k => exact Or.inr ⟨q, List.mem_cons_of_mem _ hq, hq2, hq3.trans hl⟩
          | out_of_fuel => exact Or.inr ⟨q, List.mem_cons_of_mem _ hq, hq2, hq3.trans hl⟩
      | not_found =>
        rw [loopParents_cons_err walk path p ps hp (by simp [hw]), hw]
        exact Or.inr ⟨p, List.mem_cons_self _ _, hp, hw⟩
      | out_of_range k =>
        rw [loopParents_cons_err walk path p ps hp (by simp [hw]), hw]
        exact Or.inr ⟨p, List.mem_cons_self _ _, hp, hw⟩
      | out_of_fuel =>
        rw [loopParents_cons_err walk path p ps hp (by simp [hw]), hw]
        exact Or.inr ⟨p, List.mem_cons_self _ _, hp, hw⟩

/-- When the loop prints lines, they are the lines of the call made for the
first parent outside the path, followed by those of the rest of the loop. -/
theorem loopParents_cons_eq_chains (walk : String → ExplainResult) (path : List String)
    (p : String) (ps : List String) (cs : List (List String))
    (h : loopParents walk path (p :: ps) = .chains cs) :
    (p ∈ path ∧ loopParents walk path ps = .chains cs) ∨
      (p ∉ path ∧ ∃ cs1 cs2, walk p = .chains cs1 ∧
        loopParents walk path ps = .chains cs2 ∧ cs = cs1 ++ cs2) := by
  by_cases hp : p ∈ path
  · rw [loopParents_cons_mem walk path p ps hp] at h
    exact Or.inl ⟨hp, h⟩
  · right
    refine ⟨hp, ?_⟩
    cases hw : walk p with
    | chains cs1 =>
      rw [loopParents_cons_chains walk path p ps hp cs1 hw] at h
      cases hl : loopParents walk path ps with
      | chains cs2 =>
        rw [hl] at h
        simp only [ExplainResult.chains.injEq] at h
        exact ⟨cs1, cs2, rfl, rfl, h.symm⟩
      | not_found => rw [hl] at h; simp at h
      | out_of_range k => rw [hl] at h; simp at h
      | out_of_fuel => rw [hl] at h; simp at h
    | not_found =>
      rw [loopParents_cons_err walk path p ps hp (by simp [hw]), hw] at h
      simp at h
    | out_of_range k =>
      rw [loopParents_cons_err walk path p ps hp (by simp [hw]), hw] at h
      simp at h
    | out_of_fuel =>
      rw [loopParents_cons_err walk path p ps hp (by simp [hw]), hw] at h
      simp at h

theorem loopParents_walk_chains (walk : String → ExplainResult) (path : List String)
    (ps : List String) (cs : List (List String))
    (h : loopParents walk path ps = .chains cs) :
    ∀ p ∈ ps, p ∉ path → ∃ cs1, walk p = .chains cs1 := by
  induction ps generalizing cs with
  | nil => intro p hp; simp at hp
  | cons q ps ih =>
    intro p hp hpp
    rcases loopParents_cons_eq_chains walk path q ps cs h with ⟨hq, h2⟩ | ⟨hq, cs1, cs2, h1, h2, _⟩
    · rcases List.mem_cons.mp hp with rfl | hp2
      · exact absurd hq hpp
      · exact ih cs h2 p hp2 hpp
    · rcases List.mem_cons.mp hp with rfl | hp2
      · exact ⟨cs1, h1⟩
      · exact ih cs2 h2 p hp2 hpp

theorem loopParents_mem (walk : String → ExplainResult) (path : List String)
    (ps : List String) (cs : List (List String))
    (h : loopParents walk path ps = .chains cs) (c : List String) :
    c ∈ cs ↔ ∃ p ∈ ps, p ∉ path ∧ ∃ cs1, walk p = .chains cs1 ∧ c ∈ cs1 := by
  induction ps generalizing cs with
  | nil =>
    simp only [loopParents, ExplainResult.chains.injEq] at h
    subst h
    simp
  | cons q ps ih =>
    rcases loopParents_cons_eq_chains walk path q ps cs h with ⟨hq, h2⟩ | ⟨hq, cs1, cs2, h1, h2, h3⟩
    · rw [ih cs h2]
      constructor
      · rintro ⟨p, hp, hpp, r⟩
        exact ⟨p, List.mem_cons_of_mem _ hp, hpp, r⟩
      · rintro ⟨p, hp, hpp, r⟩
        rcases List.mem_cons.mp hp with rfl | hp2
        · exact absurd hq hpp
        · exact ⟨p, hp2, hpp, r⟩
    · rw [h3, List.mem_append, ih cs2 h2]
      constructor
      · rintro (hc | ⟨p, hp, hpp, r⟩)
        · exact ⟨q, List.mem_cons_self _ _, hq, cs1, h1, hc⟩
        · exact ⟨p, List.mem_cons_of_mem _ hp, hpp, r⟩
      · rintro ⟨p, hp, hpp, cs3, h4, hc⟩
        rcases List.mem_cons.mp hp with rfl | hp2
        · rw [h1] at h4
          simp only [ExplainResult.chains.injEq] at h4
          exact Or.inl (h4 ▸ hc)
        · exact Or.inr ⟨p, hp2, hpp, cs3, h4, hc⟩

theorem loopParents_nodup (walk : String → ExplainResult) (path : List String)
    (ps : List String) (cs : List (List String)) (hnd : ps.Nodup)
    (h1 : ∀ p ∈ ps, ∀ cs1, walk p = .chains cs1 → cs1.Nodup)
    (h2 : ∀ p ∈ ps, ∀ q ∈ ps, p ≠ q → ∀ cs1 cs2, walk p = .chains cs1 →
      walk q = .chains cs2 → ∀ c ∈ cs1, c ∉ cs2)
    (h : loopParents walk path ps = .chains cs) : cs.Nodup := by
  induction ps generalizing cs with
  | nil =>
    simp only [loopParents, ExplainResult.chains.injEq] at h
    subst h
    exact List.nodup_nil
  | cons q ps ih =>
    have hq_nd := (List.nodup_cons.mp hnd)
    have ih2 := fun cs0 => ih cs0 hq_nd.2
      (fun p hp => h1 p (List.mem_cons_of_mem _ hp))
      (fun p hp r hr => h2 p (List.mem_cons_of_mem _ hp) r (List.mem_cons_of_mem _ hr))
    rcases loopParents_cons_eq_chains walk path q ps cs h with ⟨_, h3⟩ | ⟨_, cs1, cs2, h3, h4, h5⟩
    · exact ih2 cs h3
    · rw [h5, List.nodup_append]
      refine ⟨h1 q (List.mem_cons_self _ _) cs1 h3, ih2 cs2 h4, ?_⟩
      intro c hc1 hc2
      obtain ⟨p, hp, _, cs3, h6, hc3⟩ := (loopParents_mem walk path ps cs2 h4 c).mp hc2
      have hne : q ≠ p := fun e => hq_nd.1 (e ▸ hp)
      exact h2 q (List.mem_cons_self _ _) p (List.mem_cons_of_mem _ hp) hne cs1 cs3 h3 h6 c hc1 hc3

theorem loopParents_congr (walk1 walk2 : String → ExplainResult) (path : List String)
    (ps : List String)
    (hw : ∀ p ∈ ps, p ∉ path → walk1 p ≠ .out_of_fuel → walk2 p = walk1 p)
    (h : loopParents walk1 path ps ≠ .out_of_fuel) :
    loopParents walk2 path ps = loopParents walk1 path ps := by
  induction ps with
  | nil => rfl
  | cons p ps ih =>
    have hw2 : ∀ q ∈ ps, q ∉ path → walk1 q ≠ .out_of_fuel → walk2 q = walk1 q :=
      fun q hq => hw q (List.mem_cons_of_mem _ hq)
    by_cases hp : p ∈ path
    · rw [loopParents_cons_mem walk1 path p ps hp] at h ⊢
      rw [loopParents_cons_mem walk2 path p ps hp]
      exact ih hw2 h
    · cases hw1 : walk1 p with
      | chains cs =>
        have e2 : walk2 p = .chains cs := by
          rw [hw p (List.mem_cons_self _ _) hp (by simp [hw1]), hw1]
        rw [loopParents_cons_chains walk1 path p ps hp cs hw1] at h ⊢
        rw [loopParents_cons_chains walk2 path p ps hp cs e2]
        have hrest : loopParents walk1 path ps ≠ .out_of_fuel := by
          intro e
          rw [e] at h
          exact h rfl
        rw [ih hw2 hrest]
      | not_found =>
        have e2 : walk2 p = .not_found := by
          rw [hw p (List.mem_cons_self _ _) hp (by simp [hw1]), hw1]
        rw [loopParents_cons_err walk1 path p ps hp (by simp [hw1]),
          loopParents_cons_err walk2 path p ps hp (by simp [e2]), hw1, e2]
      | out_of_range k =>
        have e2 : walk2 p = .out_of_range k := by
          rw [hw p (List.mem_cons_self _ _) hp (by simp [hw1]), hw1]
        rw [loopParents_cons_err walk1 path p ps hp (by simp [hw1]),
          loopParents_cons_err walk2 path p ps hp (by simp [e2]), hw1, e2]
      | out_of_fuel =>
        rw [loopParents_cons_err walk1 path p ps hp (by simp [hw1]), hw1] at h
        exact absurd rfl h

/-! ### The recursion of `dfs` -/

theorem dfs_zero (g : DepGraph) (target cur : String) (path : List String) :
    g.dfs target 0 cur path = .out_of_fuel := rfl

theorem dfs_root (g : DepGraph) (target : String) (fuel : Nat) (cur : String)
    (path : List String) (h : cur = g.root_name) :
    g.dfs target (fuel + 1) cur path = .chains [(path ++ [cur]).reverse ++ [target]] := by
  simp [DepGraph.dfs, h]

theorem dfs_missing (g : DepGraph) (target : String) (fuel : Nat) (cur : String)
    (path : List String) (h : cur ≠ g.root_name) (hf : amFind g.nodes cur = none) :
    g.dfs target (fuel + 1) cur path = .out_of_range cur := by
  simp [DepGraph.dfs, h, hf]

theorem dfs_node (g : DepGraph) (target : String) (fuel : Nat) (cur : String)
    (path : List String) (n : Node) (h : cur ≠ g.root_name) (hf : amFind g.nodes cur = some n) :
    g.dfs target (fuel + 1) cur path =
      loopParents (fun p => g.dfs target fuel p (path ++ [cur])) (path ++ [cur]) n.parents := by
  simp [DepGraph.dfs, h, hf]

theorem dfs_ne_not_found (g : DepGraph) (target : String) :
    ∀ (fuel : Nat) (cur : String) (path : List String),
      g.dfs target fuel cur path ≠ .not_found := by
  intro fuel
  induction fuel with
  | zero => intro cur path; simp [dfs_zero]
  | succ fuel ih =>
    intro cur path
    by_cases hr : cur = g.root_name
    · simp [dfs_root g target fuel cur path hr]
    · cases hf : amFind g.nodes cur with
      | none => simp [dfs_missing g target fuel cur path hr hf]
      | some n =>
        rw [dfs_node g target fuel cur path n hr hf]
        intro e
        rcases loopParents_cases (fun p => g.dfs target fuel p (path ++ [cur])) (path ++ [cur])
          n.parents with ⟨cs, h⟩ | ⟨p, _, _, h⟩
        · rw [h] at e
          simp at e
        · exact ih p (path ++ [cur]) (h.trans e)

/-- The recursion never needs more budget than there are node keys outside
the path: the path holds pairwise distinct node keys. -/
theorem dfs_ne_out_of_fuel (g : DepGraph) (target : String) :
    ∀ (fuel : Nat) (cur : String) (path : List String), path.Nodup →
      (∀ x ∈ path, x ∈ amKeys g.nodes) → cur ∉ path →
      g.nodes.length + 1 ≤ fuel + path.length →
      g.dfs target fuel cur path ≠ .out_of_fuel := by
  intro fuel
  induction fuel with
  | zero =>
    intro cur path hnd hsub _ hlen
    have h1 : path.length ≤ (amKeys g.nodes).length := (hnd.subperm hsub).length_le
    simp only [amKeys, List.length_map] at h1
    omega
  | succ fuel ih =>
    intro cur path hnd hsub hcur hlen
    by_cases hr : cur = g.root_name
    · simp [dfs_root g target fuel cur path hr]
    · cases hf : amFind g.nodes cur with
      | none => simp [dfs_missing g target fuel cur path hr hf]
      | some n =>
        rw [dfs_node g target fuel cur path n hr hf]
        intro e
        rcases loopParents_cases (fun p => g.dfs target fuel p (path ++ [cur])) (path ++ [cur])
          n.parents with ⟨cs, h⟩ | ⟨p, _, hp, h⟩
        · rw [h] at e
          simp at e
        · refine ih p (path ++ [cur]) ?_ ?_ hp ?_ (h.trans e)
          · rw [List.nodup_append]
            refine ⟨hnd, List.nodup_singleton _, ?_⟩
            intro x hx hx2
            rw [List.mem_singleton] at hx2
            exact hcur (hx2 ▸ hx)
          · intro x hx
            rcases List.mem_append.mp hx with hx | hx
            · exact hsub x hx
            · rw [List.mem_singleton] at hx
              rw [hx]
              exact (amFind_isSome_iff g.nodes cur).mp ⟨n, hf⟩
          · simp only [List.length_append, List.length_singleton]
            omega

theorem dfs_fuel_succ (g : DepGraph) (target : String) :
    ∀ (fuel : Nat) (cur : String) (path : List String),
      g.dfs target fuel cur path ≠ .out_of_fuel →
      g.dfs target (fuel + 1) cur path = g.dfs target fuel cur path := by
  intro fuel
  induction fuel with
  | zero => intro cur path h; exact absurd rfl h
  | succ fuel ih =>
    intro cur path h
    by_cases hr : cur = g.root_name
    · rw [dfs_root g target (fuel + 1) cur path hr, dfs_root g target fuel cur path hr]
    · cases hf : amFind g.nodes cur with
      | none =>
        rw [dfs_missing g target (fuel + 1) cur path hr hf,
          dfs_missing g target fuel cur path hr hf]
      | some n =>
        rw [dfs_node g target fuel cur path n hr hf] at h
        rw [dfs_node g target (fuel + 1) cur path n hr hf, dfs_node g target fuel cur path n hr hf]
        exact loopParents_congr _ _ _ _ (fun p _ _ hp => ih p (path ++ [cur]) hp) h

theorem dfs_fuel_add (g : DepGraph) (target : String) (fuel : Nat) (cur : String)
    (path : List String) (h : g.dfs target fuel cur path ≠ .out_of_fuel) (extra : Nat) :
    g.dfs target (fuel + extra) cur path = g.dfs target fuel cur path := by
  induction extra with
  | zero => rfl
  | succ k ih =>
    rw [← Nat.add_assoc, dfs_fuel_succ g target (fuel + k) cur path (by rw [ih]; exact h), ih]

theorem dfs_top_ne_out_of_fuel (g : DepGraph) (target p : String) :
    g.dfs target (g.nodes.length + 1) p [] ≠ .out_of_fuel :=
  dfs_ne_out_of_fuel g target (g.nodes.length + 1) p [] List.nodup_nil
    (fun x hx => by simp at hx) (by simp) (by simp)

theorem explain_why_ne_out_of_fuel (g : DepGraph) (target : String) :
    g.explain_why target ≠ .out_of_fuel := by
  unfold DepGraph.explain_why DepGraph.explain_why_fuel
  cases hf : amFind g.nodes target with
  | none => simp
  | some n =>
    simp only
    intro e
    rcases loopParents_cases (fun p => g.dfs target (g.nodes.length + 1) p []) []
      n.parents with ⟨cs, h⟩ | ⟨p, _, _, h⟩
    · rw [h] at e
      simp at e
    · exact dfs_top_ne_out_of_fuel g target p (h.trans e)

theorem explain_why_fuel_add (g : DepGraph) (target : String) (extra : Nat) :
    DepGraph.explain_why_fuel (g.nodes.length + 1 + extra) g target = g.explain_why target := by
  unfold DepGraph.explain_why DepGraph.explain_why_fuel
  cases hf : amFind g.nodes target with
  | none => rfl
  | some n =>
    simp only
    congr 1
    funext p
    exact dfs_fuel_add g target (g.nodes.length + 1) p [] (dfs_top_ne_out_of_fuel g target p) extra

theorem explain_why_ne_not_found (g : DepGraph) (target : String) (fuel : Nat) (n : Node)
    (hf : amFind g.nodes target = some n) :
    DepGraph.explain_why_fuel fuel g target ≠ .not_found := by
  unfold DepGraph.explain_why_fuel
  rw [hf]
  simp only
  intro e
  rcases loopParents_cases (fun p => g.dfs target fuel p []) [] n.parents with
    ⟨cs, h⟩ | ⟨p, _, _, h⟩
  · rw [h] at e
    simp at e
  · exact dfs_ne_not_found g target fuel p [] (h.trans e)

/-! ### Printed lines and upward walks -/

theorem UpWalk.extends {g : DepGraph} {path : List String} {cur : String}
    {full : List String} (h : UpWalk g path cur full) : ∃ t, full = path ++ cur :: t := by
  induction h with
  | root path cur _ => exact ⟨[], rfl⟩
  | step path cur n p full _ _ _ _ _ ih =>
    obtain ⟨t, ht⟩ := ih
    exact ⟨p :: t, by rw [ht]; simp⟩

theorem dfs_mem (g : DepGraph) (target : String) :
    ∀ (fuel : Nat) (cur : String) (path : List String) (cs : List (List String)),
      g.dfs target fuel cur path = .chains cs →
      ∀ c, c ∈ cs ↔ ∃ full, UpWalk g path cur full ∧ c = full.reverse ++ [target] := by
  intro fuel
  induction fuel with
  | zero => intro cur path cs h; simp [dfs_zero] at h
  | succ fuel ih =>
    intro cur path cs h c
    by_cases hr : cur = g.root_name
    · rw [dfs_root g target fuel cur path hr] at h
      simp only [ExplainResult.chains.injEq] at h
      subst h
      rw [List.mem_singleton]
      constructor
      · intro hc
        exact ⟨path ++ [cur], UpWalk.root path cur hr, hc⟩
      · rintro ⟨full, hw, hc⟩
        cases hw with
        | root _ _ _ => exact hc
        | step _ _ n p _ hne _ _ _ _ => exact absurd hr hne
    · cases hf : amFind g.nodes cur with
      | none => simp [dfs_missing g target fuel cur path hr hf] at h
      | some n =>
        rw [dfs_node g target fuel cur path n hr hf] at h
        rw [loopParents_mem _ _ _ _ h c]
        constructor
        · rintro ⟨p, hp, hpp, cs1, h1, hc⟩
          obtain ⟨full, hw, hc2⟩ := (ih p (path ++ [cur]) cs1 h1 c).mp hc
          exact ⟨full, UpWalk.step path cur n p full hr hf hp hpp hw, hc2⟩
        · rintro ⟨full, hw, hc⟩
          cases hw with
          | root _ _ hroot => exact absurd hroot hr
          | step _ _ n2 p _ _ hf2 hp hpp hw2 =>
            rw [hf] at hf2
            simp only [Option.some.injEq] at hf2
            subst hf2
            obtain ⟨cs1, h1⟩ := loopParents_walk_chains _ _ _ _ h p hp hpp
            exact ⟨p, hp, hpp, cs1, h1, (ih p (path ++ [cur]) cs1 h1 c).mpr ⟨full, hw2, hc⟩⟩

/-- The lines printed by one run of the parents loop: no line twice, when the
calls it makes print no line twice. -/
theorem loop_nodup (g : DepGraph) (target : String) (fuel : Nat) (P : List String)
    (ps : List String) (cs : List (List String)) (hnd : ps.Nodup)
    (h1 : ∀ p cs1, g.dfs target fuel p P = .chains cs1 → cs1.Nodup)
    (h : loopParents (fun p => g.dfs target fuel p P) P ps = .chains cs) : cs.Nodup := by
  refine loopParents_nodup _ P ps cs hnd (fun p _ cs1 => h1 p cs1) ?_ h
  intro p _ q _ hne cs1 cs2 e1 e2 c hc1 hc2
  obtain ⟨f1, w1, hf1⟩ := (dfs_mem g target fuel p P cs1 e1 c).mp hc1
  obtain ⟨f2, w2, hf2⟩ := (dfs_mem g target fuel q P cs2 e2 c).mp hc2
  have hff : f1 = f2 := by
    rw [hf1] at hf2
    exact List.reverse_injective (List.append_cancel_right hf2)
  obtain ⟨t1, ht1⟩ := w1.extends
  obtain ⟨t2, ht2⟩ := w2.extends
  rw [hff, ht2] at ht1
  have := List.append_cancel_left ht1
  simp only [List.cons.injEq] at this
  exact hne this.1.symm

theorem dfs_nodup (g : DepGraph) (target : String)
    (hN : ∀ k n, amFind g.nodes k = some n → n.parents.Nodup) :
    ∀ (fuel : Nat) (cur : String) (path : List String) (cs : List (List String)),
      g.dfs target fuel cur path = .chains cs → cs.Nodup := by
  intro fuel
  induction fuel with
  | zero => intro cur path cs h; simp [dfs_zero] at h
  | succ fuel ih =>
    intro cur path cs h
    by_cases hr : cur = g.root_name
    · rw [dfs_root g target fuel cur path hr] at h
      simp only [ExplainResult.chains.injEq] at h
      subst h
      exact List.nodup_singleton _
    · cases hf : amFind g.nodes cur with
      | none => simp [dfs_missing g target fuel cur path hr hf] at h
      | some n =>
        rw [dfs_node g target fuel cur path n hr hf] at h
        exact loop_nodup g target fuel (path ++ [cur]) n.parents cs (hN cur n hf)
          (fun p cs1 => ih p (path ++ [cur]) cs1) h

theorem dfs_ne_out_of_range (g : DepGraph) (target : String)
    (hC : ∀ k n, amFind g.nodes k = some n → ∀ p ∈ n.parents, amContains g.nodes p = true) :
    ∀ (fuel : Nat) (cur : String) (path : List String) (key : String),
      amContains g.nodes cur = true → g.dfs target fuel cur path ≠ .out_of_range key := by
  intro fuel
  induction fuel with
  | zero => intro cur path key _; simp [dfs_zero]
  | succ fuel ih =>
    intro cur path key hcur
    by_cases hr : cur = g.root_name
    · simp [dfs_root g target fuel cur path hr]
    · cases hf : amFind g.nodes cur with
      | none => simp [amContains, hf] at hcur
      | some n =>
        rw [dfs_node g target fuel cur path n hr hf]
        intro e
        rcases loopParents_cases (fun p => g.dfs target fuel p (path ++ [cur])) (path ++ [cur])
          n.parents with ⟨cs, h⟩ | ⟨p, hp, _, h⟩
        · rw [h] at e
          simp at e
        · exact ih p (path ++ [cur]) key (hC cur n hf p hp) (h.trans e)

/-- A list of pairwise distinct keys that climbs from `u0` through parents
and ends at the root is an upward walk of `dfs`. -/
theorem upWalk_of_list (g : DepGraph) :
    ∀ (up path : List String) (u0 : String), (path ++ u0 :: up).Nodup →
      (u0 :: up).Chain' (fun a b => parentEdge g.nodes b a) →
      (u0 :: up).getLast? = some g.root_name →
      UpWalk g path u0 (path ++ u0 :: up) := by
  intro up
  induction up with
  | nil =>
    intro path u0 _ _ hl
    simp only [List.getLast?_singleton, Option.some.injEq] at hl
    exact UpWalk.root path u0 hl
  | cons u1 rest ih =>
    intro path u0 hnd hch hl
    have hnd2 : ((path ++ [u0]) ++ u1 :: rest).Nodup := by simpa using hnd
    rw [List.chain'_cons] at hch
    obtain ⟨n, hn, hp⟩ := hch.1
    have hl2 : (u1 :: rest).getLast? = some g.root_name := by
      rw [List.getLast?_cons_cons] at hl
      exact hl
    have hrm : g.root_name ∈ u1 :: rest := List.mem_of_getLast?_eq_some hl2
    have hdis := (List.nodup_append.mp hnd2).2.2
    have hne : u0 ≠ g.root_name := by
      intro e
      exact hdis (by simp : u0 ∈ path ++ [u0]) (e ▸ hrm) 
    have hu1 : u1 ∉ path ++ [u0] := fun hmem => hdis hmem (List.mem_cons_self _ _)
    have := ih (path ++ [u0]) u1 hnd2 hch.2 hl2
    rw [List.append_assoc] at this
    exact UpWalk.step path u0 n u1 _ hne hn hp hu1 this

theorem build_parents_ok (iter : List (String × Node) → List (String × Node))
    (reader : String → Option (List String)) (ld : LdCache)
    (alpm : AlpmManager) (root_path : String) (s rp : Bool) (k : String) (n : Node)
    (h : amFind (DepGraph.build iter reader (DepGraph.fresh ld alpm) root_path s rp).nodes k =
      some n) :
    n.parents.Nodup ∧ ∀ p ∈ n.parents,
      amContains (DepGraph.build iter reader (DepGraph.fresh ld alpm) root_path s rp).nodes p =
        true := by
  obtain ⟨⟨D, hinv⟩, _⟩ := traverse_spec reader ld alpm root_path s
  obtain ⟨n0, hn0, _, _, _, hpar⟩ := build_node iter reader (DepGraph.fresh ld alpm) root_path s rp k n h
  rw [hpar]
  refine ⟨(hinv.lists_nodup k n0 hn0).2, fun p hp => ?_⟩
  rw [build_contains]
  obtain ⟨np, hnp, _⟩ := (hinv.sym p k).mpr ⟨n0, hn0, hp⟩
  simp [amContains, hnp]

/-- On a graph whose parents lists hold node keys only, each once, a run of
`explain_why` on a node other than the root prints lines, no line twice, and
a line is printed exactly when it is an upward walk from a parent of the target
to the root, reversed and followed by the target. -/
theorem explain_why_lines (g : DepGraph) (target : String) (n : Node)
    (hN : ∀ k n, amFind g.nodes k = some n → n.parents.Nodup)
    (hC : ∀ k n, amFind g.nodes k = some n → ∀ p ∈ n.parents, amContains g.nodes p = true)
    (hf : amFind g.nodes target = some n) :
    ∃ cs, g.explain_why target = .chains cs ∧ cs.Nodup ∧
      ∀ c, c ∈ cs ↔ ∃ p ∈ n.parents, ∃ full, UpWalk g [] p full ∧
        c = full.reverse ++ [target] := by
  have hloop : g.explain_why target =
      loopParents (fun p => g.dfs target (g.nodes.length + 1) p []) [] n.parents := by
    unfold DepGraph.explain_why DepGraph.explain_why_fuel
    rw [hf]
  have hcs : ∃ cs, g.explain_why target = .chains cs := by
    cases hr : g.explain_why target with
    | chains cs => exact ⟨cs, rfl⟩
    | not_found => exact absurd hr (explain_why_ne_not_found g target _ n hf)
    | out_of_fuel => exact absurd hr (explain_why_ne_out_of_fuel g target)
    | out_of_range key =>
      exfalso
      rw [hloop] at hr
      rcases loopParents_cases (fun p => g.dfs target (g.nodes.length + 1) p []) []
        n.parents with ⟨cs, h⟩ | ⟨p, hp, _, h⟩
      · rw [h] at hr
        simp at hr
      · exact dfs_ne_out_of_range g target hC _ p [] key (hC target n hf p hp) (h.trans hr)
  obtain ⟨cs, hcs⟩ := hcs
  refine ⟨cs, hcs, ?_, fun c => ?_⟩
  · rw [hloop] at hcs
    exact loop_nodup g target _ [] n.parents cs (hN target n hf)
      (fun p cs1 => dfs_nodup g target hN _ p [] cs1) hcs
  · rw [hloop] at hcs
    rw [loopParents_mem _ _ _ _ hcs c]
    constructor
    · rintro ⟨p, hp, _, cs1, h1, hc⟩
      exact ⟨p, hp, (dfs_mem g target _ p [] cs1 h1 c).mp hc⟩
    · rintro ⟨p, hp, hw⟩
      obtain ⟨cs1, h1⟩ := loopParents_walk_chains _ _ _ _ hcs p hp (by simp)
      exact ⟨p, hp, by simp, cs1, h1, (dfs_mem g target _ p [] cs1 h1 c).mpr hw⟩

/-- A chain without a repeated key from the root to a target other than the
root is an upward walk from a parent of the target, reversed, followed by the
target. -/
theorem simpleChain_upWalk (g : DepGraph) (target : String) (c : List String)
    (hne : target ≠ g.root_name) (hc : SimpleChain g target c) :
    ∃ n, amFind g.nodes target = some n ∧ ∃ p ∈ n.parents, ∃ full, UpWalk g [] p full ∧
      c = full.reverse ++ [target] := by
  obtain ⟨hhead, hlast, hnd, hch⟩ := hc
  obtain ⟨ini, hini⟩ : ∃ ini, c = ini ++ [target] := by
    have hne2 : c ≠ [] := by
      intro e
      rw [e] at hlast
      simp at hlast
    refine ⟨c.dropLast, ?_⟩
    have h1 := List.dropLast_append_getLast? target hlast
    exact h1.symm
  subst hini
  cases hrev : ini.reverse with
  | nil =>
    have : ini = [] := List.reverse_eq_nil_iff.mp hrev
    subst this
    simp only [List.nil_append, List.head?_cons, Option.some.injEq] at hhead
    exact absurd hhead hne
  | cons p up =>
    have hini : ini = (p :: up).reverse := by
      rw [← hrev, List.reverse_reverse]
    have hrc : (ini ++ [target]).reverse = target :: p :: up := by
      rw [List.reverse_append, hrev]
      rfl
    have hch2 : (target :: p :: up).Chain' (fun a b => parentEdge g.nodes b a) := by
      rw [← hrc, List.chain'_reverse]
      exact hch
    rw [List.chain'_cons] at hch2
    obtain ⟨n, hn, hp⟩ := hch2.1
    have hnd2 : (target :: p :: up).Nodup := by
      rw [← hrc, List.nodup_reverse]
      exact hnd
    have hlast2 : (p :: up).getLast? = some g.root_name := by
      have h1 : (target :: p :: up).getLast? = some g.root_name := by
        rw [← hrc, List.getLast?_reverse]
        exact hhead
      rw [List.getLast?_cons_cons] at h1
      exact h1
    have hw := upWalk_of_list g up [] p (by simpa using (List.nodup_cons.mp hnd2).2) hch2.2 hlast2
    refine ⟨n, hn, p, hp, p :: up, by simpa using hw, ?_⟩
    rw [hini]

/-- An upward walk holds no key twice, ends at the root and climbs through
parents. -/
theorem UpWalk.sound {g : DepGraph} {path : List String} {cur : String}
    {full : List String} (h : UpWalk g path cur full) :
    path.Nodup → cur ∉ path →
    ∃ t, full = path ++ cur :: t ∧ full.Nodup ∧ full.getLast? = some g.root_name ∧
      (cur :: t).Chain' (fun a b => parentEdge g.nodes b a) := by
  induction h with
  | root path cur hr =>
    intro hnd hcur
    refine ⟨[], rfl, ?_, by simp [hr], List.chain'_singleton _⟩
    rw [List.nodup_append]
    refine ⟨hnd, List.nodup_singleton _, ?_⟩
    intro x hx hx2
    rw [List.mem_singleton] at hx2
    exact hcur (hx2 ▸ hx)
  | step path cur n p full _ hf hp hpp _ ih =>
    intro hnd hcur
    have hnd2 : (path ++ [cur]).Nodup := by
      rw [List.nodup_append]
      refine ⟨hnd, List.nodup_singleton _, ?_⟩
      intro x hx hx2
      rw [List.mem_singleton] at hx2
      exact hcur (hx2 ▸ hx)
    obtain ⟨t, ht, hfn, hl, hch⟩ := ih hnd2 hpp
    refine ⟨p :: t, by rw [ht]; simp, hfn, hl, ?_⟩
    rw [List.chain'_cons]
    exact ⟨⟨n, hf, hp⟩, hch⟩

/-- The shape of every printed line: the keys before the final target are
pairwise distinct, the first is the root, and each key is listed in the
parents of the next. The final target may occur among the keys before it. -/
theorem explain_why_chain_shape (g : DepGraph) (target : String) (n : Node)
    (hN : ∀ k n, amFind g.nodes k = some n → n.parents.Nodup)
    (hC : ∀ k n, amFind g.nodes k = some n → ∀ p ∈ n.parents, amContains g.nodes p = true)
    (hf : amFind g.nodes target = some n) (cs : List (List String))
    (h : g.explain_why target = .chains cs) (c : List String) (hc : c ∈ cs) :
    ∃ ini, c = ini ++ [target] ∧ ini.Nodup ∧ ini.head? = some g.root_name ∧
      c.Chain' (parentEdge g.nodes) := by
  obtain ⟨cs2, hcs2, _, hmem⟩ := explain_why_lines g target n hN hC hf
  rw [h] at hcs2
  simp only [ExplainResult.chains.injEq] at hcs2
  subst hcs2
  obtain ⟨p, hp, full, hw, hcf⟩ := (hmem c).mp hc
  obtain ⟨t, ht, hfn, hl, hch⟩ := hw.sound List.nodup_nil (by simp)
  rw [List.nil_append] at ht
  refine ⟨full.reverse, hcf, List.nodup_reverse.mpr hfn, ?_, ?_⟩
  · rw [List.head?_reverse]
    exact hl
  · rw [hcf, List.chain'_append]
    refine ⟨?_, List.chain'_singleton _, ?_⟩
    · rw [List.chain'_reverse, ht]
      exact hch
    · intro x hx y hy
      rw [List.getLast?_reverse, ht] at hx
      simp only [List.head?_cons, Option.mem_def, Option.some.injEq] at hx hy
      subst hx
      subst hy
      exact ⟨n, hf, hp⟩

theorem count_eq_one_of_nodup_mem {α : Type} [BEq α] [LawfulBEq α] (l : List α) (a : α)
    (hnd : l.Nodup) (h : a ∈ l) : l.count a = 1 := by
  induction l with
  | nil => simp at h
  | cons x xs ih =>
    rw [List.count_cons]
    obtain ⟨hx, hxs⟩ := List.nodup_cons.mp hnd
    by_cases e : x = a
    · subst e
      simp [List.count_eq_zero_of_not_mem hx]
    · have hmem : a ∈ xs := by
        rcases List.mem_cons.mp h with h1 | h1
        · exact absurd h1.symm e
        · exact h1
      simp [ih hxs hmem, e]

/-- C13, refuted as stated: for the root key as target nothing is printed,
although the one-key sequence `app` is a chain of pairwise distinct keys from
the root to the target. -/
theorem explain_why_root_target_prints_nothing :
    amContains exGraph.nodes "app" = true ∧ exGraph.root_name = "app" ∧
    SimpleChain exGraph "app" ["app"] ∧
    exGraph.explain_why "app" = .chains [] :=
  ⟨by decide, by decide, ⟨by decide, by decide, by decide, List.chain'_singleton _⟩, by decide⟩

/-- C13, amended: for a graph returned by `build` and a target that is a key
of the graph other than the root key, `explain_why` prints lines, and every
sequence `root = k0, ..., km = target` of pairwise distinct keys in which each
key is listed in the parents of the next is printed exactly once. -/
theorem explain_why_reports_each_chain_once (iter : List (String × Node) → List (String × Node))
    (reader : String → Option (List String))
    (ld : LdCache) (alpm : AlpmManager) (root_path : String) (s rp : Bool) (g : DepGraph)
    (hg : g = DepGraph.build iter reader (DepGraph.fresh ld alpm) root_path s rp)
    (target : String) (ht : amContains g.nodes target = true) (hne : target ≠ g.root_name) :
    ∃ cs, g.explain_why target = .chains cs ∧
      ∀ c, SimpleChain g target c → cs.count c = 1 := by
  have hN : ∀ k n, amFind g.nodes k = some n → n.parents.Nodup := by
    intro k n h
    rw [hg] at h
    exact (build_parents_ok iter reader ld alpm root_path s rp k n h).1
  have hC : ∀ k n, amFind g.nodes k = some n → ∀ p ∈ n.parents,
      amContains g.nodes p = true := by
    intro k n h
    rw [hg] at h ⊢
    exact (build_parents_ok iter reader ld alpm root_path s rp k n h).2
  obtain ⟨n, hn⟩ := Option.isSome_iff_exists.mp ht
  obtain ⟨cs, hcs, hnd, hmem⟩ := explain_why_lines g target n hN hC hn
  refine ⟨cs, hcs, fun c hc => ?_⟩
  obtain ⟨n2, hn2, p, hp, full, hw, hcf⟩ := simpleChain_upWalk g target c hne hc
  rw [hn] at hn2
  simp only [Option.some.injEq] at hn2
  subst hn2
  exact count_eq_one_of_nodup_mem cs c hnd ((hmem c).mpr ⟨p, hp, full, hw, hcf⟩)

/-- Witness of C13 (amended): `libb.so` is required by `app` and by `liba.so`;
both chains are printed, each once. -/
theorem explain_why_reports_each_chain_once_witness :
    exGraph.explain_why "libb.so" =
      .chains [["app", "libb.so"], ["app", "liba.so", "libb.so"]] ∧
    ∃ cs, exGraph.explain_why "libb.so" = .chains cs ∧
      ∀ c, SimpleChain exGraph "libb.so" c → cs.count c = 1 :=
  ⟨by decide,
    explain_why_reports_each_chain_once id exReader exCache exAlpm "/usr/bin/app" false true
      exGraph rfl "libb.so" (by decide) (by decide)⟩

/-- C14, failing input: `app` requires `libt.so`, `libt.so` requires `libb.so`
and `libb.so` requires `libt.so`. The target is never pushed on the path, so
the walk from `libt.so` climbs to `libb.so` and to `libt.so` again, and the
second printed chain holds the target twice. -/
theorem explain_why_repeats_target :
    exGraphCycle.root_name = "app" ∧
    exGraphCycle.explain_why "libt.so" =
      .chains [["app", "libt.so"], ["app", "libt.so", "libb.so", "libt.so"]] ∧
    ¬ ["app", "libt.so", "libb.so", "libt.so"].Nodup ∧
    (∃ cs, exGraphCycle.explain_why "libt.so" = .chains cs ∧ ∃ c ∈ cs, ¬ c.Nodup) := by
  refine ⟨by decide, by decide, by decide, ?_⟩
  exact ⟨[["app", "libt.so"], ["app", "libt.so", "libb.so", "libt.so"]], by decide,
    ["app", "libt.so", "libb.so", "libt.so"], by decide, by decide⟩

/-- C15: on every graph, cyclic or not, and every target, `explain_why` ends:
the recursion of `dfs` never goes deeper than the number of nodes plus one, so
that the run does not exhaust this budget, and a larger budget changes
nothing. -/
theorem explain_why_terminates (g : DepGraph) (target : String) :
    g.explain_why target ≠ .out_of_fuel ∧
    (∀ extra : Nat,
      DepGraph.explain_why_fuel (g.nodes.length + 1 + extra) g target = g.explain_why target) ∧
    ∀ (p : String) (extra : Nat),
      g.dfs target (g.nodes.length + 1 + extra) p [] ≠ .out_of_fuel :=
  ⟨explain_why_ne_out_of_fuel g target, explain_why_fuel_add g target, fun p extra => by
    rw [dfs_fuel_add g target _ p [] (dfs_top_ne_out_of_fuel g target p) extra]
    exact dfs_top_ne_out_of_fuel g target p⟩

/-- Witness of C15: two libraries that require each other, one of them the
root, and a cycle through the target itself. -/
theorem explain_why_terminates_witness :
    exGraphRootRequired.explain_why "libfoo.so" =
      .chains [["libfoo.so", "libbar.so", "libfoo.so"]] ∧
    exGraphCycle.explain_why "libb.so" ≠ .out_of_fuel :=
  ⟨by decide, (explain_why_terminates exGraphCycle "libb.so").1⟩

/-- C16: `explain_why` reports the not-found condition exactly when the
target is not a key of the node map; then no recursive call is made and no
lookup fails, whatever the budget. -/
theorem explain_why_not_found_iff (g : DepGraph) (target : String) :
    (g.explain_why target = .not_found ↔ amContains g.nodes target = false) ∧
    (amContains g.nodes target = false →
      ∀ fuel, DepGraph.explain_why_fuel fuel g target = .not_found) := by
  have h2 : amContains g.nodes target = false →
      ∀ fuel, DepGraph.explain_why_fuel fuel g target = .not_found := by
    intro h fuel
    unfold DepGraph.explain_why_fuel
    cases hf : amFind g.nodes target with
    | none => rfl
    | some n => simp [amContains, hf] at h
  refine ⟨⟨fun h => ?_, fun h => h2 h _⟩, h2⟩
  cases hf : amFind g.nodes target with
  | none => simp [amContains, hf]
  | some n => exact absurd h (explain_why_ne_not_found g target _ n hf)

/-- Witness of C16: a name that is not in the example graph, and one that
is. -/
theorem explain_why_not_found_iff_witness :
    exGraphCycle.explain_why "nope" = .not_found ∧
    exGraphCycle.explain_why "libb.so" ≠ .not_found :=
  ⟨((explain_why_not_found_iff exGraphCycle "nope").1).mpr (by decide),
    fun h => absurd (((explain_why_not_found_iff exGraphCycle "libb.so").1).mp h) (by decide)⟩

/-! ## The frame and the work of `batch_resolve` -/

theorem batch_resolve_off (a : AlpmManager) (paths : List String)
    (h : a.initialized = false ∨ a.db_local = none) :
    a.batch_resolve paths = a ∧ a.batch_resolve_examined paths = [] := by
  obtain ⟨i, d, pc⟩ := a
  cases i <;> cases d <;>
    simp [AlpmManager.batch_resolve, AlpmManager.batch_resolve_examined] at h ⊢

theorem batch_resolve_fields (a : AlpmManager) (paths : List String) :
    (a.batch_resolve paths).initialized = a.initialized ∧
    (a.batch_resolve paths).db_local = a.db_local := by
  obtain ⟨i, d, pc⟩ := a
  cases i with
  | false => simp [AlpmManager.batch_resolve]
  | true =>
    cases d with
    | none => simp [AlpmManager.batch_resolve]
    | some db =>
      simp only [AlpmManager.batch_resolve]
      split <;> simp

/-- A path whose attribution is changed by the call is a requested path
without attribution before the call, and the call gives it the name of the
first package whose manifest holds its stripped form. -/
theorem batch_resolve_changed (a : AlpmManager) (paths : List String) (x : String)
    (h : amFind (a.batch_resolve paths).pkg_cache x ≠ amFind a.pkg_cache x) :
    x ∈ paths ∧ amFind a.pkg_cache x = none ∧
      ∃ db n, a.db_local = some db ∧ firstOwner db (stripSlash x) = some n ∧
        amFind (a.batch_resolve paths).pkg_cache x = some n := by
  obtain ⟨i, d, pc⟩ := a
  cases i with
  | false => exact absurd (by simp [AlpmManager.batch_resolve]) h
  | true =>
    cases d with
    | none => exact absurd (by simp [AlpmManager.batch_resolve]) h
    | some db =>
      have hfind := batch_resolve_find pc db paths x
      simp only at h ⊢
      by_cases hc : amFind (lookupMap (paths.filter (fun p => !amContains pc p)))
          (stripSlash x) = some x
      · rw [if_pos hc] at hfind
        have hmem : x ∈ paths.filter (fun p => !amContains pc p) := by
          rcases lookupMap_foldl_find _ [] _ _ hc with h1 | h1
          · exact h1
          · simp [amFind] at h1
        rw [List.mem_filter] at hmem
        have hnone : amFind pc x = none := by
          cases hf : amFind pc x with
          | none => rfl
          | some v => simp [amContains, hf] at hmem
        cases ho : firstOwner db (stripSlash x) with
        | none =>
          rw [ho] at hfind
          exact absurd hfind h
        | some n =>
          rw [ho] at hfind
          exact ⟨hmem.1, hnone, db, n, rfl, ho, hfind⟩
      · rw [if_neg hc] at hfind
        exact absurd hfind h

/-- C21: `batch_resolve` changes nothing but attributions of requested paths
that had none: a path attributed before the call keeps its package, whatever
the database holds; a path that is not requested keeps its state; a path whose
state changes is a requested path that was unattributed, and it becomes
attributed; `get_package` answers as before on every path of the first two
kinds, and the other fields of the manager are unchanged. -/
theorem batch_resolve_frame (a : AlpmManager) (paths : List String) :
    (∀ x v, amFind a.pkg_cache x = some v →
      amFind (a.batch_resolve paths).pkg_cache x = some v) ∧
    (∀ x, x ∉ paths → amFind (a.batch_resolve paths).pkg_cache x = amFind a.pkg_cache x) ∧
    (∀ x, amFind (a.batch_resolve paths).pkg_cache x ≠ amFind a.pkg_cache x →
      x ∈ paths ∧ amFind a.pkg_cache x = none ∧
        ∃ n, amFind (a.batch_resolve paths).pkg_cache x = some n) ∧
    (∀ x, amContains a.pkg_cache x = true ∨ x ∉ paths →
      (a.batch_resolve paths).get_package x = a.get_package x) ∧
    (a.batch_resolve paths).initialized = a.initialized ∧
    (a.batch_resolve paths).db_local = a.db_local := by
  have hsame : ∀ x, amContains a.pkg_cache x = true ∨ x ∉ paths →
      amFind (a.batch_resolve paths).pkg_cache x = amFind a.pkg_cache x := by
    intro x hx
    by_contra hne
    obtain ⟨h1, h2, _⟩ := batch_resolve_changed a paths x hne
    rcases hx with hx | hx
    · simp [amContains, h2] at hx
    · exact hx h1
  refine ⟨?_, fun x hx => hsame x (Or.inr hx), ?_, ?_, batch_resolve_fields a paths⟩
  · intro x v hv
    rw [hsame x (Or.inl (by simp [amContains, hv])), hv]
  · intro x hne
    obtain ⟨h1, h2, db, n, _, _, h3⟩ := batch_resolve_changed a paths x hne
    exact ⟨h1, h2, n, h3⟩
  · intro x hx
    unfold AlpmManager.get_package
    rw [hsame x hx]

/-- Witness of C21: `/usr/lib/liba.so` was attributed to `OLD` and stays so,
although the database gives it to `A`; `/usr/lib/libb.so` is added. -/
theorem batch_resolve_frame_witness :
    (exAlpmStale.batch_resolve ["/usr/lib/liba.so", "/usr/lib/libb.so"]).pkg_cache =
      [("/usr/lib/liba.so", "OLD"), ("/usr/lib/libb.so", "B")] ∧
    amFind (exAlpmStale.batch_resolve ["/usr/lib/liba.so", "/usr/lib/libb.so"]).pkg_cache
      "/usr/lib/liba.so" = some "OLD" :=
  ⟨by decide,
    (batch_resolve_frame exAlpmStale ["/usr/lib/liba.so", "/usr/lib/libb.so"]).1
      "/usr/lib/liba.so" "OLD" (by decide)⟩

/-! ### The examined pairs -/

theorem replayPairs_cons (lm pc : List (String × String)) (e : String × String)
    (t : List (String × String)) :
    replayPairs lm pc (e :: t) =
      replayPairs (stepPair (lm, pc) e).1 (stepPair (lm, pc) e).2 t := rfl

theorem replayPairs_append (lm pc : List (String × String))
    (s t : List (String × String)) :
    replayPairs lm pc (s ++ t) = replayPairs (replayPairs lm pc s).1 (replayPairs lm pc s).2 t := by
  unfold replayPairs
  rw [List.foldl_append]

theorem examinedFiles_spec (name : String) (fs : List String) :
    ∀ (lm pc : List (String × String)), lm ≠ [] →
    AlpmManager.examinedFiles name fs lm <+: fs.map (fun f => (name, f)) ∧
    (AlpmManager.scanFiles name fs lm pc).2 =
      replayPairs lm pc (AlpmManager.examinedFiles name fs lm) ∧
    (∀ i, i < (AlpmManager.examinedFiles name fs lm).length →
      (replayPairs lm pc ((AlpmManager.examinedFiles name fs lm).take i)).1 ≠ []) ∧
    ((AlpmManager.scanFiles name fs lm pc).1 = false →
      AlpmManager.examinedFiles name fs lm = fs.map (fun f => (name, f)) ∧
        (AlpmManager.scanFiles name fs lm pc).2.1 ≠ []) ∧
    ((AlpmManager.scanFiles name fs lm pc).1 = true →
      (AlpmManager.scanFiles name fs lm pc).2.1 = []) := by
  induction fs with
  | nil =>
    intro lm pc hlm
    refine ⟨List.nil_prefix, rfl, ?_, fun _ => ⟨rfl, hlm⟩, ?_⟩
    · intro i hi
      simp [AlpmManager.examinedFiles] at hi
    · intro hb
      simp [AlpmManager.scanFiles] at hb
  | cons f rest ih =>
    intro lm pc hlm
    cases hf : amFind lm f with
    | none =>
      have e1 : AlpmManager.examinedFiles name (f :: rest) lm =
          (name, f) :: AlpmManager.examinedFiles name rest lm := by
        simp [AlpmManager.examinedFiles, hf]
      have e2 : AlpmManager.scanFiles name (f :: rest) lm pc =
          AlpmManager.scanFiles name rest lm pc := by
        simp [AlpmManager.scanFiles, hf]
      have e3 : stepPair (lm, pc) (name, f) = (lm, pc) := by
        simp [stepPair, hf]
      obtain ⟨h1, h2, h3, h4, h5⟩ := ih lm pc hlm
      rw [e1, e2]
      refine ⟨?_, ?_, ?_, ?_, h5⟩
      · rw [List.map_cons]
        exact (List.prefix_cons_inj _).mpr h1
      · rw [replayPairs_cons, e3]
        exact h2
      · intro i hi
        cases i with
        | zero => exact hlm
        | succ j =>
          rw [List.take_succ_cons, replayPairs_cons, e3]
          exact h3 j (by simpa using hi)
      · intro hb
        obtain ⟨h6, h7⟩ := h4 hb
        exact ⟨by rw [h6, List.map_cons], h7⟩
    | some orig =>
      have e3 : stepPair (lm, pc) (name, f) = (amErase lm f, amSet pc orig name) := by
        simp [stepPair, hf]
      by_cases hemp : (amErase lm f).isEmpty = true
      · have e1 : AlpmManager.examinedFiles name (f :: rest) lm = [(name, f)] := by
          simp [AlpmManager.examinedFiles, hf, hemp]
        have e2 : AlpmManager.scanFiles name (f :: rest) lm pc =
            (true, amErase lm f, amSet pc orig name) := by
          simp [AlpmManager.scanFiles, hf, hemp]
        rw [e1, e2]
        refine ⟨?_, ?_, ?_, ?_, ?_⟩
        · rw [List.map_cons]
          exact (List.prefix_cons_inj _).mpr List.nil_prefix
        · exact e3.symm
        · intro i hi
          have hi0 : i = 0 := by simpa using hi
          subst hi0
          exact hlm
        · intro hb
          simp at hb
        · intro _
          exact List.isEmpty_iff.mp hemp
      · have hlm1 : amErase lm f ≠ [] := fun e => hemp (List.isEmpty_iff.mpr e)
        have e1 : AlpmManager.examinedFiles name (f :: rest) lm =
            (name, f) :: AlpmManager.examinedFiles name rest (amErase lm f) := by
          simp [AlpmManager.examinedFiles, hf, hemp]
        have e2 : AlpmManager.scanFiles name (f :: rest) lm pc =
            AlpmManager.scanFiles name rest (amErase lm f) (amSet pc orig name) := by
          simp [AlpmManager.scanFiles, hf, hemp]
        obtain ⟨h1, h2, h3, h4, h5⟩ := ih (amErase lm f) (amSet pc orig name) hlm1
        rw [e1, e2]
        refine ⟨?_, ?_, ?_, ?_, h5⟩
        · rw [List.map_cons]
          exact (List.prefix_cons_inj _).mpr h1
        · rw [replayPairs_cons, e3]
          exact h2
        · intro i hi
          cases i with
          | zero => exact hlm
          | succ j =>
            rw [List.take_succ_cons, replayPairs_cons, e3]
            exact h3 j (by simpa using hi)
        · intro hb
          obtain ⟨h6, h7⟩ := h4 hb
          exact ⟨by rw [h6, List.map_cons], h7⟩

theorem examinedPkgs_spec (db : List AlpmPkg) :
    ∀ (lm pc : List (String × String)), lm ≠ [] →
    AlpmManager.examinedPkgs db lm pc <+: manifestPairs db ∧
    AlpmManager.scanPkgs db lm pc =
      (replayPairs lm pc (AlpmManager.examinedPkgs db lm pc)).2 ∧
    (∀ i, i < (AlpmManager.examinedPkgs db lm pc).length →
      (replayPairs lm pc ((AlpmManager.examinedPkgs db lm pc).take i)).1 ≠ []) := by
  induction db with
  | nil =>
    intro lm pc _
    refine ⟨List.nil_prefix, rfl, ?_⟩
    intro i hi
    simp [AlpmManager.examinedPkgs] at hi
  | cons pkg rest ih =>
    intro lm pc hlm
    obtain ⟨h1, h2, h3, h4, h5⟩ := examinedFiles_spec pkg.name pkg.files lm pc hlm
    unfold AlpmManager.examinedPkgs AlpmManager.scanPkgs manifestPairs
    cases hs : AlpmManager.scanFiles pkg.name pkg.files lm pc with
    | mk b r =>
      obtain ⟨lm1, pc1⟩ := r
      rw [hs] at h2 h4 h5
      simp only at h2 h4 h5
      cases b with
      | true =>
        simp only
        refine ⟨h1.trans (List.prefix_append _ _), ?_, h3⟩
        rw [← h2]
      | false =>
        simp only
        obtain ⟨h6, h7⟩ := h4 rfl
        obtain ⟨k1, k2, k3⟩ := ih lm1 pc1 h7
        have hrep : ∀ t, replayPairs lm pc
            (AlpmManager.examinedFiles pkg.name pkg.files lm ++ t) = replayPairs lm1 pc1 t := by
          intro t
          rw [replayPairs_append, ← h2]
        refine ⟨?_, ?_, ?_⟩
        · rw [h6]
          exact (List.prefix_append_right_inj _).mpr k1
        · rw [hrep]
          exact k2
        · intro i hi
          rw [List.take_append_eq_append_take]
          by_cases hlt : i < (AlpmManager.examinedFiles pkg.name pkg.files lm).length
          · have h0 : i - (AlpmManager.examinedFiles pkg.name pkg.files lm).length = 0 := by
              omega
            rw [h0, List.take_zero, List.append_nil]
            exact h3 i hlt
          · have hge : (AlpmManager.examinedFiles pkg.name pkg.files lm).length ≤ i := by
              omega
            rw [List.take_of_length_le hge, hrep]
            apply k3
            rw [List.length_append] at hi
            omega

theorem amSet_ne_nil {β : Type} (m : List (String × β)) (k : String) (v : β) :
    amSet m k v ≠ [] := by
  cases m with
  | nil => simp [amSet]
  | cons e r =>
    obtain ⟨k1, v1⟩ := e
    simp only [amSet]
    split <;> simp

theorem lookupMap_foldl_ne_nil (l : List String) (m : List (String × String)) (h : m ≠ []) :
    l.foldl (fun m p => amSet m (stripSlash p) p) m ≠ [] := by
  induction l generalizing m with
  | nil => exact h
  | cons p rest ih =>
    rw [List.foldl_cons]
    exact ih _ (amSet_ne_nil _ _ _)

theorem lookupMap_ne_nil (l : List String) (h : l ≠ []) : lookupMap l ≠ [] := by
  cases l with
  | nil => exact absurd rfl h
  | cons p rest =>
    unfold lookupMap
    rw [List.foldl_cons]
    exact lookupMap_foldl_ne_nil _ _ (amSet_ne_nil _ _ _)

theorem length_manifestPairs (db : List AlpmPkg) :
    (manifestPairs db).length = (db.map (fun p => p.files.length)).sum := by
  induction db with
  | nil => rfl
  | cons p rest ih => simp [manifestPairs, ih]

/-- The log of one call: a prefix of the flattened database, from which the
new `pkg_cache` is computed, and before each entry of which `lookup_map` is
not empty. -/
theorem batch_resolve_log (a : AlpmManager) (paths : List String) :
    a.batch_resolve_examined paths <+: manifestPairs (a.db_local.getD []) ∧
    (a.batch_resolve paths).pkg_cache =
      (replayPairs (lookupMap (paths.filter (fun p => !amContains a.pkg_cache p))) a.pkg_cache
        (a.batch_resolve_examined paths)).2 ∧
    (∀ i, i < (a.batch_resolve_examined paths).length →
      (replayPairs (lookupMap (paths.filter (fun p => !amContains a.pkg_cache p))) a.pkg_cache
        ((a.batch_resolve_examined paths).take i)).1 ≠ []) := by
  have hoff : a.batch_resolve paths = a → a.batch_resolve_examined paths = [] →
      a.batch_resolve_examined paths <+: manifestPairs (a.db_local.getD []) ∧
      (a.batch_resolve paths).pkg_cache =
        (replayPairs (lookupMap (paths.filter (fun p => !amContains a.pkg_cache p)))
          a.pkg_cache (a.batch_resolve_examined paths)).2 ∧
      (∀ i, i < (a.batch_resolve_examined paths).length →
        (replayPairs (lookupMap (paths.filter (fun p => !amContains a.pkg_cache p)))
          a.pkg_cache ((a.batch_resolve_examined paths).take i)).1 ≠ []) := by
    intro h1 h2
    rw [h1, h2]
    exact ⟨List.nil_prefix, rfl, fun i hi => by simp at hi⟩
  by_cases hinit : a.initialized = false ∨ a.db_local = none
  · obtain ⟨h1, h2⟩ := batch_resolve_off a paths hinit
    exact hoff h1 h2
  · obtain ⟨i, d, pc⟩ := a
    cases i with
    | false => simp at hinit
    | true =>
      cases d with
      | none => simp at hinit
      | some db =>
        cases hemp : (paths.filter (fun p => !amContains pc p)).isEmpty with
        | true =>
          apply hoff
          · simp [AlpmManager.batch_resolve, hemp]
          · simp [AlpmManager.batch_resolve_examined, hemp]
        | false =>
          have hne : paths.filter (fun p => !amContains pc p) ≠ [] := by
            intro e
            rw [e] at hemp
            simp at hemp
          have hb : (AlpmManager.batch_resolve ⟨true, some db, pc⟩ paths).pkg_cache =
              AlpmManager.scanPkgs db (lookupMap (paths.filter (fun p => !amContains pc p)))
                pc := by
            simp [AlpmManager.batch_resolve, hemp, lookupMap]
          have he : AlpmManager.batch_resolve_examined ⟨true, some db, pc⟩ paths =
              AlpmManager.examinedPkgs db
                (lookupMap (paths.filter (fun p => !amContains pc p))) pc := by
            simp [AlpmManager.batch_resolve_examined, hemp, lookupMap]
          rw [hb, he]
          exact examinedPkgs_spec db _ pc (lookupMap_ne_nil _ hne)

/-- C22: the pairs examined by one call of `batch_resolve` are the first
pairs of the flattened database, in order, each position once; every examined
pair is reached with a non-empty `lookup_map`, and no pair is examined after
one that leaves `lookup_map` empty; so their number is at most the number of
manifest entries of the database, whatever the request. The new `pkg_cache`
is computed from the examined pairs alone. -/
theorem batch_resolve_single_pass (a : AlpmManager) (paths : List String) :
    a.batch_resolve_examined paths <+: manifestPairs (a.db_local.getD []) ∧
    (a.batch_resolve_examined paths).length ≤
      ((a.db_local.getD []).map (fun p => p.files.length)).sum ∧
    (∀ i, i < (a.batch_resolve_examined paths).length →
      (replayPairs (lookupMap (paths.filter (fun p => !amContains a.pkg_cache p))) a.pkg_cache
        ((a.batch_resolve_examined paths).take i)).1 ≠ []) ∧
    (∀ t e, t ++ [e] <+: a.batch_resolve_examined paths →
      (replayPairs (lookupMap (paths.filter (fun p => !amContains a.pkg_cache p))) a.pkg_cache
        (t ++ [e])).1 = [] →
      a.batch_resolve_examined paths = t ++ [e]) ∧
    (a.batch_resolve paths).pkg_cache =
      (replayPairs (lookupMap (paths.filter (fun p => !amContains a.pkg_cache p))) a.pkg_cache
        (a.batch_resolve_examined paths)).2 := by
  obtain ⟨h1, h2, h3⟩ := batch_resolve_log a paths
  refine ⟨h1, ?_, h3, ?_, h2⟩
  · rw [← length_manifestPairs]
    exact h1.length_le
  · intro t e hpre hnil
    obtain ⟨s, hs⟩ := hpre
    cases s with
    | nil => rw [← hs, List.append_nil]
    | cons x xs =>
      exfalso
      have hlen : (t ++ [e]).length < (a.batch_resolve_examined paths).length := by
        rw [← hs]
        simp
      have htake : (a.batch_resolve_examined paths).take (t ++ [e]).length = t ++ [e] := by
        rw [← hs]
        exact List.take_left' rfl
      have := h3 _ hlen
      rw [htake] at this
      exact this hnil

/-- Witness of C22: one requested path, found at the second of five manifest
entries: two pairs are examined. With a path that no package owns in the
request, all five are examined, once each. -/
theorem batch_resolve_single_pass_witness :
    exAlpmFive.batch_resolve_examined ["/usr/lib/libz.so"] =
      [("base", "etc/passwd"), ("base", "usr/lib/libz.so")] ∧
    exAlpmFive.batch_resolve_examined ["/usr/lib/libz.so", "/usr/lib/liba.so", "/nowhere"] =
      manifestPairs (exAlpmFive.db_local.getD []) ∧
    (exAlpmFive.batch_resolve_examined
      ["/usr/lib/libz.so", "/usr/lib/liba.so", "/nowhere"]).length ≤ 5 :=
  ⟨by decide, by decide,
    (batch_resolve_single_pass exAlpmFive
      ["/usr/lib/libz.so", "/usr/lib/liba.so", "/nowhere"]).2.1⟩

/-! ## The minimal package set of a packaged root -/

/-- C23, refuted as stated: the inspected binary is owned by `app-pkg`, yet
the result is `["B"]`: the library `liba.so` is owned by a package named
`__ROOT__`, so its edge to package `B` is filed under the root marker. -/
theorem minimal_nonempty_with_owned_root :
    exGraphOwnedMarker.owner exGraphOwnedMarker.root_name = some "app-pkg" ∧
    exGraphOwnedMarker.owner "liba.so" = some "__ROOT__" ∧
    exGraphOwnedMarker.pkg_deps = [("app-pkg", ["__ROOT__"]), ("__ROOT__", ["B"])] ∧
    exGraphOwnedMarker.get_minimal_pkgs = ["B"] := by
  decide

/-- C23, amended: in a graph returned by `build` whose root has a known
owning package `R` and in which no node is owned by a package named
`__ROOT__`, `get_minimal_pkgs` returns the empty list: nothing is filed under
the root marker, and every edge from the root to a library of another known
package `P` is filed under `R`. -/
theorem minimal_nil_of_root_owned (iter : List (String × Node) → List (String × Node))
    (reader : String → Option (List String)) (ld : LdCache)
    (alpm : AlpmManager) (root_path : String) (s rp : Bool) (g : DepGraph)
    (hg : g = DepGraph.build iter reader (DepGraph.fresh ld alpm) root_path s rp)
    (R : String) (hR : g.owner g.root_name = some R)
    (hm : ∀ k, g.owner k ≠ some "__ROOT__") :
    g.get_minimal_pkgs = [] ∧
    (∀ c, ¬ depsHas g.pkg_deps "__ROOT__" c) ∧
    (∀ c P, childEdge g.nodes g.root_name c → g.owner c = some P → P ≠ R →
      depsHas g.pkg_deps R P) := by
  have hnd : (amKeys g.nodes).Nodup := by
    rw [hg]
    exact build_keys_nodup iter reader ld alpm root_path s rp
  have hno : ∀ c, ¬ g.pkgEdge g.nodes "__ROOT__" c := by
    rintro c ⟨e, _, hpe, _, _⟩
    rw [p_pkg_eq g hnd] at hpe
    cases ho : g.owner e.1 with
    | none =>
      rw [ho] at hpe
      by_cases hr : e.1 = g.root_name
      · rw [hr, hR] at ho
        cases ho
      · simp only [hr, if_false] at hpe
        exact absurd hpe (by decide)
    | some q =>
      rw [ho] at hpe
      simp only at hpe
      rw [hpe] at ho
      exact hm e.1 ho
  refine ⟨?_, ?_, ?_⟩
  · apply List.eq_nil_iff_forall_not_mem.mpr
    intro x hx
    rw [mem_get_minimal_pkgs] at hx
    exact hno x hx.1
  · intro c hc
    exact hno c ((depsHas_pkg_deps g "__ROOT__" c).mp hc)
  · rintro c P ⟨nr, hnr, hcr⟩ hcP hPR
    rw [depsHas_pkg_deps]
    refine ⟨(g.root_name, nr), mem_of_amFind _ _ _ hnr, ?_, ?_, c, hcr, ?_, hPR⟩
    · rw [p_pkg_eq g hnd, hR]
    · exact knownPkg_ne_empty R (owner_known g g.root_name R hR)
    · rw [amFind_lib_to_pkg g hnd]
      exact hcP

/-- Witness of C23 (amended): `/usr/bin/app` owned by `app-pkg`; the result is
empty and the edges to `A` and `B` are filed under `app-pkg`. -/
theorem minimal_nil_of_root_owned_witness :
    exGraphOwned.pkg_deps = [("app-pkg", ["A", "B"]), ("A", ["B"])] ∧
    (exGraphOwned.get_minimal_pkgs = [] ∧
    (∀ c, ¬ depsHas exGraphOwned.pkg_deps "__ROOT__" c) ∧
    (∀ c P, childEdge exGraphOwned.nodes exGraphOwned.root_name c →
      exGraphOwned.owner c = some P → P ≠ "app-pkg" → depsHas exGraphOwned.pkg_deps "app-pkg" P)) :=
  ⟨by decide,
    minimal_nil_of_root_owned id exReader exCache
      ⟨true, some [⟨"app-pkg", ["usr/bin/app"]⟩, ⟨"A", ["usr/lib/liba.so"]⟩,
        ⟨"B", ["usr/lib/libb.so"]⟩], []⟩ "/usr/bin/app" false true exGraphOwned rfl
      "app-pkg" (by decide) (by
        intro k
        unfold DepGraph.owner
        have hall : ∀ e ∈ exGraphOwned.nodes, e.2.pkg ≠ "__ROOT__" := by decide
        cases hf : amFind exGraphOwned.nodes k with
        | none => simp
        | some n =>
          have := hall (k, n) (mem_of_amFind _ _ _ hf)
          simp only [Option.some_bind]
          split
          · intro e
            exact this (Option.some.inj e)
          · simp)⟩

/-! ## The iteration order of the node map in the attribution block -/

theorem mem_all_paths (iter : List (String × Node) → List (String × Node))
    (hperm : ∀ l, (iter l).Perm l) (nodes : List (String × Node)) (x : String) :
    x ∈ DepGraph.all_paths iter nodes ↔ ∃ e ∈ nodes, e.2.path ≠ "" ∧ e.2.path = x := by
  unfold DepGraph.all_paths
  rw [List.mem_filterMap]
  constructor
  · rintro ⟨e, he, h⟩
    by_cases hp : e.2.path = ""
    · simp [hp] at h
    · simp only [hp, if_false, Option.some.injEq] at h
      exact ⟨e, (hperm nodes).mem_iff.mp he, hp, h⟩
  · rintro ⟨e, he, hp, h⟩
    exact ⟨e, (hperm nodes).mem_iff.mpr he, by rw [if_neg hp, h]⟩

theorem batch_resolve_same (a : AlpmManager) (paths : List String) (x : String)
    (h : amFind a.pkg_cache x ≠ none ∨ x ∉ paths) :
    amFind (a.batch_resolve paths).pkg_cache x = amFind a.pkg_cache x := by
  by_contra hne
  obtain ⟨h1, h2, _⟩ := batch_resolve_changed a paths x hne
  rcases h with h | h
  · exact h h2
  · exact h h1

/-- Two requests with the same paths, in any order, give every path the
same package, provided no two unattributed requested paths differ by a leading
'/' only. -/
theorem batch_resolve_get_package_congr (a : AlpmManager) (p1 p2 : List String)
    (hmem : ∀ x, x ∈ p1 ↔ x ∈ p2)
    (hinj : ∀ y ∈ p1, ∀ z ∈ p1, amFind a.pkg_cache y = none → amFind a.pkg_cache z = none →
      stripSlash y = stripSlash z → y = z)
    (x : String) :
    (a.batch_resolve p1).get_package x = (a.batch_resolve p2).get_package x := by
  have hfind : amFind (a.batch_resolve p1).pkg_cache x =
      amFind (a.batch_resolve p2).pkg_cache x := by
    by_cases hx : x ∈ p1 ∧ amFind a.pkg_cache x = none
    · obtain ⟨hx1, hx2⟩ := hx
      by_cases hoff : a.initialized = false ∨ a.db_local = none
      · rw [(batch_resolve_off a p1 hoff).1, (batch_resolve_off a p2 hoff).1]
      · obtain ⟨i, d, pc⟩ := a
        cases i with
        | false => simp at hoff
        | true =>
          cases d with
          | none => simp at hoff
          | some db =>
            have hinj2 : ∀ y ∈ p2, ∀ z ∈ p2, amFind pc y = none → amFind pc z = none →
                stripSlash y = stripSlash z → y = z :=
              fun y hy z hz => hinj y ((hmem y).mpr hy) z ((hmem z).mpr hz)
            rw [(batch_resolve_without_collision pc db p1 hinj x hx1 hx2).1,
              (batch_resolve_without_collision pc db p2 hinj2 x ((hmem x).mp hx1) hx2).1]
    · have h1 : amFind a.pkg_cache x ≠ none ∨ x ∉ p1 := by
        by_cases hm : x ∈ p1
        · exact Or.inl (fun e => hx ⟨hm, e⟩)
        · exact Or.inr hm
      have h2 : amFind a.pkg_cache x ≠ none ∨ x ∉ p2 := by
        rcases h1 with h | h
        · exact Or.inl h
        · exact Or.inr (fun e => h ((hmem x).mpr e))
      rw [batch_resolve_same a p1 x h1, batch_resolve_same a p2 x h2]
  unfold AlpmManager.get_package
  rw [hfind]

/-- The nodes of the graph returned by `build` are the same for every
iteration order of the node map in the attribution block, provided no two
unattributed node paths differ by a leading '/' only. -/
theorem build_nodes_order_irrelevant
    (iter1 iter2 : List (String × Node) → List (String × Node))
    (h1 : ∀ l, (iter1 l).Perm l) (h2 : ∀ l, (iter2 l).Perm l)
    (reader : String → Option (List String)) (ld : LdCache) (alpm : AlpmManager)
    (root_path : String) (s rp : Bool)
    (hinj : ∀ e1 ∈ (DepGraph.traverse reader (DepGraph.fresh ld alpm) root_path s).nodes,
      ∀ e2 ∈ (DepGraph.traverse reader (DepGraph.fresh ld alpm) root_path s).nodes,
        amFind alpm.pkg_cache e1.2.path = none → amFind alpm.pkg_cache e2.2.path = none →
        stripSlash e1.2.path = stripSlash e2.2.path → e1.2.path = e2.2.path) :
    (DepGraph.build iter1 reader (DepGraph.fresh ld alpm) root_path s rp).nodes =
      (DepGraph.build iter2 reader (DepGraph.fresh ld alpm) root_path s rp).nodes := by
  cases rp with
  | false => rfl
  | true =>
    simp only [DepGraph.build, if_true, DepGraph.attribute]
    apply List.map_congr_left
    intro e _
    congr 1
    unfold DepGraph.setPkg
    split
    · rfl
    · congr 1
      apply batch_resolve_get_package_congr
      · intro x
        rw [mem_all_paths iter1 h1, mem_all_paths iter2 h2]
      · intro y hy z hz hy2 hz2 hyz
        obtain ⟨e1, he1, _, rfl⟩ := (mem_all_paths iter1 h1 _ y).mp hy
        obtain ⟨e2, he2, _, rfl⟩ := (mem_all_paths iter1 h1 _ z).mp hz
        exact hinj e1 he1 e2 he2 hy2 hz2 hyz

/-- The example graphs do not depend on the iteration order: in none of the
example systems do two node paths differ by a leading '/' only. -/
theorem example_graphs_order_irrelevant
    (iter : List (String × Node) → List (String × Node)) (h : ∀ l, (iter l).Perm l) :
    (DepGraph.build iter exReader (DepGraph.fresh exCache exAlpm) "/usr/bin/app" false
      true).nodes = exGraph.nodes ∧
    (DepGraph.build iter exReader
      (DepGraph.fresh exCache
        ⟨true, some [⟨"app-pkg", ["usr/bin/app"]⟩, ⟨"A", ["usr/lib/liba.so"]⟩,
          ⟨"B", ["usr/lib/libb.so"]⟩], []⟩)
      "/usr/bin/app" false true).nodes = exGraphOwned.nodes ∧
    (DepGraph.build iter exReader
      (DepGraph.fresh exCache
        ⟨true, some [⟨"__ROOT__", ["usr/lib/liba.so"]⟩, ⟨"B", ["usr/lib/libb.so"]⟩], []⟩)
      "/usr/bin/app" false true).nodes = exGraphMarker.nodes :=
  ⟨build_nodes_order_irrelevant iter id h (fun _ => List.Perm.refl _) exReader exCache exAlpm
      "/usr/bin/app" false true (by decide),
    build_nodes_order_irrelevant iter id h (fun _ => List.Perm.refl _) exReader exCache _
      "/usr/bin/app" false true (by decide),
    build_nodes_order_irrelevant iter id h (fun _ => List.Perm.refl _) exReader exCache _
      "/usr/bin/app" false true (by decide)⟩

/-- The same for the example systems with an unpackaged inner library and
with a packaged root beside a package named `__ROOT__`. -/
theorem example_graphs_order_irrelevant_more
    (iter : List (String × Node) → List (String × Node)) (h : ∀ l, (iter l).Perm l) :
    (DepGraph.build iter
      (fun p =>
        if p = "/opt/app" then some ["libu.so", "liba.so"]
        else if p = "/usr/local/lib/libu.so" then some ["libc1.so"]
        else if p = "/usr/lib/libc1.so" then some ["liba.so"]
        else if p = "/usr/lib/liba.so" then some []
        else none)
      (DepGraph.fresh
        ⟨[("libu.so", "/usr/local/lib/libu.so"), ("libc1.so", "/usr/lib/libc1.so"),
          ("liba.so", "/usr/lib/liba.so")]⟩
        ⟨true, some [⟨"A", ["usr/lib/liba.so"]⟩, ⟨"C", ["usr/lib/libc1.so"]⟩], []⟩)
      "/opt/app" false true).nodes = exGraphUnowned.nodes ∧
    (DepGraph.build iter
      (fun p =>
        if p = "/usr/bin/app" then some ["liba.so"]
        else if p = "/usr/lib/liba.so" then some ["libb.so"]
        else if p = "/usr/lib/libb.so" then some []
        else none)
      (DepGraph.fresh exCache
        ⟨true, some [⟨"app-pkg", ["usr/bin/app"]⟩, ⟨"__ROOT__", ["usr/lib/liba.so"]⟩,
          ⟨"B", ["usr/lib/libb.so"]⟩], []⟩)
      "/usr/bin/app" false true).nodes = exGraphOwnedMarker.nodes :=
  ⟨build_nodes_order_irrelevant iter id h (fun _ => List.Perm.refl _) _ _ _
      "/opt/app" false true (by decide),
    build_nodes_order_irrelevant iter id h (fun _ => List.Perm.refl _) _ _ _
      "/usr/bin/app" false true (by decide)⟩

end InspectDeps

